import Mathlib

/-!
# SchedulerQG8: a round-robin scheduler for the MC9S08QG8

A shallow embedding of `Lib/scheluder.c` (with `Project_Headers/scheluder.h`,
`defs.h`, `timers.h`) and a verification of its specification.

Modelling conventions.

* `Byte`, `Word`, `LWord` are naturals kept below `2^8`, `2^16`, `2^32` by an explicit
  `%` wherever the C code can overflow (`int` is 16 bits wide on this target).
* Pointers are 16-bit addresses, `NULL = 0`.
* Thread descriptors (`OsThread_t`) are static objects; the model keeps them in a typed
  store `threads : address → OsThread_t`, separate from the byte-addressed RAM `mem` that
  holds the thread stacks.
* The HCS08 register file is `Cpu`; `SP` points at the next free stack byte, as on the
  real core (`TSX` yields `SP + 1`, `TXS` loads `H:X - 1`).
* Loops whose termination depends on the data are defined with an explicit fuel argument
  and return `none` when the fuel runs out.
-/

namespace SchedulerQG8

/-! ## Constants of `defs.h` -/

def NIBBLE_MASK : Nat := 0x0F

def NIBBLE_SIZE : Nat := 4

def BYTE_MASK : Nat := 0xFF

def BYTE_SIZE : Nat := 8

def WORD_MASK : Nat := 0xFFFF

def WORD_SIZE : Nat := 16

def BUS_FREC : Nat := 4000000

def US_PER_S : Nat := 1000000

def BUS_TICKS_PER_US : Nat := BUS_FREC / US_PER_S

/-- Largest value of the 16-bit `unsigned int` of the target (`limits.h`). -/
def UINT_MAX : Nat := 65535

/-- Largest value of `unsigned char` (`limits.h`). -/
def UCHAR_MAX : Nat := 255

/-- The null pointer. -/
def NULL : Nat := 0

/-- Truncation to `Byte` (`unsigned char`). -/
def toByte (n : Nat) : Nat := n % 256

/-- Truncation to `Word` (16-bit `unsigned int`), also the width of a pointer. -/
def toWord (n : Nat) : Nat := n % 65536

/-- Truncation to `LWord` (32-bit `unsigned long`). -/
def toLWord (n : Nat) : Nat := n % 4294967296

/-! ## Constants of `timers.h` -/

def RTI_DELAY_8MS : Nat := 0b001

def MTI_SRC_BUSCLK : Nat := 0b00

/-! ## Data model of `scheluder.h` -/

/-- Stack memory of a thread (`struct _StackMemory_t`). -/
structure StackMemory_t where
  StartPtr : Nat
  EndPtr : Nat
  Size : Nat

/-- Thread descriptor (`struct _OsThread_t`). -/
structure OsThread_t where
  Thread : Nat
  StackPointer : Nat
  InitialSPConfig : StackMemory_t
  NextThread : Nat
  PrevThread : Nat
  Status : Nat

/-- The anonymous `Scheluder` member of `struct _OSContext_t`. -/
structure Scheluder_t where
  CurrentThread : Nat

/-- Global OS context (`struct _OSContext_t`). -/
structure OSContext_t where
  Ticks : Nat
  MsElapsed : Nat
  Scheluder : Scheluder_t

/-- The descriptor that `DEFINE_THREAD(__thread, __size, __function)` initialises, for a
stack array placed at address `stack_mem`. -/
def DEFINE_THREAD (stack_mem size function : Nat) : OsThread_t :=
  { Thread := function
    StackPointer := stack_mem + size
    InitialSPConfig := { StartPtr := stack_mem + size, EndPtr := stack_mem, Size := size }
    NextThread := NULL
    PrevThread := NULL
    Status := 0x00 }

/-- The HCS08 register file. `CCR` is the byte `V 1 1 H I N Z C`. -/
structure Cpu where
  A : Nat
  X : Nat
  H : Nat
  CCR : Nat
  SP : Nat
  PC : Nat

/-- The peripheral register fields the scheduler writes (`_MTIMMOD`, `_MTIMCLK`, `_MTIMSC`,
`_SRTISC` of the device header). -/
structure HwRegs where
  MTIMMOD : Nat
  MTIMCLK_PS : Nat
  MTIMCLK_CLKS : Nat
  MTIMSC_TOF : Nat
  MTIMSC_TOIE : Nat
  MTIMSC_TRST : Nat
  MTIMSC_TSTP : Nat
  SRTISC_RTIS : Nat
  SRTISC_RTIE : Nat
  SRTISC_RTIACK : Nat

/-- The whole machine: the static `OsContext`, the thread descriptors by address, the RAM
bytes by address, the CPU registers and the peripheral registers. -/
structure Machine where
  OsContext : OSContext_t
  threads : Nat → OsThread_t
  mem : Nat → Nat
  cpu : Cpu
  hw : HwRegs

/-- Store `d` as the descriptor at address `p`. -/
def setThread (threads : Nat → OsThread_t) (p : Nat) (d : OsThread_t) : Nat → OsThread_t :=
  fun q => if q = p then d else threads q

/-- Store byte `v` at RAM address `a`. -/
def writeByte (mem : Nat → Nat) (a v : Nat) : Nat → Nat :=
  fun b => if b = a then v else mem b

/-- The current thread pointer `OsContext.Scheluder.CurrentThread`. -/
def Machine.CurrentThread (s : Machine) : Nat := s.OsContext.Scheluder.CurrentThread

/-- Assignment to `OsContext.Scheluder.CurrentThread`. -/
def Machine.setCurrentThread (s : Machine) (p : Nat) : Machine :=
  { s with OsContext := { s.OsContext with Scheluder := { CurrentThread := p } } }

/-! ## `OS_AddThread` -/

/-- The macro `PUSH_TO_SP(Thread->StackPointer, value)`: decrement the descriptor's stack
pointer as a byte pointer, then store the byte there. -/
def PUSH_TO_SP (Thread value : Nat) (s : Machine) : Machine :=
  let sp := toWord ((s.threads Thread).StackPointer + 65535)
  { s with
    threads := setThread s.threads Thread { s.threads Thread with StackPointer := sp }
    mem := writeByte s.mem sp (toByte value) }

/-- First block of `OS_AddThread` ("Initialize Stack for new Thread"): the six
`PUSH_TO_SP` of the synthetic frame. -/
def formatStack (Thread : Nat) (s : Machine) : Machine :=
  let s := PUSH_TO_SP Thread (toByte (s.threads Thread).Thread) s
  let s := PUSH_TO_SP Thread (toByte (toWord (s.threads Thread).Thread >>> 8)) s
  let s := PUSH_TO_SP Thread 0x00 s
  let s := PUSH_TO_SP Thread 0x6A s
  let s := PUSH_TO_SP Thread 0x00 s
  PUSH_TO_SP Thread 0x00 s

/-- Second block of `OS_AddThread`: make the thread current, after linking it behind the
previously current one when there is one. -/
def linkThread (Thread : Nat) (s : Machine) : Machine :=
  if s.CurrentThread = NULL then
    s.setCurrentThread Thread
  else
    let cur := s.CurrentThread
    let s := { s with threads := setThread s.threads cur { s.threads cur with NextThread := Thread } }
    let s := { s with threads := setThread s.threads Thread { s.threads Thread with PrevThread := cur } }
    s.setCurrentThread Thread

/-- The function `OS_AddThread(Thread)`: format the thread's stack with a synthetic saved
frame, then append the descriptor after the last added one. -/
def OS_AddThread (Thread : Nat) (s : Machine) : Machine :=
  linkThread Thread (formatStack Thread s)

/-- Register the threads of a list, first to last, as successive `OS_AddThread` calls. -/
def addThreads (ts : List Nat) (s : Machine) : Machine :=
  ts.foldl (fun acc t => OS_AddThread t acc) s

/-! ## `OS_InitScheluder` -/

/-- First loop of `OS_InitScheluder`: `while (LastThread->NextThread) LastThread =
LastThread->NextThread;`. The fuel bounds the number of evaluations of the loop condition. -/
def findLastThread (threads : Nat → OsThread_t) : Nat → Nat → Option Nat
  | 0, _ => none
  | fuel + 1, LastThread =>
    if (threads LastThread).NextThread ≠ NULL then
      findLastThread threads fuel (threads LastThread).NextThread
    else some LastThread

/-- Second loop of `OS_InitScheluder`: `while (CurrentThread->PrevThread) CurrentThread =
CurrentThread->PrevThread;`, on the global current-thread pointer. -/
def rewindCurrentThread : Nat → Machine → Option Machine
  | 0, _ => none
  | fuel + 1, s =>
    if (s.threads s.CurrentThread).PrevThread ≠ NULL then
      rewindCurrentThread fuel (s.setCurrentThread (s.threads s.CurrentThread).PrevThread)
    else some s

/-- The function `OS_InitScheluder()`: close the ring and make its head current. Returns
`none` only when a loop is still running after `fuel` evaluations of its condition. -/
def OS_InitScheluder (fuel : Nat) (s : Machine) : Option Machine :=
  if s.CurrentThread = NULL then some s
  else
    match findLastThread s.threads fuel s.CurrentThread with
    | none => none
    | some LastThread =>
      match rewindCurrentThread fuel s with
      | none => none
      | some s =>
        let cur := s.CurrentThread
        let last := { s.threads LastThread with NextThread := cur }
        let s := { s with threads := setThread s.threads LastThread last }
        let first := { s.threads cur with PrevThread := LastThread }
        let s := { s with threads := setThread s.threads cur first }
        some s

/-! ## The HCS08 instructions of the context switch -/

/-- The 16-bit fields of `OsThread_t` that the assembly addresses through `H:X`. -/
inductive Field where
  | StackPointer
  | NextThread

/-- Read a 16-bit field of a descriptor. -/
def Field.get (d : OsThread_t) : Field → Nat
  | Field.StackPointer => d.StackPointer
  | Field.NextThread => d.NextThread

/-- Overwrite a 16-bit field of a descriptor. -/
def Field.set (d : OsThread_t) (v : Nat) : Field → OsThread_t
  | Field.StackPointer => { d with StackPointer := v }
  | Field.NextThread => { d with NextThread := v }

/-- The instructions used by `OS_SwitchContext` and `OS_PullFirstContext`, with their
operands: `LDHX_SP n` is `LDHX n,SP`; `STA_IX f n` is `STA OsThread_t.f + n, X`;
`LDHX_IX f` is `LDHX OsThread_t.f, X`; `STHX_Scheluder` is `STHX OsContext.Scheluder`. -/
inductive Instr where
  | PSHA
  | PSHX
  | PSHH
  | PULA
  | PULX
  | PULH
  | TPA
  | TAP
  | TSX
  | TXS
  | CLI
  | RTS
  | LDHX_SP (off : Nat)
  | STA_IX (f : Field) (off : Nat)
  | LDHX_IX (f : Field)
  | STHX_Scheluder

/-- The index register pair `H:X` as a 16-bit address. -/
def Cpu.HX (c : Cpu) : Nat := toWord (c.H * 256 + c.X)

/-- High byte of a 16-bit value. -/
def hiByte (v : Nat) : Nat := toByte (toWord v >>> 8)

/-- Low byte of a 16-bit value. -/
def loByte (v : Nat) : Nat := toByte v

/-- Flags after a load or store: `V` cleared, `N` and `Z` set from the value moved, the other
bits of `CCR` kept. -/
def setNZ (ccr : Nat) (n z : Bool) : Nat :=
  ((ccr &&& 0x79) ||| (if n then 0x04 else 0)) ||| (if z then 0x02 else 0)

/-- Push a byte: store at `SP`, then decrement `SP`. -/
def push (v : Nat) (s : Machine) : Machine :=
  { s with
    mem := writeByte s.mem s.cpu.SP (toByte v)
    cpu := { s.cpu with SP := toWord (s.cpu.SP + 65535) } }

/-- Execute one instruction. -/
def exec (i : Instr) (s : Machine) : Machine :=
  match i with
  | Instr.PSHA => push s.cpu.A s
  | Instr.PSHX => push s.cpu.X s
  | Instr.PSHH => push s.cpu.H s
  | Instr.PULA =>
    let sp := toWord (s.cpu.SP + 1)
    { s with cpu := { s.cpu with SP := sp, A := toByte (s.mem sp) } }
  | Instr.PULX =>
    let sp := toWord (s.cpu.SP + 1)
    { s with cpu := { s.cpu with SP := sp, X := toByte (s.mem sp) } }
  | Instr.PULH =>
    let sp := toWord (s.cpu.SP + 1)
    { s with cpu := { s.cpu with SP := sp, H := toByte (s.mem sp) } }
  | Instr.TPA => { s with cpu := { s.cpu with A := s.cpu.CCR } }
  | Instr.TAP => { s with cpu := { s.cpu with CCR := toByte s.cpu.A ||| 0x60 } }
  | Instr.TSX =>
    let v := toWord (s.cpu.SP + 1)
    { s with cpu := { s.cpu with H := hiByte v, X := loByte v } }
  | Instr.TXS => { s with cpu := { s.cpu with SP := toWord (s.cpu.HX + 65535) } }
  | Instr.CLI => { s with cpu := { s.cpu with CCR := s.cpu.CCR &&& 0xF7 } }
  | Instr.RTS =>
    let pch := toByte (s.mem (toWord (s.cpu.SP + 1)))
    let pcl := toByte (s.mem (toWord (s.cpu.SP + 2)))
    { s with cpu := { s.cpu with SP := toWord (s.cpu.SP + 2), PC := pch * 256 + pcl } }
  | Instr.LDHX_SP off =>
    let h := toByte (s.mem (toWord (s.cpu.SP + off)))
    let x := toByte (s.mem (toWord (s.cpu.SP + off + 1)))
    { s with cpu := { s.cpu with H := h, X := x,
                                  CCR := setNZ s.cpu.CCR (decide (128 ≤ h)) (decide (h = 0 ∧ x = 0)) } }
  | Instr.STA_IX f off =>
    let p := s.cpu.HX
    let old := f.get (s.threads p)
    let a := toByte s.cpu.A
    let v := if off = 0 then a * 256 + loByte old else hiByte old * 256 + a
    { s with
      threads := setThread s.threads p (f.set (s.threads p) v)
      cpu := { s.cpu with CCR := setNZ s.cpu.CCR (decide (128 ≤ a)) (decide (a = 0)) } }
  | Instr.LDHX_IX f =>
    let v := f.get (s.threads s.cpu.HX)
    { s with cpu := { s.cpu with H := hiByte v, X := loByte v,
                                  CCR := setNZ s.cpu.CCR (decide (128 ≤ hiByte v))
                                    (decide (toWord v = 0)) } }
  | Instr.STHX_Scheluder =>
    { s.setCurrentThread s.cpu.HX with
      cpu := { s.cpu with CCR := setNZ s.cpu.CCR (decide (128 ≤ toByte s.cpu.H))
                                   (decide (s.cpu.HX = 0)) } }

/-- Execute a straight-line instruction sequence. -/
def run (prog : List Instr) (s : Machine) : Machine :=
  prog.foldl (fun acc i => exec i acc) s

/-- The body of `OS_SwitchContext`, in source order. -/
def OS_SwitchContext_asm : List Instr :=
  [ Instr.PSHA, Instr.TPA, Instr.PSHA, Instr.PSHX, Instr.PSHH,
    Instr.TSX, Instr.PSHH, Instr.PSHX,
    Instr.LDHX_SP 3,
    Instr.PULA, Instr.STA_IX Field.StackPointer 1,
    Instr.PULA, Instr.STA_IX Field.StackPointer 0,
    Instr.LDHX_IX Field.NextThread, Instr.STHX_Scheluder,
    Instr.LDHX_IX Field.StackPointer, Instr.TXS,
    Instr.PULH, Instr.PULX, Instr.PULA, Instr.TAP, Instr.PULA,
    Instr.RTS ]

/-- The suspend half of `OS_SwitchContext`: save the registers on the running thread's
stack and record the stack pointer in its descriptor. -/
def suspend_asm : List Instr := OS_SwitchContext_asm.take 13

/-- The dispatch half of `OS_SwitchContext`: advance to the successor, switch to its stack
and restore its registers (from `LDHX OsThread_t.NextThread, X` to `RTS`). -/
def dispatch_asm : List Instr := OS_SwitchContext_asm.drop 13

/-- The body of `OS_PullFirstContext`, in source order. -/
def OS_PullFirstContext_asm : List Instr :=
  [ Instr.LDHX_IX Field.StackPointer, Instr.TXS,
    Instr.PULH, Instr.PULX, Instr.PULA, Instr.TAP, Instr.PULA,
    Instr.CLI,
    Instr.RTS ]

/-- A call of a one-pointer-argument routine: the argument is passed in `H:X` and the
return address `ra` is pushed, low byte first. -/
def callHX (arg ra : Nat) (s : Machine) : Machine :=
  push (hiByte ra) (push (loByte ra)
    { s with cpu := { s.cpu with H := hiByte arg, X := loByte arg } })

/-- The call `OS_SwitchContext(Thread)` made from return address `ra`. -/
def OS_SwitchContext (Thread ra : Nat) (s : Machine) : Machine :=
  run OS_SwitchContext_asm (callHX Thread ra s)

/-- The call `OS_PullFirstContext(Thread)` made from return address `ra`. -/
def OS_PullFirstContext (Thread ra : Nat) (s : Machine) : Machine :=
  run OS_PullFirstContext_asm (callHX Thread ra s)

/-! ## Interrupt handlers and the elapsed-time service -/

/-- The tick handler `RTI_IRQ`: acknowledge and re-enable the interrupt, count the tick, and
switch context away from the current thread. `ra` is the return address of the call. -/
def RTI_IRQ (ra : Nat) (s : Machine) : Machine :=
  let s := { s with hw := { s.hw with SRTISC_RTIACK := 1 } }
  let s := { s with hw := { s.hw with SRTISC_RTIE := 1 } }
  let s := { s with OsContext := { s.OsContext with Ticks := toLWord (s.OsContext.Ticks + 1) } }
  OS_SwitchContext s.CurrentThread ra s

/-- The millisecond handler `MTI_IRQ`: clear the overflow flag, count the millisecond,
restart the timer. -/
def MTI_IRQ (s : Machine) : Machine :=
  let s := { s with hw := { s.hw with MTIMSC_TOF := 0 } }
  let ms := toLWord (s.OsContext.MsElapsed + 1)
  let s := { s with OsContext := { s.OsContext with MsElapsed := ms } }
  let s := { s with hw := { s.hw with MTIMSC_TSTP := 0 } }
  { s with hw := { s.hw with MTIMSC_TRST := 1 } }

/-- The query `OS_GetElapsedTime()`. -/
def OS_GetElapsedTime (s : Machine) : Nat := s.OsContext.MsElapsed

/-- The state after `n` successive firings of `MTI_IRQ`. -/
def pulses : Nat → Machine → Machine
  | 0, s => s
  | n + 1, s => pulses n (MTI_IRQ s)

/-- The busy-wait loop of `OS_DelayMs`: `while ((OsContext.MsElapsed - StartMs) < DelayMs);`
run against an environment in which `g` firings of `MTI_IRQ` precede each sample of the
counter, `g` taken from the list `gaps` sample by sample. The argument `k` counts the samples
taken so far; the result is the number of the sample at which the loop exits and the machine
at that point, or `none` when the loop is still spinning after the last listed sample. -/
def OS_DelayMs_loop (DelayMs StartMs : Nat) : List Nat → Nat → Machine → Option (Nat × Machine)
  | [], _, _ => none
  | g :: gaps, k, s =>
    let s := pulses g s
    if toLWord (s.OsContext.MsElapsed + 4294967296 - StartMs) < DelayMs then
      OS_DelayMs_loop DelayMs StartMs gaps (k + 1) s
    else some (k + 1, s)

/-- The function `OS_DelayMs(DelayMs)`: sample the counter at entry, then busy-wait. -/
def OS_DelayMs (DelayMs : Nat) (gaps : List Nat) (s : Machine) : Option (Nat × Machine) :=
  let StartMs := s.OsContext.MsElapsed
  OS_DelayMs_loop DelayMs StartMs gaps 0 s

/-- Number of `MTI_IRQ` firings that precede sample number `k` (counted from 1) of a run
with the given gaps. -/
def pulsesBefore (gaps : List Nat) (k : Nat) : Nat := (gaps.take k).sum

/-! ## Timer calibration -/

/-- The bit-scan `for` loop of `MTI_RegTraining`, from a given value of `PrescaleLogical`.
The fuel bounds the number of evaluations of the loop condition. -/
def prescaleScan (PrescaleLinear : Nat) : Nat → Nat → Option Nat
  | 0, _ => none
  | fuel + 1, PrescaleLogical =>
    if (PrescaleLogical &&& NIBBLE_MASK) < BYTE_SIZE then
      let body :=
        if ((1 <<< (PrescaleLogical &&& NIBBLE_MASK)) &&& PrescaleLinear) ≠ 0 then
          toByte ((PrescaleLogical &&& NIBBLE_MASK) ||| (PrescaleLogical <<< NIBBLE_SIZE))
        else PrescaleLogical
      prescaleScan PrescaleLinear fuel (toByte (body + 1))
    else some PrescaleLogical

/-- The error of one candidate `Module`, as the `do` loop computes it in `CurrentError`:
the product of the two bytes, converted to the 16-bit unsigned type of the divisor, divided
by the ticks per microsecond, then its distance to `ExpectedTime`. -/
def currentError (ExpectedTime PrescaleLinear Module : Nat) : Nat :=
  let CurrentError := toWord (PrescaleLinear * Module) / toWord BUS_TICKS_PER_US
  if CurrentError < ExpectedTime then ExpectedTime - CurrentError
  else CurrentError - ExpectedTime

/-- The `do ... while (Module-- > 0)` loop of `MTI_RegTraining`, from the current `Module`,
`LowestError` and `OptimalModule`; returns the final `(LowestError, OptimalModule)`. -/
def moduleScan (ExpectedTime PrescaleLinear : Nat) : Nat → Nat → Nat → Nat × Nat
  | 0, LowestError, OptimalModule =>
    if currentError ExpectedTime PrescaleLinear 0 < LowestError then
      (currentError ExpectedTime PrescaleLinear 0, 0)
    else (LowestError, OptimalModule)
  | Module + 1, LowestError, OptimalModule =>
    if currentError ExpectedTime PrescaleLinear (Module + 1) < LowestError then
      moduleScan ExpectedTime PrescaleLinear Module
        (currentError ExpectedTime PrescaleLinear (Module + 1)) (Module + 1)
    else moduleScan ExpectedTime PrescaleLinear Module LowestError OptimalModule

/-- The values computed by `MTI_RegTraining(ExpectedTime)`: the pair `(PrescaleLogical,
OptimalModule)` it writes to the prescaler field and to the modulo register. -/
def MTI_RegTraining_values (fuel ExpectedTime : Nat) : Option (Nat × Nat) :=
  let PrescaleLinear := toByte (toWord (ExpectedTime * toWord BUS_TICKS_PER_US) / BYTE_MASK)
  match prescaleScan PrescaleLinear fuel 0 with
  | none => none
  | some PrescaleLogical =>
    let PrescaleLogical := PrescaleLogical >>> NIBBLE_SIZE
    let PrescaleLogical := toByte (PrescaleLogical + 1)
    let PrescaleLinear := toByte (1 <<< PrescaleLogical)
    let r := moduleScan ExpectedTime PrescaleLinear UCHAR_MAX UINT_MAX UCHAR_MAX
    some (PrescaleLogical, r.2)

/-- The function `MTI_RegTraining(ExpectedTime)`: compute the pair and write it to
`_MTIMMOD` and to the 4-bit field `_MTIMCLK.PS`. -/
def MTI_RegTraining (fuel ExpectedTime : Nat) (s : Machine) : Option Machine :=
  match MTI_RegTraining_values fuel ExpectedTime with
  | none => none
  | some (PrescaleLogical, OptimalModule) =>
    let s := { s with hw := { s.hw with MTIMMOD := OptimalModule } }
    some { s with hw := { s.hw with MTIMCLK_PS := PrescaleLogical % 16 } }

/-- The function `OS_InitSysTick()`. -/
def OS_InitSysTick (s : Machine) : Machine :=
  let s := { s with hw := { s.hw with SRTISC_RTIS := toByte RTI_DELAY_8MS } }
  { s with hw := { s.hw with SRTISC_RTIE := 1 } }

/-- The function `OS_InitElapsedTime()`: stop the timer, select the bus clock, calibrate to
1000 microseconds, enable the interrupt and restart. -/
def OS_InitElapsedTime (fuel : Nat) (s : Machine) : Option Machine :=
  let s := { s with hw := { s.hw with MTIMSC_TSTP := 0b1 } }
  let s := { s with hw := { s.hw with MTIMCLK_CLKS := toByte MTI_SRC_BUSCLK } }
  match MTI_RegTraining fuel 1000 s with
  | none => none
  | some s =>
    let s := { s with hw := { s.hw with MTIMSC_TOIE := 1 } }
    some { s with hw := { s.hw with MTIMSC_TSTP := 0b0 } }

/-- The function `OS_Init()` up to and including the first dispatch (the `while (TRUE)`
after it is never reached). `ra` is the return address of the first-dispatch call. -/
def OS_Init (fuel ra : Nat) (s : Machine) : Option Machine :=
  match OS_InitElapsedTime fuel s with
  | none => none
  | some s =>
    match OS_InitScheluder fuel s with
    | none => none
    | some s =>
      let s := OS_InitSysTick s
      some (OS_PullFirstContext s.CurrentThread ra s)

/-- Links of the descriptor at `t` are as `DEFINE_THREAD` leaves them: both `NULL`. -/
def Fresh (s : Machine) (t : Nat) : Prop :=
  (s.threads t).NextThread = NULL ∧ (s.threads t).PrevThread = NULL

/-- A well-formed registration: nothing registered yet, and the threads to register are
distinct, non-null, 16-bit addresses of freshly defined descriptors. -/
structure Registrable (s : Machine) (ts : List Nat) : Prop where
  current_null : s.CurrentThread = NULL
  nodup : ts.Nodup
  nonnull : ∀ t ∈ ts, t ≠ NULL
  word : ∀ t ∈ ts, t < 65536
  fresh : ∀ t ∈ ts, Fresh s t

/-- A concrete boot image: three threads `A = 0x60`, `B = 0x70`, `C = 0x80` defined with
`DEFINE_THREAD` (64-byte stacks at `0x100`, `0x140`, `0x180`, entry points `0xE000`,
`0xE100`, `0xE200`), zeroed `OsContext`, RAM and registers. -/
def demoMachine : Machine :=
  { OsContext := { Ticks := 0, MsElapsed := 0, Scheluder := { CurrentThread := NULL } }
    threads := fun p =>
      if p = 0x60 then DEFINE_THREAD 0x100 64 0xE000
      else if p = 0x70 then DEFINE_THREAD 0x140 64 0xE100
      else if p = 0x80 then DEFINE_THREAD 0x180 64 0xE200
      else DEFINE_THREAD 0 0 0
    mem := fun _ => 0
    cpu := { A := 0, X := 0, H := 0, CCR := 0x68, SP := 0xFF, PC := 0 }
    hw := { MTIMMOD := 0, MTIMCLK_PS := 0, MTIMCLK_CLKS := 0, MTIMSC_TOF := 0,
            MTIMSC_TOIE := 0, MTIMSC_TRST := 0, MTIMSC_TSTP := 0, SRTISC_RTIS := 0,
            SRTISC_RTIE := 0, SRTISC_RTIACK := 0 } }

/-- Element `i` of the registration list, `NULL` past its end. -/
def nth (ts : List Nat) (i : Nat) : Nat := ts.getD i NULL

/-- The descriptors of `ts` form an open chain in list order: each one's successor is the
next element (`NULL` after the last) and each one's predecessor is the element before
(`NULL` before the first). -/
def OpenChain (s : Machine) (ts : List Nat) : Prop :=
  ∀ i, i < ts.length →
    (s.threads (nth ts i)).NextThread = nth ts (i + 1) ∧
    (s.threads (nth ts i)).PrevThread = (if i = 0 then NULL else nth ts (i - 1))

/-- The registration order `A, B, C` of the concrete boot image. -/
def demoThreads : List Nat := [0x60, 0x70, 0x80]

/-- The descriptors of `ts` form a closed ring in list order: the successor of the last is
the first and the predecessor of the first is the last. -/
def Ring (s : Machine) (ts : List Nat) : Prop :=
  ∀ i, i < ts.length →
    (s.threads (nth ts i)).NextThread = nth ts ((i + 1) % ts.length) ∧
    (s.threads (nth ts i)).PrevThread = nth ts ((i + ts.length - 1) % ts.length)

/-- Follow `NextThread` links `n` times from `p`. -/
def followNext (s : Machine) : Nat → Nat → Nat
  | 0, p => p
  | n + 1, p => followNext s n (s.threads p).NextThread

/-- Follow `PrevThread` links `n` times from `p`. -/
def followPrev (s : Machine) : Nat → Nat → Nat
  | 0, p => p
  | n + 1, p => followPrev s n (s.threads p).PrevThread

/-- A complete saved-context frame at address `S`: from `S` upward the bytes `H`, `X`, `CCR`,
`A`, then the return address, high byte first. -/
def FrameAt (m : Machine) (S h x c a pc : Nat) : Prop :=
  toByte (m.mem (toWord S)) = h ∧
  toByte (m.mem (toWord (S + 1))) = x ∧
  toByte (m.mem (toWord (S + 2))) = c ∧
  toByte (m.mem (toWord (S + 3))) = a ∧
  toByte (m.mem (toWord (S + 4))) = hiByte pc ∧
  toByte (m.mem (toWord (S + 5))) = loByte pc

/-- What can happen to the machine once scheduling has started: a Tick Source firing (the
handler `RTI_IRQ`, whose call of `OS_SwitchContext` returns to `ra`), an ElapsedClock firing
(the handler `MTI_IRQ`), or a stretch of execution of the running thread, which leaves the
registers and the RAM in an arbitrary state and does not touch the scheduler's data. -/
inductive Event where
  | tick (ra : Nat)
  | pulse
  | compute (cpu : Cpu) (mem : Nat → Nat)

/-- The machine after one event. -/
def step (s : Machine) : Event → Machine
  | Event.tick ra => RTI_IRQ ra s
  | Event.pulse => MTI_IRQ s
  | Event.compute cpu mem => { s with cpu := cpu, mem := mem }

/-- The machine after a sequence of events. -/
def runEvents (s : Machine) (es : List Event) : Machine := es.foldl step s

/-- Number of Tick Source firings in a sequence of events. -/
def ticksIn : List Event → Nat
  | [] => 0
  | Event.tick _ :: es => ticksIn es + 1
  | _ :: es => ticksIn es

/-- The threads dispatched by the Tick Source firings of a sequence of events, in order. -/
def dispatchedBy (s : Machine) : List Event → List Nat
  | [] => []
  | Event.tick ra :: es => (RTI_IRQ ra s).CurrentThread :: dispatchedBy (RTI_IRQ ra s) es
  | e :: es => dispatchedBy (step s e) es

/-- The dispatch sequence of a run that starts in `s` (just after the first dispatch): the
thread of the first dispatch, then the thread dispatched by each Tick Source firing. -/
def dispatchLog (s : Machine) (es : List Event) : List Nat :=
  s.CurrentThread :: dispatchedBy s es

/-- The condition codes at the end of the suspend half of `OS_SwitchContext`, entered with
condition codes `c`, index registers `h`, `x` and stack pointer `sp`: the flags of the loads
and stores `LDHX 3,SP`, `STA`, `STA`. -/
def suspendCCR (c x h sp : Nat) : Nat :=
  setNZ
    (setNZ (setNZ c (decide (128 ≤ toByte h)) (decide (toByte h = 0 ∧ toByte x = 0)))
      (decide (128 ≤ loByte (sp + 65533))) (decide (loByte (sp + 65533) = 0)))
    (decide (128 ≤ hiByte (sp + 65533))) (decide (hiByte (sp + 65533) = 0))

/-- The error of a timer setting against a target period, in microseconds: prescaler
exponent `e` and modulo count `m` give the period `m * 2^e / ticks_per_us`. -/
def periodError (e m target : Nat) : ℚ :=
  |((m : ℚ) * 2 ^ e) / (BUS_TICKS_PER_US : ℚ) - (target : ℚ)|

/-- One prescaled timer count, in microseconds: `2^e / ticks_per_us`. -/
def granularity (e : Nat) : ℚ := (2 : ℚ) ^ e / (BUS_TICKS_PER_US : ℚ)

/-- The concrete boot image with thread `A` (descriptor `0x60`) running: `H:X` holds its
descriptor address on entry to `OS_SwitchContext`. -/
def switchDemo : Machine :=
  { demoMachine with
    cpu := { A := 0x12, X := 0x60, H := 0x00, CCR := 0x6B, SP := 0x13B, PC := 0xE010 } }

/-- The last two assignments of `OS_InitScheluder`: `LastThread->NextThread =
CurrentThread; CurrentThread->PrevThread = LastThread;`. -/
def closeRing (s : Machine) (LastThread : Nat) : Machine :=
  let cur := s.CurrentThread
  let last := { s.threads LastThread with NextThread := cur }
  let s := { s with threads := setThread s.threads LastThread last }
  let first := { s.threads cur with PrevThread := LastThread }
  { s with threads := setThread s.threads cur first }

/-- The linear ratio as `MTI_RegTraining` computes it, the first value of `PrescaleLinear`:
`(Byte) ((ExpectedTime * (Word) BUS_TICKS_PER_US) / BYTE_MASK)`. -/
def linearRatio (ExpectedTime : Nat) : Nat :=
  toByte (toWord (ExpectedTime * toWord BUS_TICKS_PER_US) / BYTE_MASK)

/-- The error of count `m` under prescaler exponent `e` as the scan computes it, in whole
microseconds: `|m * 2^e / ticks_per_us - target|` with the integer division of the code. -/
def scanError (e m target : Nat) : Nat :=
  let q := m * 2 ^ e / BUS_TICKS_PER_US
  if q < target then target - q else q - target

/-- The concrete image late in a run: the ring `A → B → C → A` is closed, `A` is running,
the tick counter is at its last 32-bit value and the millisecond counter two pulses before
its wrap. -/
def wrapDemo : Machine :=
  { switchDemo with
    OsContext := { Ticks := 4294967295, MsElapsed := 4294967294,
                   Scheluder := { CurrentThread := 0x60 } }
    threads := fun p =>
      if p = 0x60 then
        { DEFINE_THREAD 0x100 64 0xE000 with NextThread := 0x70, PrevThread := 0x80 }
      else if p = 0x70 then
        { DEFINE_THREAD 0x140 64 0xE100 with NextThread := 0x80, PrevThread := 0x60 }
      else if p = 0x80 then
        { DEFINE_THREAD 0x180 64 0xE200 with NextThread := 0x60, PrevThread := 0x70 }
      else DEFINE_THREAD 0 0 0 }

/-- One past the last byte of the stack region of thread `t`, as `DEFINE_THREAD` records it
in `InitialSPConfig` (its first member, `__stack_mem + __size`). -/
def stackTop (s0 : Machine) (t : Nat) : Nat := (s0.threads t).InitialSPConfig.StartPtr

/-- First byte of the stack region of thread `t`, as `DEFINE_THREAD` records it in
`InitialSPConfig` (its second member, `__stack_mem`). -/
def stackBase (s0 : Machine) (t : Nat) : Nat := (s0.threads t).InitialSPConfig.EndPtr

/-- The caller's side of the registration contract, for the boot image `s0`: every thread
is defined with its stack pointer at the top of its own region and a 16-bit entry address,
the regions hold at least the 8 bytes a context switch needs, do not overlap each other,
and do not contain the two bytes below the boot stack pointer, where the call of
`OS_PullFirstContext` pushes its return address. -/
structure StackLayout (s0 : Machine) (ts : List Nat) : Prop where
  sp_top : ∀ t ∈ ts, (s0.threads t).StackPointer = stackTop s0 t
  room : ∀ t ∈ ts, stackBase s0 t + 8 ≤ stackTop s0 t
  top_word : ∀ t ∈ ts, stackTop s0 t < 65536
  entry_word : ∀ t ∈ ts, (s0.threads t).Thread < 65536
  disjoint : ∀ t ∈ ts, ∀ u ∈ ts, t ≠ u →
    stackTop s0 t ≤ stackBase s0 u ∨ stackTop s0 u ≤ stackBase s0 t
  boot : ∀ t ∈ ts, ∀ a, stackBase s0 t ≤ a → a < stackTop s0 t →
    a ≠ s0.cpu.SP ∧ a ≠ toWord (s0.cpu.SP + 65535)

/-- The contents of a saved-context frame. -/
structure SavedContext where
  H : Nat
  X : Nat
  CCR : Nat
  A : Nat
  PC : Nat

/-- The synthetic frame `OS_AddThread` writes for a thread with the given entry address. -/
def syntheticContext (entry : Nat) : SavedContext :=
  { H := 0x00, X := 0x00, CCR := 0x6A, A := 0x00, PC := entry }

/-- The frame the suspend half of `OS_SwitchContext` writes when `RTI_IRQ` calls it from
return address `ra` in machine `s`: `H:X` carry the descriptor address of the running
thread, `CCR` and `A` are those of the machine. -/
def suspendedContext (s : Machine) (ra : Nat) : SavedContext :=
  { H := hiByte s.CurrentThread, X := loByte s.CurrentThread, CCR := toByte s.cpu.CCR,
    A := toByte s.cpu.A, PC := ra }

/-- The frame at address `S` of machine `m` holds the saved context `k`. -/
def HoldsContext (m : Machine) (S : Nat) (k : SavedContext) : Prop :=
  FrameAt m S k.H k.X k.CCR k.A k.PC

/-- The saved context each thread is due to hold after a run of events from machine `s`,
given the contexts `k` due at `s`: a Tick Source firing replaces the context of the thread
it suspends, nothing else changes any. -/
def savedAfter : (Nat → SavedContext) → Machine → List Event → Nat → SavedContext
  | k, _, [] => k
  | k, s, Event.tick ra :: es =>
    savedAfter (fun t => if t = s.CurrentThread then suspendedContext s ra else k t)
      (RTI_IRQ ra s) es
  | k, s, Event.pulse :: es => savedAfter k (MTI_IRQ s) es
  | k, s, Event.compute cpu mem :: es => savedAfter k (step s (Event.compute cpu mem)) es

/-- An event the scheduler's contract allows in machine `s`: the interrupts may fire at any
time; the running thread may leave any registers and RAM behind, provided its stack pointer
stays inside its own stack with room for the 8 bytes a context switch uses, and it writes no
RAM outside its own stack. -/
def Admissible (s0 s : Machine) : Event → Prop
  | Event.tick _ => True
  | Event.pulse => True
  | Event.compute cpu mem =>
    stackBase s0 s.CurrentThread + 7 ≤ cpu.SP ∧ cpu.SP < stackTop s0 s.CurrentThread ∧
    ∀ a, (a < stackBase s0 s.CurrentThread ∨ stackTop s0 s.CurrentThread ≤ a) →
      mem a = s.mem a

/-- A run of events each of which is admissible in the machine it meets. -/
def AdmissibleRun (s0 : Machine) : Machine → List Event → Prop
  | _, [] => True
  | s, e :: es => Admissible s0 s e ∧ AdmissibleRun s0 (step s e) es

/-- The scheduling invariant for the threads `ts` of boot image `s0`, with `k` the saved
contexts due: a registered thread is running on its own stack with room for a context
switch, the ring is closed, and every other registered thread's `StackPointer` designates a
frame inside that thread's own stack which holds its due context. -/
def Settled (s0 : Machine) (ts : List Nat) (k : Nat → SavedContext) (s : Machine) : Prop :=
  (∃ i, i < ts.length ∧ s.CurrentThread = nth ts i) ∧
  Ring s ts ∧
  (stackBase s0 s.CurrentThread + 7 ≤ s.cpu.SP ∧ s.cpu.SP < stackTop s0 s.CurrentThread) ∧
  ∀ t ∈ ts, t ≠ s.CurrentThread →
    stackBase s0 t + 2 ≤ (s.threads t).StackPointer ∧
    (s.threads t).StackPointer + 6 ≤ stackTop s0 t ∧
    HoldsContext s (s.threads t).StackPointer (k t)

/-! # Verification -/

/-! ## Basic facts about `OS_AddThread` -/

@[simp]
theorem PUSH_TO_SP_current (t v : Nat) (s : Machine) :
    (PUSH_TO_SP t v s).CurrentThread = s.CurrentThread := rfl

@[simp]
theorem PUSH_TO_SP_next (t v q : Nat) (s : Machine) :
    ((PUSH_TO_SP t v s).threads q).NextThread = (s.threads q).NextThread := by
  simp only [PUSH_TO_SP, setThread]
  split <;> simp_all

@[simp]
theorem PUSH_TO_SP_prev (t v q : Nat) (s : Machine) :
    ((PUSH_TO_SP t v s).threads q).PrevThread = (s.threads q).PrevThread := by
  simp only [PUSH_TO_SP, setThread]
  split <;> simp_all

@[simp]
theorem formatStack_current (t : Nat) (s : Machine) :
    (formatStack t s).CurrentThread = s.CurrentThread := rfl

@[simp]
theorem formatStack_next (t q : Nat) (s : Machine) :
    ((formatStack t s).threads q).NextThread = (s.threads q).NextThread := by
  simp only [formatStack, PUSH_TO_SP_next]

@[simp]
theorem formatStack_prev (t q : Nat) (s : Machine) :
    ((formatStack t s).threads q).PrevThread = (s.threads q).PrevThread := by
  simp only [formatStack, PUSH_TO_SP_prev]

@[simp]
theorem OS_AddThread_current (t : Nat) (s : Machine) :
    (OS_AddThread t s).CurrentThread = t := by
  simp only [OS_AddThread, linkThread]
  split <;> rfl

theorem OS_AddThread_next (t q : Nat) (s : Machine) :
    ((OS_AddThread t s).threads q).NextThread =
      if s.CurrentThread ≠ NULL ∧ q = s.CurrentThread then t else (s.threads q).NextThread := by
  simp only [OS_AddThread, linkThread]
  by_cases hc : s.CurrentThread = NULL
  · simp [hc, Machine.setCurrentThread]
  · simp only [formatStack_current, hc, if_false, Machine.setCurrentThread, setThread]
    by_cases h1 : q = t <;> by_cases h2 : q = s.CurrentThread <;> simp_all

theorem OS_AddThread_prev (t q : Nat) (s : Machine) :
    ((OS_AddThread t s).threads q).PrevThread =
      if s.CurrentThread ≠ NULL ∧ q = t then s.CurrentThread else (s.threads q).PrevThread := by
  simp only [OS_AddThread, linkThread]
  by_cases hc : s.CurrentThread = NULL
  · simp [hc, Machine.setCurrentThread]
  · simp only [formatStack_current, hc, if_false, Machine.setCurrentThread, setThread]
    by_cases h1 : q = t <;> by_cases h2 : q = s.CurrentThread <;> simp_all

theorem addThreads_append (ts : List Nat) (t : Nat) (s : Machine) :
    addThreads (ts ++ [t]) s = OS_AddThread t (addThreads ts s) := by
  simp [addThreads, List.foldl_append]

/-! ## Lists of registered threads -/

theorem nth_lt (ts : List Nat) (i : Nat) (h : i < ts.length) : nth ts i = ts[i] :=
  List.getD_eq_getElem ts NULL h

theorem nth_ge (ts : List Nat) (i : Nat) (h : ts.length ≤ i) : nth ts i = NULL :=
  List.getD_eq_default ts NULL h

theorem nth_mem (ts : List Nat) (i : Nat) (h : i < ts.length) : nth ts i ∈ ts := by
  rw [nth_lt ts i h]
  exact List.getElem_mem h

theorem nth_append_left (ts : List Nat) (t i : Nat) (h : i < ts.length) :
    nth (ts ++ [t]) i = nth ts i :=
  List.getD_append ts [t] NULL i h

theorem nth_append_length (ts : List Nat) (t : Nat) : nth (ts ++ [t]) ts.length = t := by
  unfold nth
  rw [List.getD_append_right ts [t] NULL ts.length (le_refl _)]
  simp

theorem nth_inj (ts : List Nat) (hnd : ts.Nodup) (i j : Nat) (hi : i < ts.length)
    (hj : j < ts.length) (h : nth ts i = nth ts j) : i = j := by
  rw [nth_lt ts i hi, nth_lt ts j hj] at h
  exact (List.Nodup.getElem_inj_iff hnd).mp h

theorem getLastD_eq_nth (ts : List Nat) : ts.getLastD NULL = nth ts (ts.length - 1) := by
  induction ts using List.reverseRecOn with
  | nil => rfl
  | append_singleton l a _ =>
    rw [List.getLastD_concat]
    simp only [List.length_append, List.length_singleton, Nat.add_sub_cancel]
    exact (nth_append_length l a).symm

/-! ## The open chain built by registration -/

/-- Registration invariant: the last added thread is current, the registered descriptors
form an open chain in call order, and no other descriptor's links were touched. -/
theorem addThreads_invariant (s0 : Machine) (ts : List Nat) (hr : Registrable s0 ts) :
    (addThreads ts s0).CurrentThread = ts.getLastD NULL ∧
    OpenChain (addThreads ts s0) ts ∧
    (∀ q, q ∉ ts → ((addThreads ts s0).threads q).NextThread = (s0.threads q).NextThread ∧
      ((addThreads ts s0).threads q).PrevThread = (s0.threads q).PrevThread) := by
  induction ts using List.reverseRecOn with
  | nil =>
    refine ⟨hr.current_null, ?_, fun q _ => ⟨rfl, rfl⟩⟩
    intro i hi
    simp at hi
  | append_singleton l t ih =>
    have hnd := List.nodup_append.mp hr.nodup
    have htl : t ∉ l := fun hm => hnd.2.2 hm (List.mem_singleton_self t)
    have hrl : Registrable s0 l :=
      ⟨hr.current_null, hnd.1, fun x hx => hr.nonnull x (List.mem_append_left _ hx),
        fun x hx => hr.word x (List.mem_append_left _ hx),
        fun x hx => hr.fresh x (List.mem_append_left _ hx)⟩
    obtain ⟨hcur, hchain, hrest⟩ := ih hrl
    have ht0 : t ≠ NULL := hr.nonnull t (List.mem_append_right _ (List.mem_singleton_self t))
    have htf : Fresh s0 t := hr.fresh t (List.mem_append_right _ (List.mem_singleton_self t))
    rw [addThreads_append]
    set s := addThreads l s0 with hs
    -- the current thread of `s` is the last element of `l`, or `NULL` when `l` is empty
    have hcur2 : s.CurrentThread = nth l (l.length - 1) := by rw [hcur, getLastD_eq_nth]
    have hcurnull : s.CurrentThread ≠ NULL → 0 < l.length := by
      intro hne
      by_contra hlen
      apply hne
      rw [hcur2]
      exact nth_ge l _ (by omega)
    refine ⟨by rw [OS_AddThread_current, List.getLastD_concat], ?_, ?_⟩
    · intro i hi
      simp only [List.length_append, List.length_singleton] at hi
      rw [OS_AddThread_next, OS_AddThread_prev]
      by_cases hil : i < l.length
      · -- an element of `l`
        rw [nth_append_left l t i hil]
        have hne_t : nth l i ≠ t := fun h => htl (h ▸ nth_mem l i hil)
        obtain ⟨hn, hp⟩ := hchain i hil
        constructor
        · by_cases hlast : i + 1 = l.length
          · have hc : s.CurrentThread = nth l i := by
              rw [hcur2]; congr 1; omega
            have hcn : s.CurrentThread ≠ NULL := by
              rw [hc]; exact hr.nonnull _ (List.mem_append_left _ (nth_mem l i hil))
            rw [if_pos ⟨hcn, hc.symm⟩, hlast, nth_append_length]
          · have hc : ¬ (s.CurrentThread ≠ NULL ∧ nth l i = s.CurrentThread) := by
              rintro ⟨h1, h2⟩
              have hpos := hcurnull h1
              rw [hcur2] at h2
              have := nth_inj l hnd.1 i (l.length - 1) hil (by omega) h2
              omega
            rw [if_neg hc, hn, nth_append_left l t (i + 1) (by omega)]
        · rw [if_neg (fun h => hne_t h.2), hp]
          by_cases hi0 : i = 0
          · simp [hi0]
          · rw [if_neg hi0, if_neg hi0, nth_append_left l t (i - 1) (by omega)]
      · -- the new element
        have hieq : i = l.length := by omega
        subst hieq
        rw [nth_append_length, nth_ge (l ++ [t]) (l.length + 1) (by simp)]
        obtain ⟨hn, hp⟩ := hrest t htl
        constructor
        · have hc : ¬ (s.CurrentThread ≠ NULL ∧ t = s.CurrentThread) := by
            rintro ⟨h1, h2⟩
            have hpos := hcurnull h1
            rw [hcur2] at h2
            exact htl (h2 ▸ nth_mem l _ (by omega))
          rw [if_neg hc, hn, htf.1]
        · by_cases hl0 : l.length = 0
          · have hc : s.CurrentThread = NULL := by
              rw [hcur2]; exact nth_ge l _ (by omega)
            simp [hc, hl0, hp, htf.2]
          · have hcn : s.CurrentThread ≠ NULL := by
              rw [hcur2]
              exact hr.nonnull _ (List.mem_append_left _ (nth_mem l _ (by omega)))
            rw [if_pos ⟨hcn, rfl⟩, if_neg hl0, hcur2,
              nth_append_left l t (l.length - 1) (by omega)]
    · intro q hq
      have hql : q ∉ l := fun h => hq (List.mem_append_left _ h)
      have hqt : q ≠ t := fun h => hq (List.mem_append_right _ (List.mem_singleton.mpr h))
      obtain ⟨hn, hp⟩ := hrest q hql
      rw [OS_AddThread_next, OS_AddThread_prev]
      have hc : ¬ (s.CurrentThread ≠ NULL ∧ q = s.CurrentThread) := by
        rintro ⟨h1, h2⟩
        have hpos := hcurnull h1
        rw [hcur2] at h2
        exact hql (h2 ▸ nth_mem l _ (by omega))
      rw [if_neg hc, if_neg (fun h => hqt h.2)]
      exact ⟨hn, hp⟩

theorem demo_registrable : Registrable demoMachine demoThreads where
  current_null := rfl
  nodup := by decide
  nonnull := by decide
  word := by decide
  fresh := by
    intro t ht
    simp only [demoThreads, List.mem_cons, List.mem_singleton, List.not_mem_nil, or_false] at ht
    rcases ht with h | h | h <;> subst h <;> exact ⟨rfl, rfl⟩

/-- C6: starting with no current thread, registering `k ≥ 1` distinct, freshly defined
threads `ts` in order with `OS_AddThread` leaves an open chain in call order: the last
registered thread is current, the first has no predecessor, the last has no successor, and
each thread's successor is the next registered one, whose predecessor it is. After the first
call alone the sole thread is current and both of its links are `NULL`. -/
theorem C6_OS_AddThread_open_chain (s0 : Machine) (ts : List Nat)
    (hr : Registrable s0 ts) (hne : ts ≠ []) :
    (addThreads ts s0).CurrentThread = ts.getLast hne ∧
    ((addThreads ts s0).threads (ts.head hne)).PrevThread = NULL ∧
    ((addThreads ts s0).threads (ts.getLast hne)).NextThread = NULL ∧
    (∀ i, (h : i + 1 < ts.length) →
      ((addThreads ts s0).threads ts[i]).NextThread = ts[i + 1] ∧
      ((addThreads ts s0).threads ts[i + 1]).PrevThread = ts[i]) ∧
    ((OS_AddThread (ts.head hne) s0).CurrentThread = ts.head hne ∧
      ((OS_AddThread (ts.head hne) s0).threads (ts.head hne)).NextThread = NULL ∧
      ((OS_AddThread (ts.head hne) s0).threads (ts.head hne)).PrevThread = NULL) := by
  obtain ⟨hcur, hchain, -⟩ := addThreads_invariant s0 ts hr
  have hlen : 0 < ts.length := List.length_pos.mpr hne
  have hhead : ts.head hne = nth ts 0 := by
    rw [nth_lt ts 0 hlen]; exact (List.getElem_zero hlen).symm
  have hlast : ts.getLast hne = nth ts (ts.length - 1) := by
    rw [nth_lt ts _ (by omega)]; exact List.getLast_eq_getElem ts hne
  refine ⟨?_, ?_, ?_, ?_, ?_⟩
  · rw [hcur, getLastD_eq_nth, hlast]
  · rw [hhead, (hchain 0 hlen).2]; rfl
  · rw [hlast, (hchain (ts.length - 1) (by omega)).1]
    exact nth_ge ts _ (by omega)
  · intro i h
    have h1 := (hchain i (by omega)).1
    have h2 := (hchain (i + 1) h).2
    rw [if_neg (by omega), Nat.add_sub_cancel] at h2
    rw [nth_lt ts i (by omega), nth_lt ts (i + 1) h] at h1
    rw [nth_lt ts i (by omega), nth_lt ts (i + 1) h] at h2
    exact ⟨h1, h2⟩
  · have hf := hr.fresh (ts.head hne) (List.head_mem hne)
    refine ⟨OS_AddThread_current _ _, ?_, ?_⟩
    · rw [OS_AddThread_next, if_neg (fun h => h.1 hr.current_null)]; exact hf.1
    · rw [OS_AddThread_prev, if_neg (fun h => h.1 hr.current_null)]; exact hf.2

/-- C6 at the concrete boot image: registering `A, B, C` leaves `C` current. -/
theorem C6_OS_AddThread_open_chain_witness :
    Registrable demoMachine demoThreads ∧
    (addThreads demoThreads demoMachine).CurrentThread = 0x80 :=
  ⟨demo_registrable,
    (C6_OS_AddThread_open_chain demoMachine demoThreads demo_registrable (by decide)).1⟩

/-! ## Closing the ring -/

theorem findLastThread_chain (s : Machine) (ts : List Nat) (hnn : ∀ t ∈ ts, t ≠ NULL)
    (hchain : OpenChain s ts) (fuel i : Nat) (hi : i < ts.length)
    (hf : ts.length - i ≤ fuel) :
    findLastThread s.threads fuel (nth ts i) = some (nth ts (ts.length - 1)) := by
  induction fuel generalizing i with
  | zero => omega
  | succ fuel ih =>
    unfold findLastThread
    rw [(hchain i hi).1]
    by_cases hlast : i + 1 < ts.length
    · rw [if_pos (hnn _ (nth_mem ts (i + 1) hlast))]
      exact ih (i + 1) hlast (by omega)
    · rw [if_neg (by rw [nth_ge ts (i + 1) (by omega)]; simp)]
      congr 2
      omega

theorem setCurrentThread_twice (s : Machine) (a b : Nat) :
    (s.setCurrentThread a).setCurrentThread b = s.setCurrentThread b := rfl

theorem rewindCurrentThread_chain (ts : List Nat) (hnn : ∀ t ∈ ts, t ≠ NULL)
    (fuel : Nat) (s : Machine) (hchain : OpenChain s ts) (i : Nat) (hi : i < ts.length)
    (hcur : s.CurrentThread = nth ts i) (hf : i + 1 ≤ fuel) :
    rewindCurrentThread fuel s = some (s.setCurrentThread (nth ts 0)) := by
  induction fuel generalizing s i with
  | zero => omega
  | succ fuel ih =>
    unfold rewindCurrentThread
    rw [hcur, (hchain i hi).2]
    by_cases hi0 : i = 0
    · subst hi0
      rw [if_pos rfl, if_neg (by simp), ← hcur]
      rfl
    · rw [if_neg hi0, if_pos (hnn _ (nth_mem ts (i - 1) (by omega)))]
      have := ih (s.setCurrentThread (nth ts (i - 1))) hchain (i - 1) (by omega) rfl (by omega)
      rw [this, setCurrentThread_twice]

/-- Effect of `OS_InitScheluder` on an open chain, whichever element is current: it
terminates, the head becomes current, the tail's successor becomes the head, the head's
predecessor becomes the tail, and no other link changes. -/
theorem OS_InitScheluder_chain (s : Machine) (ts : List Nat) (hnn : ∀ t ∈ ts, t ≠ NULL)
    (hchain : OpenChain s ts) (i : Nat) (hi : i < ts.length)
    (hcur : s.CurrentThread = nth ts i) (fuel : Nat) (hf : ts.length ≤ fuel) :
    ∃ r, OS_InitScheluder fuel s = some r ∧ r.CurrentThread = nth ts 0 ∧
      (∀ q, (r.threads q).NextThread =
        if q = nth ts (ts.length - 1) then nth ts 0 else (s.threads q).NextThread) ∧
      (∀ q, (r.threads q).PrevThread =
        if q = nth ts 0 then nth ts (ts.length - 1) else (s.threads q).PrevThread) := by
  have hcn : s.CurrentThread ≠ NULL := by rw [hcur]; exact hnn _ (nth_mem ts i hi)
  have h1 := findLastThread_chain s ts hnn hchain fuel i hi (by omega)
  have h2 := rewindCurrentThread_chain ts hnn fuel s hchain i hi hcur (by omega)
  unfold OS_InitScheluder
  rw [if_neg hcn, hcur, h1]
  simp only [h2]
  refine ⟨_, rfl, rfl, ?_, ?_⟩
  · intro q
    simp only [setThread, Machine.setCurrentThread, Machine.CurrentThread]
    by_cases hq0 : q = nth ts 0 <;> by_cases hql : q = nth ts (ts.length - 1) <;> simp_all
  · intro q
    simp only [setThread, Machine.setCurrentThread, Machine.CurrentThread]
    by_cases hq0 : q = nth ts 0 <;> by_cases hql : q = nth ts (ts.length - 1) <;> simp_all

theorem mod_pred_succ (a n : Nat) (hn : 0 < n) : ((a + 1) % n + n - 1) % n = a % n := by
  have h1 : (a + 1) % n + n - 1 = (a + 1) % n + (n - 1) := by omega
  rw [h1, Nat.add_mod, Nat.mod_mod, ← Nat.add_mod]
  have h2 : a + 1 + (n - 1) = a + n := by omega
  rw [h2, Nat.add_mod_right]

/-- Closing an open chain yields a ring. -/
theorem ring_of_closed_chain (s r : Machine) (ts : List Nat) (hnd : ts.Nodup)
    (hchain : OpenChain s ts)
    (hnext : ∀ q, (r.threads q).NextThread =
      if q = nth ts (ts.length - 1) then nth ts 0 else (s.threads q).NextThread)
    (hprev : ∀ q, (r.threads q).PrevThread =
      if q = nth ts 0 then nth ts (ts.length - 1) else (s.threads q).PrevThread) :
    Ring r ts := by
  intro i hi
  rw [hnext, hprev]
  obtain ⟨hn, hp⟩ := hchain i hi
  constructor
  · by_cases hl : i = ts.length - 1
    · rw [if_pos (by rw [hl])]
      have : (i + 1) % ts.length = 0 := by
        have : i + 1 = ts.length := by omega
        rw [this, Nat.mod_self]
      rw [this]
    · have hne : nth ts i ≠ nth ts (ts.length - 1) :=
        fun h => hl (nth_inj ts hnd i _ hi (by omega) h)
      rw [if_neg hne, hn, Nat.mod_eq_of_lt (by omega)]
  · by_cases h0 : i = 0
    · subst h0
      rw [if_pos rfl, Nat.zero_add, Nat.mod_eq_of_lt (by omega)]
    · have hne : nth ts i ≠ nth ts 0 := fun h => h0 (nth_inj ts hnd i 0 hi (by omega) h)
      rw [if_neg hne, hp, if_neg h0]
      have : i + ts.length - 1 = (i - 1) + ts.length := by omega
      rw [this, Nat.add_mod_right, Nat.mod_eq_of_lt (by omega)]

theorem followNext_ring (s : Machine) (ts : List Nat) (hring : Ring s ts) (k i : Nat)
    (hi : i < ts.length) : followNext s k (nth ts i) = nth ts ((i + k) % ts.length) := by
  induction k generalizing i with
  | zero => simp [followNext, Nat.mod_eq_of_lt hi]
  | succ k ih =>
    unfold followNext
    rw [(hring i hi).1, ih _ (Nat.mod_lt _ (by omega)), Nat.mod_add_mod]
    congr 2
    omega

theorem followPrev_ring (s : Machine) (ts : List Nat) (hring : Ring s ts) (k j : Nat)
    (hj : j < ts.length) : followPrev s k (nth ts ((j + k) % ts.length)) = nth ts j := by
  induction k with
  | zero => simp [followPrev, Nat.mod_eq_of_lt hj]
  | succ k ih =>
    unfold followPrev
    have hpos : 0 < ts.length := by omega
    rw [(hring _ (Nat.mod_lt _ hpos)).2, ← Nat.add_assoc, mod_pred_succ _ _ hpos]
    exact ih

/-- Registration followed by `OS_InitScheluder` terminates with the ring closed in
registration order and the first registered thread current. -/
theorem registered_ring (s0 : Machine) (ts : List Nat) (hr : Registrable s0 ts)
    (hne : ts ≠ []) (fuel : Nat) (hf : ts.length ≤ fuel) :
    ∃ r, OS_InitScheluder fuel (addThreads ts s0) = some r ∧
      r.CurrentThread = nth ts 0 ∧ Ring r ts := by
  obtain ⟨hcur, hchain, -⟩ := addThreads_invariant s0 ts hr
  have hlen : 0 < ts.length := List.length_pos.mpr hne
  rw [getLastD_eq_nth] at hcur
  obtain ⟨r, hr1, hr2, hr3, hr4⟩ := OS_InitScheluder_chain (addThreads ts s0) ts hr.nonnull
    hchain (ts.length - 1) (by omega) hcur fuel hf
  exact ⟨r, hr1, hr2, ring_of_closed_chain _ r ts hr.nodup hchain hr3 hr4⟩

/-- C2: for `N ≥ 1` distinct, freshly defined threads registered with `OS_AddThread` and
closed by `OS_InitScheluder` (which terminates within `N` evaluations of each loop
condition), following `NextThread` exactly `N` times from any registered thread returns to
it, and so does following `PrevThread` exactly `N` times; a single thread is its own
successor and predecessor. -/
theorem C2_ring_closure (s0 : Machine) (ts : List Nat) (hr : Registrable s0 ts)
    (hne : ts ≠ []) (fuel : Nat) (hf : ts.length ≤ fuel) :
    ∃ r, OS_InitScheluder fuel (addThreads ts s0) = some r ∧
      (∀ t ∈ ts, followNext r ts.length t = t ∧ followPrev r ts.length t = t) ∧
      (ts.length = 1 → ∀ t ∈ ts,
        (r.threads t).NextThread = t ∧ (r.threads t).PrevThread = t) := by
  obtain ⟨r, hr1, -, hring⟩ := registered_ring s0 ts hr hne fuel hf
  have key : ∀ t ∈ ts, followNext r ts.length t = t ∧ followPrev r ts.length t = t := by
    intro t ht
    obtain ⟨i, hi, rfl⟩ := List.getElem_of_mem ht
    rw [← nth_lt ts i hi]
    constructor
    · rw [followNext_ring r ts hring _ i hi, Nat.add_mod_right, Nat.mod_eq_of_lt hi]
    · have := followPrev_ring r ts hring ts.length i hi
      rwa [Nat.add_mod_right, Nat.mod_eq_of_lt hi] at this
  refine ⟨r, hr1, key, ?_⟩
  intro h1 t ht
  have := key t ht
  rw [h1] at this
  exact this

/-- C2 at the concrete boot image with three threads. -/
theorem C2_ring_closure_witness :
    Registrable demoMachine demoThreads ∧
    ∃ r, OS_InitScheluder 3 (addThreads demoThreads demoMachine) = some r ∧
      (∀ t ∈ demoThreads, followNext r demoThreads.length t = t ∧
        followPrev r demoThreads.length t = t) ∧
      (demoThreads.length = 1 → ∀ t ∈ demoThreads,
        (r.threads t).NextThread = t ∧ (r.threads t).PrevThread = t) :=
  ⟨demo_registrable,
    C2_ring_closure demoMachine demoThreads demo_registrable (by decide) 3 (by decide)⟩

/-! ## Symbolic execution of the context-switch code -/

theorem writeByte_same (m : Nat → Nat) (a v : Nat) : writeByte m a v a = v := by
  simp [writeByte]

theorem writeByte_other (m : Nat → Nat) (a v b : Nat) (h : b ≠ a) : writeByte m a v b = m b := by
  simp [writeByte, h]

theorem hiByte_eq (v : Nat) : hiByte v = v % 65536 / 256 := by
  unfold hiByte toByte toWord
  rw [Nat.shiftRight_eq_div_pow]
  omega

theorem word_of_bytes (v : Nat) : toWord (hiByte v * 256 + loByte v) = toWord v := by
  rw [hiByte_eq]
  unfold loByte toByte toWord
  omega

theorem run_nil (s : Machine) : run [] s = s := by
  exact id rfl

theorem run_cons (i : Instr) (is : List Instr) (s : Machine) : run (i :: is) s = run is (exec i s) := by
  exact id rfl

section
variable (ctx : OSContext_t) (th : Nat → OsThread_t) (mem : Nat → Nat) (a x h c sp pc : Nat) (hw : HwRegs)

theorem exec_PSHA : exec Instr.PSHA ⟨ctx, th, mem, ⟨a, x, h, c, sp, pc⟩, hw⟩ =
  ⟨ctx, th, writeByte mem sp (toByte a), ⟨a, x, h, c, toWord (sp + 65535), pc⟩, hw⟩ := by
  exact id rfl

theorem exec_PSHX : exec Instr.PSHX ⟨ctx, th, mem, ⟨a, x, h, c, sp, pc⟩, hw⟩ =
  ⟨ctx, th, writeByte mem sp (toByte x), ⟨a, x, h, c, toWord (sp + 65535), pc⟩, hw⟩ := by
  exact id rfl

theorem exec_PSHH : exec Instr.PSHH ⟨ctx, th, mem, ⟨a, x, h, c, sp, pc⟩, hw⟩ =
  ⟨ctx, th, writeByte mem sp (toByte h), ⟨a, x, h, c, toWord (sp + 65535), pc⟩, hw⟩ := by
  exact id rfl

theorem exec_PULA : exec Instr.PULA ⟨ctx, th, mem, ⟨a, x, h, c, sp, pc⟩, hw⟩ =
  ⟨ctx, th, mem, ⟨toByte (mem (toWord (sp + 1))), x, h, c, toWord (sp + 1), pc⟩, hw⟩ := by
  exact id rfl

theorem exec_PULX : exec Instr.PULX ⟨ctx, th, mem, ⟨a, x, h, c, sp, pc⟩, hw⟩ =
  ⟨ctx, th, mem, ⟨a, toByte (mem (toWord (sp + 1))), h, c, toWord (sp + 1), pc⟩, hw⟩ := by
  exact id rfl

theorem exec_PULH : exec Instr.PULH ⟨ctx, th, mem, ⟨a, x, h, c, sp, pc⟩, hw⟩ =
  ⟨ctx, th, mem, ⟨a, x, toByte (mem (toWord (sp + 1))), c, toWord (sp + 1), pc⟩, hw⟩ := by
  exact id rfl

theorem exec_TPA : exec Instr.TPA ⟨ctx, th, mem, ⟨a, x, h, c, sp, pc⟩, hw⟩ =
  ⟨ctx, th, mem, ⟨c, x, h, c, sp, pc⟩, hw⟩ := by
  exact id rfl

theorem exec_TAP : exec Instr.TAP ⟨ctx, th, mem, ⟨a, x, h, c, sp, pc⟩, hw⟩ =
  ⟨ctx, th, mem, ⟨a, x, h, toByte a ||| 0x60, sp, pc⟩, hw⟩ := by
  exact id rfl

theorem exec_TSX : exec Instr.TSX ⟨ctx, th, mem, ⟨a, x, h, c, sp, pc⟩, hw⟩ =
  ⟨ctx, th, mem, ⟨a, loByte (toWord (sp + 1)), hiByte (toWord (sp + 1)), c, sp, pc⟩, hw⟩ := by
  exact id rfl

theorem exec_TXS : exec Instr.TXS ⟨ctx, th, mem, ⟨a, x, h, c, sp, pc⟩, hw⟩ =
  ⟨ctx, th, mem, ⟨a, x, h, c, toWord (toWord (h * 256 + x) + 65535), pc⟩, hw⟩ := by
  exact id rfl

theorem exec_CLI : exec Instr.CLI ⟨ctx, th, mem, ⟨a, x, h, c, sp, pc⟩, hw⟩ =
  ⟨ctx, th, mem, ⟨a, x, h, c &&& 0xF7, sp, pc⟩, hw⟩ := by
  exact id rfl

theorem exec_RTS : exec Instr.RTS ⟨ctx, th, mem, ⟨a, x, h, c, sp, pc⟩, hw⟩ =
  ⟨ctx, th, mem, ⟨a, x, h, c, toWord (sp + 2),
    toByte (mem (toWord (sp + 1))) * 256 + toByte (mem (toWord (sp + 2)))⟩, hw⟩ := by
  exact id rfl

theorem exec_LDHX_SP (off : Nat) : exec (Instr.LDHX_SP off) ⟨ctx, th, mem, ⟨a, x, h, c, sp, pc⟩, hw⟩ =
  ⟨ctx, th, mem, ⟨a, toByte (mem (toWord (sp + off + 1))), toByte (mem (toWord (sp + off))),
    setNZ c (decide (128 ≤ toByte (mem (toWord (sp + off)))))
      (decide (toByte (mem (toWord (sp + off))) = 0 ∧ toByte (mem (toWord (sp + off + 1))) = 0)),
    sp, pc⟩, hw⟩ := by
  exact id rfl

theorem exec_LDHX_IX (f : Field) : exec (Instr.LDHX_IX f) ⟨ctx, th, mem, ⟨a, x, h, c, sp, pc⟩, hw⟩ =
  ⟨ctx, th, mem, ⟨a, loByte (f.get (th (toWord (h * 256 + x)))), hiByte (f.get (th (toWord (h * 256 + x)))),
    setNZ c (decide (128 ≤ hiByte (f.get (th (toWord (h * 256 + x))))))
      (decide (toWord (f.get (th (toWord (h * 256 + x)))) = 0)),
    sp, pc⟩, hw⟩ := by
  exact id rfl
end
section
variable (ctx : OSContext_t) (th : Nat → OsThread_t) (mem : Nat → Nat) (a x h c sp pc : Nat) (hw : HwRegs)

theorem exec_STA_IX (f : Field) (off : Nat) :
    exec (Instr.STA_IX f off) ⟨ctx, th, mem, ⟨a, x, h, c, sp, pc⟩, hw⟩ =
  ⟨ctx, setThread th (toWord (h * 256 + x)) (f.set (th (toWord (h * 256 + x)))
      (if off = 0 then toByte a * 256 + loByte (f.get (th (toWord (h * 256 + x))))
       else hiByte (f.get (th (toWord (h * 256 + x)))) * 256 + toByte a)),
    mem, ⟨a, x, h, setNZ c (decide (128 ≤ toByte a)) (decide (toByte a = 0)), sp, pc⟩, hw⟩ := by
  exact id rfl

theorem exec_STHX_Scheluder (ticks ms cur : Nat) :
    exec Instr.STHX_Scheluder ⟨⟨ticks, ms, ⟨cur⟩⟩, th, mem, ⟨a, x, h, c, sp, pc⟩, hw⟩ =
  ⟨⟨ticks, ms, ⟨toWord (h * 256 + x)⟩⟩, th, mem,
    ⟨a, x, h, setNZ c (decide (128 ≤ toByte h)) (decide (toWord (h * 256 + x) = 0)), sp, pc⟩, hw⟩ := by
  exact id rfl
end

theorem suspend_asm_eq : suspend_asm =
  [ Instr.PSHA, Instr.TPA, Instr.PSHA, Instr.PSHX, Instr.PSHH,
    Instr.TSX, Instr.PSHH, Instr.PSHX,
    Instr.LDHX_SP 3,
    Instr.PULA, Instr.STA_IX Field.StackPointer 1,
    Instr.PULA, Instr.STA_IX Field.StackPointer 0] := rfl

theorem dispatch_asm_eq : dispatch_asm =
  [ Instr.LDHX_IX Field.NextThread, Instr.STHX_Scheluder,
    Instr.LDHX_IX Field.StackPointer, Instr.TXS,
    Instr.PULH, Instr.PULX, Instr.PULA, Instr.TAP, Instr.PULA,
    Instr.RTS ] := rfl


theorem toWord_toWord_add (a b : Nat) : toWord (toWord a + b) = toWord (a + b) := by
  unfold toWord; omega

theorem toByte_toByte (a : Nat) : toByte (toByte a) = toByte a := by
  unfold toByte; omega

theorem toByte_hiByte (a : Nat) : toByte (hiByte a) = hiByte a := by
  unfold hiByte; exact toByte_toByte _

theorem toByte_loByte (a : Nat) : toByte (loByte a) = loByte a := by
  unfold loByte; exact toByte_toByte _

theorem hiByte_toWord (a : Nat) : hiByte (toWord a) = hiByte a := by
  unfold hiByte toWord; simp

theorem loByte_toWord (a : Nat) : loByte (toWord a) = loByte a := by
  unfold loByte toWord toByte; omega


theorem toWord_add_wrap (a b : Nat) : toWord (a + (b + 65536)) = toWord (a + b) := by
  unfold toWord; omega


theorem setThread_same (th : Nat → OsThread_t) (p : Nat) (d : OsThread_t) :
    setThread th p d p = d := by simp [setThread]

theorem setThread_other (th : Nat → OsThread_t) (p q : Nat) (d : OsThread_t) (h : q ≠ p) :
    setThread th p d q = th q := by simp [setThread, h]

theorem setThread_setThread (th : Nat → OsThread_t) (p : Nat) (d e : OsThread_t) :
    setThread (setThread th p d) p e = setThread th p e := by
  funext q
  simp only [setThread]
  split <;> rfl

theorem Field.get_set (d : OsThread_t) (v : Nat) (f : Field) : f.get (f.set d v) = v := by
  cases f <;> rfl

theorem Field.set_set (d : OsThread_t) (v w : Nat) (f : Field) : f.set (f.set d v) w = f.set d w := by
  cases f <;> rfl


theorem loByte_mul_add (a b : Nat) : loByte (a * 256 + b) = loByte b := by
  unfold loByte toByte; omega

theorem bytes_eq_toWord (v : Nat) : hiByte v * 256 + loByte v = toWord v := by
  rw [hiByte_eq]; unfold loByte toByte toWord; omega

theorem loByte_loByte (v : Nat) : loByte (loByte v) = loByte v := by
  unfold loByte toByte; omega

theorem run_suspend (ctx : OSContext_t) (th : Nat → OsThread_t) (mem : Nat → Nat)
    (a x h c sp pc : Nat) (hw : HwRegs) :
    run suspend_asm ⟨ctx, th, mem, ⟨a, x, h, c, sp, pc⟩, hw⟩ =
      ⟨ctx,
        setThread th (toWord (toByte h * 256 + toByte x))
          (Field.StackPointer.set (th (toWord (toByte h * 256 + toByte x))) (toWord (sp + 65533))),
        writeByte (writeByte (writeByte (writeByte (writeByte (writeByte mem
          sp (toByte a))
          (toWord (sp + 65535)) (toByte c))
          (toWord (sp + 65534)) (toByte x))
          (toWord (sp + 65533)) (toByte h))
          (toWord (sp + 65532)) (hiByte (sp + 65533)))
          (toWord (sp + 65531)) (loByte (sp + 65533)),
        ⟨hiByte (sp + 65533), toByte x, toByte h,
          suspendCCR c x h sp,
          toWord (sp + 65532), pc⟩,
        hw⟩ := by
  simp (disch := (simp only [toWord]; omega)) only [suspend_asm_eq, run_cons, run_nil,
    exec_PSHA, exec_PSHX, exec_PSHH, exec_PULA, exec_TPA, exec_TSX, exec_LDHX_SP, exec_STA_IX,
    toWord_toWord_add, Nat.add_assoc, Nat.reduceAdd, writeByte_same, writeByte_other,
    toByte_toByte, toByte_hiByte, toByte_loByte, hiByte_toWord, loByte_toWord, word_of_bytes,
    toWord_add_wrap, one_ne_zero, if_false, if_true, setThread_same, setThread_setThread,
    loByte_mul_add, bytes_eq_toWord, loByte_loByte,
    Field.get_set, Field.set_set, suspendCCR]

theorem run_dispatch (ticks ms cur : Nat) (th : Nat → OsThread_t) (mem : Nat → Nat)
    (a x h c sp pc : Nat) (hw : HwRegs) :
    run dispatch_asm ⟨⟨ticks, ms, ⟨cur⟩⟩, th, mem, ⟨a, x, h, c, sp, pc⟩, hw⟩ =
      ⟨⟨ticks, ms, ⟨toWord (th (toWord (h * 256 + x))).NextThread⟩⟩, th, mem,
        ⟨toByte (mem (toWord ((th (toWord (th (toWord (h * 256 + x))).NextThread)).StackPointer + 3))),
         toByte (mem (toWord ((th (toWord (th (toWord (h * 256 + x))).NextThread)).StackPointer + 1))),
         toByte (mem (toWord ((th (toWord (th (toWord (h * 256 + x))).NextThread)).StackPointer))),
         toByte (mem (toWord ((th (toWord (th (toWord (h * 256 + x))).NextThread)).StackPointer + 2))) ||| 0x60,
         toWord ((th (toWord (th (toWord (h * 256 + x))).NextThread)).StackPointer + 5),
         toByte (mem (toWord ((th (toWord (th (toWord (h * 256 + x))).NextThread)).StackPointer + 4))) * 256
           + toByte (mem (toWord ((th (toWord (th (toWord (h * 256 + x))).NextThread)).StackPointer + 5)))⟩,
        hw⟩ := by
  simp (disch := (simp only [toWord]; omega)) only [dispatch_asm_eq, run_cons, run_nil,
    exec_PULA, exec_PULX, exec_PULH, exec_TAP, exec_TXS, exec_RTS, exec_LDHX_IX, exec_STHX_Scheluder,
    toWord_toWord_add, Nat.add_assoc, Nat.reduceAdd,
    toByte_toByte, toByte_hiByte, toByte_loByte, hiByte_toWord, loByte_toWord, word_of_bytes,
    toWord_add_wrap, Nat.add_zero, Field.get]

theorem OS_PullFirstContext_asm_take : OS_PullFirstContext_asm.take 7 =
    [ Instr.LDHX_IX Field.StackPointer, Instr.TXS,
      Instr.PULH, Instr.PULX, Instr.PULA, Instr.TAP, Instr.PULA ] := rfl

theorem run_append (p q : List Instr) (s : Machine) : run (p ++ q) s = run q (run p s) := by
  simp [run, List.foldl_append]

theorem OS_SwitchContext_asm_split : OS_SwitchContext_asm = suspend_asm ++ dispatch_asm :=
  (List.take_append_drop 13 OS_SwitchContext_asm).symm

theorem run_pullFirst_pops (ctx : OSContext_t) (th : Nat → OsThread_t) (mem : Nat → Nat)
    (a x h c sp pc : Nat) (hw : HwRegs) :
    run (OS_PullFirstContext_asm.take 7) ⟨ctx, th, mem, ⟨a, x, h, c, sp, pc⟩, hw⟩ =
      ⟨ctx, th, mem,
        ⟨toByte (mem (toWord ((th (toWord (h * 256 + x))).StackPointer + 3))),
         toByte (mem (toWord ((th (toWord (h * 256 + x))).StackPointer + 1))),
         toByte (mem (toWord ((th (toWord (h * 256 + x))).StackPointer))),
         toByte (mem (toWord ((th (toWord (h * 256 + x))).StackPointer + 2))) ||| 0x60,
         toWord ((th (toWord (h * 256 + x))).StackPointer + 3),
         pc⟩,
        hw⟩ := by
  simp only [OS_PullFirstContext_asm_take, run_cons, run_nil,
    exec_PULA, exec_PULX, exec_PULH, exec_TAP, exec_TXS, exec_LDHX_IX,
    toWord_toWord_add, Nat.add_assoc, Nat.reduceAdd,
    toByte_toByte, hiByte_toWord, loByte_toWord, word_of_bytes,
    toWord_add_wrap, Nat.add_zero, Field.get]

theorem run_pullFirst (ctx : OSContext_t) (th : Nat → OsThread_t) (mem : Nat → Nat)
    (a x h c sp pc : Nat) (hw : HwRegs) :
    run OS_PullFirstContext_asm ⟨ctx, th, mem, ⟨a, x, h, c, sp, pc⟩, hw⟩ =
      ⟨ctx, th, mem,
        ⟨toByte (mem (toWord ((th (toWord (h * 256 + x))).StackPointer + 3))),
         toByte (mem (toWord ((th (toWord (h * 256 + x))).StackPointer + 1))),
         toByte (mem (toWord ((th (toWord (h * 256 + x))).StackPointer))),
         (toByte (mem (toWord ((th (toWord (h * 256 + x))).StackPointer + 2))) ||| 0x60) &&& 0xF7,
         toWord ((th (toWord (h * 256 + x))).StackPointer + 5),
         toByte (mem (toWord ((th (toWord (h * 256 + x))).StackPointer + 4))) * 256
           + toByte (mem (toWord ((th (toWord (h * 256 + x))).StackPointer + 5)))⟩,
        hw⟩ := by
  simp only [OS_PullFirstContext_asm, run_cons, run_nil,
    exec_PULA, exec_PULX, exec_PULH, exec_TAP, exec_TXS, exec_RTS, exec_CLI, exec_LDHX_IX,
    toWord_toWord_add, Nat.add_assoc, Nat.reduceAdd,
    toByte_toByte, hiByte_toWord, loByte_toWord, word_of_bytes,
    toWord_add_wrap, Nat.add_zero, Field.get]

theorem callHX_mk (arg ra : Nat) (ctx : OSContext_t) (th : Nat → OsThread_t) (mem : Nat → Nat)
    (a x h c sp pc : Nat) (hw : HwRegs) :
    callHX arg ra ⟨ctx, th, mem, ⟨a, x, h, c, sp, pc⟩, hw⟩ =
      ⟨ctx, th,
        writeByte (writeByte mem sp (loByte ra)) (toWord (sp + 65535)) (hiByte ra),
        ⟨a, loByte arg, hiByte arg, c, toWord (sp + 65534), pc⟩, hw⟩ := by
  simp only [callHX, push, toByte_hiByte, toByte_loByte, toWord_toWord_add, Nat.add_assoc,
    Nat.reduceAdd, toWord_add_wrap]

theorem Field.set_StackPointer_next (d : OsThread_t) (v : Nat) :
    (Field.StackPointer.set d v).NextThread = d.NextThread := rfl

theorem Field.set_StackPointer_prev (d : OsThread_t) (v : Nat) :
    (Field.StackPointer.set d v).PrevThread = d.PrevThread := rfl

/-- The whole of `OS_SwitchContext`, called on `arg`: the descriptor `toWord arg` gets its
stack pointer saved, its successor becomes current and the successor's frame is restored. -/
theorem OS_SwitchContext_current (arg ra : Nat) (s : Machine) :
    (OS_SwitchContext arg ra s).CurrentThread =
      toWord (s.threads (toWord arg)).NextThread := by
  obtain ⟨⟨ticks, ms, ⟨cur⟩⟩, th, mem, ⟨a, x, h, c, sp, pc⟩, hw⟩ := s
  unfold OS_SwitchContext
  rw [OS_SwitchContext_asm_split, run_append, callHX_mk, run_suspend, run_dispatch]
  simp only [Machine.CurrentThread, toByte_hiByte, toByte_loByte, word_of_bytes,
    setThread_same, Field.set_StackPointer_next]

theorem OS_SwitchContext_next (arg ra q : Nat) (s : Machine) :
    ((OS_SwitchContext arg ra s).threads q).NextThread = (s.threads q).NextThread := by
  obtain ⟨⟨ticks, ms, ⟨cur⟩⟩, th, mem, ⟨a, x, h, c, sp, pc⟩, hw⟩ := s
  unfold OS_SwitchContext
  rw [OS_SwitchContext_asm_split, run_append, callHX_mk, run_suspend, run_dispatch]
  simp only [toByte_hiByte, toByte_loByte, word_of_bytes]
  by_cases hq : q = toWord arg
  · rw [hq, setThread_same, Field.set_StackPointer_next]
  · rw [setThread_other _ _ _ _ hq]

theorem OS_SwitchContext_prev (arg ra q : Nat) (s : Machine) :
    ((OS_SwitchContext arg ra s).threads q).PrevThread = (s.threads q).PrevThread := by
  obtain ⟨⟨ticks, ms, ⟨cur⟩⟩, th, mem, ⟨a, x, h, c, sp, pc⟩, hw⟩ := s
  unfold OS_SwitchContext
  rw [OS_SwitchContext_asm_split, run_append, callHX_mk, run_suspend, run_dispatch]
  simp only [toByte_hiByte, toByte_loByte, word_of_bytes]
  by_cases hq : q = toWord arg
  · rw [hq, setThread_same, Field.set_StackPointer_prev]
  · rw [setThread_other _ _ _ _ hq]

theorem RTI_IRQ_current (ra : Nat) (s : Machine) :
    (RTI_IRQ ra s).CurrentThread = toWord (s.threads (toWord s.CurrentThread)).NextThread := by
  unfold RTI_IRQ
  exact OS_SwitchContext_current _ _ _

theorem RTI_IRQ_next (ra q : Nat) (s : Machine) :
    ((RTI_IRQ ra s).threads q).NextThread = (s.threads q).NextThread := by
  unfold RTI_IRQ
  exact OS_SwitchContext_next _ _ _ _

theorem RTI_IRQ_prev (ra q : Nat) (s : Machine) :
    ((RTI_IRQ ra s).threads q).PrevThread = (s.threads q).PrevThread := by
  unfold RTI_IRQ
  exact OS_SwitchContext_prev _ _ _ _

/-! ## Boot sequence -/

theorem prescaleScan_mono (r : Nat) (fuel k : Nat) (p v : Nat)
    (h : prescaleScan r fuel p = some v) : prescaleScan r (fuel + k) p = some v := by
  induction fuel generalizing p with
  | zero => simp [prescaleScan] at h
  | succ fuel ih =>
    rw [Nat.add_right_comm]
    unfold prescaleScan at h ⊢
    split
    · rename_i hc
      rw [if_pos hc] at h
      exact ih _ h
    · rename_i hc
      rw [if_neg hc] at h
      exact h

set_option maxRecDepth 100000 in
theorem MTI_RegTraining_values_1000 (fuel : Nat) (hf : 9 ≤ fuel) :
    MTI_RegTraining_values fuel 1000 = some (4, 250) := by
  have h9 : prescaleScan 15 9 0 = some 0x38 := by decide
  have hscan : prescaleScan 15 fuel 0 = some 0x38 := by
    have := prescaleScan_mono 15 9 (fuel - 9) 0 0x38 h9
    rwa [Nat.add_sub_cancel' hf] at this
  have hlin : toByte (toWord (1000 * toWord BUS_TICKS_PER_US) / BYTE_MASK) = 15 := by decide
  have hmod : moduleScan 1000 16 255 65535 255 = (0, 250) := by decide
  unfold MTI_RegTraining_values
  simp only [hlin, hscan]
  have e1 : toByte ((0x38 : Nat) >>> NIBBLE_SIZE + 1) = 4 := by decide
  have e2 : toByte (1 <<< 4) = 16 := by decide
  simp only [e1, e2, UCHAR_MAX, UINT_MAX, hmod]

theorem OS_InitElapsedTime_some (fuel : Nat) (hf : 9 ≤ fuel) (s : Machine) :
    ∃ r, OS_InitElapsedTime fuel s = some r ∧ r.OsContext = s.OsContext ∧
      r.threads = s.threads ∧ r.mem = s.mem ∧ r.cpu = s.cpu ∧
      r.hw.MTIMCLK_PS = 4 ∧ r.hw.MTIMMOD = 250 := by
  unfold OS_InitElapsedTime MTI_RegTraining
  simp only [MTI_RegTraining_values_1000 fuel hf]
  exact ⟨_, rfl, rfl, rfl, rfl, rfl, rfl, rfl⟩

theorem OS_PullFirstContext_current (arg ra : Nat) (s : Machine) :
    (OS_PullFirstContext arg ra s).CurrentThread = s.CurrentThread := by
  obtain ⟨⟨ticks, ms, ⟨cur⟩⟩, th, mem, ⟨a, x, h, c, sp, pc⟩, hw⟩ := s
  unfold OS_PullFirstContext
  rw [callHX_mk, run_pullFirst]
  rfl

theorem OS_PullFirstContext_threads (arg ra : Nat) (s : Machine) :
    (OS_PullFirstContext arg ra s).threads = s.threads := by
  obtain ⟨⟨ticks, ms, ⟨cur⟩⟩, th, mem, ⟨a, x, h, c, sp, pc⟩, hw⟩ := s
  unfold OS_PullFirstContext
  rw [callHX_mk, run_pullFirst]

/-- The boot sequence on a freshly registered list of threads: `OS_Init` reaches its first
dispatch with the ring closed in registration order and the first thread current. -/
theorem OS_Init_registered (s0 : Machine) (ts : List Nat) (hr : Registrable s0 ts)
    (hne : ts ≠ []) (fuel : Nat) (hf : ts.length ≤ fuel) (h9 : 9 ≤ fuel) (ra : Nat) :
    ∃ r, OS_Init fuel ra (addThreads ts s0) = some r ∧
      r.CurrentThread = nth ts 0 ∧ Ring r ts := by
  obtain ⟨hcur, hchain, -⟩ := addThreads_invariant s0 ts hr
  have hlen : 0 < ts.length := List.length_pos.mpr hne
  rw [getLastD_eq_nth] at hcur
  obtain ⟨s1, h1, hctx, hth, -⟩ := OS_InitElapsedTime_some fuel h9 (addThreads ts s0)
  have hchain1 : OpenChain s1 ts := by
    intro i hi
    rw [hth]
    exact hchain i hi
  have hcur1 : s1.CurrentThread = nth ts (ts.length - 1) := by
    unfold Machine.CurrentThread
    rw [hctx]
    exact hcur
  obtain ⟨s2, h2, hc2, hn2, hp2⟩ := OS_InitScheluder_chain s1 ts hr.nonnull
    hchain1 (ts.length - 1) (by omega) hcur1 fuel hf
  have hring : Ring s2 ts := ring_of_closed_chain s1 s2 ts hr.nodup hchain1 hn2 hp2
  unfold OS_Init
  simp only [h1, h2]
  refine ⟨_, rfl, ?_, ?_⟩
  · rw [OS_PullFirstContext_current]
    exact hc2
  · intro i hi
    rw [OS_PullFirstContext_threads]
    exact hring i hi

/-! ## Round-robin dispatch -/

theorem step_next (s : Machine) (e : Event) (q : Nat) :
    ((step s e).threads q).NextThread = (s.threads q).NextThread := by
  cases e with
  | tick ra => exact RTI_IRQ_next ra q s
  | pulse => rfl
  | compute cpu mem => rfl

theorem step_prev (s : Machine) (e : Event) (q : Nat) :
    ((step s e).threads q).PrevThread = (s.threads q).PrevThread := by
  cases e with
  | tick ra => exact RTI_IRQ_prev ra q s
  | pulse => rfl
  | compute cpu mem => rfl

theorem ring_step (s : Machine) (ts : List Nat) (e : Event) (hring : Ring s ts) :
    Ring (step s e) ts := by
  intro i hi
  rw [step_next, step_prev]
  exact hring i hi

theorem toWord_of_lt (v : Nat) (h : v < 65536) : toWord v = v := Nat.mod_eq_of_lt h

theorem ring_tick_current (s : Machine) (ts : List Nat) (hw : ∀ t ∈ ts, t < 65536)
    (hring : Ring s ts) (i : Nat) (hi : i < ts.length) (hcur : s.CurrentThread = nth ts i)
    (ra : Nat) : (RTI_IRQ ra s).CurrentThread = nth ts ((i + 1) % ts.length) := by
  rw [RTI_IRQ_current, hcur, toWord_of_lt _ (hw _ (nth_mem ts i hi)), (hring i hi).1]
  exact toWord_of_lt _ (hw _ (nth_mem ts _ (Nat.mod_lt _ (by omega))))

theorem runEvents_cons (s : Machine) (e : Event) (es : List Event) :
    runEvents s (e :: es) = runEvents (step s e) es := rfl

theorem dispatchedBy_pulse (s : Machine) (es : List Event) :
    dispatchedBy s (Event.pulse :: es) = dispatchedBy (step s Event.pulse) es := rfl

theorem dispatchedBy_compute (s : Machine) (cpu : Cpu) (mem : Nat → Nat) (es : List Event) :
    dispatchedBy s (Event.compute cpu mem :: es) =
      dispatchedBy (step s (Event.compute cpu mem)) es := rfl

theorem ticksIn_pulse (es : List Event) : ticksIn (Event.pulse :: es) = ticksIn es := rfl

theorem ticksIn_compute (cpu : Cpu) (mem : Nat → Nat) (es : List Event) :
    ticksIn (Event.compute cpu mem :: es) = ticksIn es := rfl

theorem run_schedule (ts : List Nat) (hw : ∀ t ∈ ts, t < 65536) (es : List Event)
    (s : Machine) (i : Nat) (hi : i < ts.length) (hring : Ring s ts)
    (hcur : s.CurrentThread = nth ts i) :
    (runEvents s es).CurrentThread = nth ts ((i + ticksIn es) % ts.length) ∧
    Ring (runEvents s es) ts ∧
    dispatchedBy s es =
      (List.range (ticksIn es)).map (fun k => nth ts ((i + 1 + k) % ts.length)) := by
  induction es generalizing s i with
  | nil =>
    refine ⟨?_, hring, rfl⟩
    simp only [runEvents, List.foldl, ticksIn, Nat.add_zero, Nat.mod_eq_of_lt hi]
    exact hcur
  | cons e es ih =>
    have hpos : 0 < ts.length := by omega
    cases e with
    | tick ra =>
      have hc := ring_tick_current s ts hw hring i hi hcur ra
      obtain ⟨h1, h2, h3⟩ := ih (RTI_IRQ ra s) ((i + 1) % ts.length) (Nat.mod_lt _ hpos)
        (ring_step s ts (Event.tick ra) hring) hc
      refine ⟨?_, h2, ?_⟩
      · show (runEvents (RTI_IRQ ra s) es).CurrentThread = _
        have harith : i + (ticksIn es + 1) = i + 1 + ticksIn es := by omega
        rw [h1, Nat.mod_add_mod]
        simp only [ticksIn]
        rw [harith]
      · show (RTI_IRQ ra s).CurrentThread :: dispatchedBy (RTI_IRQ ra s) es = _
        have hm : List.map (fun k => nth ts (((i + 1) % ts.length + 1 + k) % ts.length))
            (List.range (ticksIn es)) =
            List.map ((fun k => nth ts ((i + 1 + k) % ts.length)) ∘ Nat.succ)
              (List.range (ticksIn es)) := by
          apply List.map_congr_left
          intro k _
          simp only [Function.comp, Nat.succ_eq_add_one]
          rw [Nat.add_assoc ((i + 1) % ts.length), Nat.mod_add_mod, Nat.add_comm 1 k]
        rw [h3, hc, hm]
        simp only [ticksIn, List.range_succ_eq_map, List.map_cons, List.map_map, Nat.add_zero]
    | pulse =>
      rw [runEvents_cons, dispatchedBy_pulse, ticksIn_pulse]
      exact ih (step s Event.pulse) i hi (ring_step s ts Event.pulse hring) hcur
    | compute cpu mem =>
      rw [runEvents_cons, dispatchedBy_compute, ticksIn_compute]
      exact ih (step s (Event.compute cpu mem)) i hi
        (ring_step s ts (Event.compute cpu mem) hring) hcur

theorem map_nth_range (ts : List Nat) : (List.range ts.length).map (nth ts) = ts := by
  apply List.ext_getElem
  · simp
  · intro i h1 h2
    simp only [List.getElem_map, List.getElem_range]
    exact nth_lt ts i h2

theorem count_round_robin (ts : List Nat) (hnd : ts.Nodup) (M t : Nat) (ht : t ∈ ts) :
    ((List.range (M * ts.length)).map (fun k => nth ts (k % ts.length))).count t = M := by
  induction M with
  | zero => simp
  | succ M ih =>
    rw [Nat.succ_mul, List.range_add, List.map_append, List.count_append, ih, List.map_map]
    have : List.map ((fun k => nth ts (k % ts.length)) ∘ fun x => M * ts.length + x)
        (List.range ts.length) = List.map (nth ts) (List.range ts.length) := by
      apply List.map_congr_left
      intro k hk
      simp only [Function.comp]
      rw [Nat.add_comm, Nat.add_mul_mod_self_right, Nat.mod_eq_of_lt (List.mem_range.mp hk)]
    rw [this, map_nth_range, List.count_eq_one_of_mem hnd ht]

/-- C1: for `N ≥ 1` distinct, freshly defined threads registered in order, `OS_Init` reaches
its first dispatch with the first registered thread current; every Tick Source firing then
makes the successor of the running thread current, whatever the threads and the millisecond
clock do in between, so the `k`-th dispatch is thread `k mod N`, and over `M * N` dispatches
each thread is dispatched exactly `M` times, in registration order. -/
theorem C1_round_robin (s0 : Machine) (ts : List Nat) (hr : Registrable s0 ts)
    (hne : ts ≠ []) (fuel : Nat) (hf : ts.length ≤ fuel) (h9 : 9 ≤ fuel) (ra : Nat) :
    ∃ s, OS_Init fuel ra (addThreads ts s0) = some s ∧
      s.CurrentThread = ts.head hne ∧
      ∀ es : List Event,
        (∀ ra1, (RTI_IRQ ra1 (runEvents s es)).CurrentThread =
          ((runEvents s es).threads (runEvents s es).CurrentThread).NextThread) ∧
        (runEvents s es).CurrentThread = nth ts (ticksIn es % ts.length) ∧
        dispatchLog s es =
          (List.range (ticksIn es + 1)).map (fun k => nth ts (k % ts.length)) ∧
        (∀ M, ticksIn es + 1 = M * ts.length →
          ∀ t ∈ ts, (dispatchLog s es).count t = M) := by
  obtain ⟨s, h1, hcur, hring⟩ := OS_Init_registered s0 ts hr hne fuel hf h9 ra
  have hlen : 0 < ts.length := List.length_pos.mpr hne
  have hhead : ts.head hne = nth ts 0 := by
    rw [nth_lt ts 0 hlen]; exact (List.getElem_zero hlen).symm
  refine ⟨s, h1, by rw [hcur, hhead], ?_⟩
  intro es
  obtain ⟨hc, hrg, hd⟩ := run_schedule ts hr.word es s 0 hlen hring hcur
  rw [Nat.zero_add] at hc
  have hlog : dispatchLog s es =
      (List.range (ticksIn es + 1)).map (fun k => nth ts (k % ts.length)) := by
    have hm : List.map (fun k => nth ts ((0 + 1 + k) % ts.length)) (List.range (ticksIn es)) =
        List.map ((fun k => nth ts (k % ts.length)) ∘ Nat.succ) (List.range (ticksIn es)) := by
      apply List.map_congr_left
      intro k _
      simp only [Function.comp, Nat.succ_eq_add_one, Nat.zero_add]
      rw [Nat.add_comm 1 k]
    unfold dispatchLog
    rw [hd, hcur, hm, List.range_succ_eq_map, List.map_cons, List.map_map, Nat.zero_mod]
  refine ⟨?_, hc, hlog, ?_⟩
  · intro ra1
    have hi : ticksIn es % ts.length < ts.length := Nat.mod_lt _ hlen
    rw [ring_tick_current _ ts hr.word hrg _ hi hc ra1, hc, (hrg _ hi).1]
  · intro M hM t ht
    rw [hlog, hM]
    exact count_round_robin ts hr.nodup M t ht

/-- C1 at the concrete boot image: registering `A, B, C` and firing the Tick Source six
times after the first dispatch gives the dispatch sequence `A, B, C, A, B, C, A`. -/
theorem C1_round_robin_witness :
    ∃ s, OS_Init 9 0xF000 (addThreads demoThreads demoMachine) = some s ∧
      dispatchLog s (List.replicate 6 (Event.tick 0xF100)) =
        [0x60, 0x70, 0x80, 0x60, 0x70, 0x80, 0x60] := by
  obtain ⟨s, h1, -, h3⟩ := C1_round_robin demoMachine demoThreads demo_registrable
    (by decide) 9 (by decide) (by decide) 0xF000
  refine ⟨s, h1, ?_⟩
  rw [(h3 (List.replicate 6 (Event.tick 0xF100))).2.2.1]
  decide

/-! ## The millisecond clock and the delay service -/

theorem MTI_IRQ_ms (s : Machine) :
    (MTI_IRQ s).OsContext.MsElapsed = toLWord (s.OsContext.MsElapsed + 1) := rfl

theorem pulses_ms (n : Nat) (s : Machine) (h : s.OsContext.MsElapsed < 4294967296) :
    (pulses n s).OsContext.MsElapsed = toLWord (s.OsContext.MsElapsed + n) := by
  induction n generalizing s with
  | zero => simp [pulses, toLWord, Nat.mod_eq_of_lt h]
  | succ n ih =>
    unfold pulses
    rw [ih (MTI_IRQ s) (by rw [MTI_IRQ_ms]; exact Nat.mod_lt _ (by decide)), MTI_IRQ_ms]
    unfold toLWord
    omega

theorem pulses_add (a b : Nat) (s : Machine) : pulses (a + b) s = pulses b (pulses a s) := by
  induction a generalizing s with
  | zero => simp [pulses]
  | succ a ih =>
    rw [Nat.add_right_comm]
    exact ih (MTI_IRQ s)

theorem pulsesBefore_succ (g : Nat) (gaps : List Nat) (j : Nat) :
    pulsesBefore (g :: gaps) (j + 1) = g + pulsesBefore gaps j := by
  simp [pulsesBefore]

/-- The busy-wait loop, entered after `p0` pulses since the call began: it can only exit at
a sample at which the pulses since the call began, reduced modulo `2^32`, reach `DelayMs`. -/
theorem OS_DelayMs_loop_exit (d : Nat) (s : Machine) (h : s.OsContext.MsElapsed < 4294967296)
    (gaps : List Nat) (k0 p0 k : Nat) (r : Machine)
    (hret : OS_DelayMs_loop d s.OsContext.MsElapsed gaps k0 (pulses p0 s) = some (k, r)) :
    ∃ j, 1 ≤ j ∧ j ≤ gaps.length ∧ k = k0 + j ∧
      r = pulses (p0 + pulsesBefore gaps j) s ∧
      d ≤ (p0 + pulsesBefore gaps j) % 4294967296 ∧
      ∀ i, 1 ≤ i → i < j → (p0 + pulsesBefore gaps i) % 4294967296 < d := by
  induction gaps generalizing k0 p0 with
  | nil => simp [OS_DelayMs_loop] at hret
  | cons g gaps ih =>
    unfold OS_DelayMs_loop at hret
    simp only [← pulses_add] at hret
    have hms := pulses_ms (p0 + g) s h
    have hdiff : toLWord ((pulses (p0 + g) s).OsContext.MsElapsed + 4294967296 -
        s.OsContext.MsElapsed) = (p0 + g) % 4294967296 := by
      rw [hms]; unfold toLWord; omega
    rw [hdiff] at hret
    by_cases hlt : (p0 + g) % 4294967296 < d
    · rw [if_pos hlt] at hret
      obtain ⟨j, hj1, hj2, hk, hr, hd, hbefore⟩ := ih (k0 + 1) (p0 + g) hret
      refine ⟨j + 1, by omega, by simp only [List.length_cons]; omega, by omega, ?_, ?_, ?_⟩
      · rw [hr, pulsesBefore_succ, Nat.add_assoc]
      · rw [pulsesBefore_succ, ← Nat.add_assoc]; exact hd
      · intro i hi1 hi2
        obtain ⟨i, rfl⟩ : ∃ i0, i = i0 + 1 := ⟨i - 1, by omega⟩
        rw [pulsesBefore_succ, ← Nat.add_assoc]
        by_cases hi0 : i = 0
        · subst hi0
          simpa [pulsesBefore] using hlt
        · exact hbefore i (by omega) (by omega)
    · rw [if_neg hlt] at hret
      simp only [Option.some.injEq, Prod.mk.injEq] at hret
      refine ⟨1, le_refl 1, by simp, hret.1.symm, ?_, ?_, ?_⟩
      · rw [← hret.2]; simp [pulsesBefore]
      · simp only [pulsesBefore, List.take_succ_cons, List.take_zero, List.sum_cons,
          List.sum_nil, Nat.add_zero]
        omega
      · intro i hi1 hi2
        omega

/-- C4: in every run of `OS_DelayMs(d)` against a millisecond counter that changes only by
`MTI_IRQ` firings, if the call returns, at sample number `k`, then at least `d` firings
have occurred since the counter was sampled at entry; the loop exits at no sample before
which fewer than `d` firings occurred. -/
theorem C4_OS_DelayMs_waits (d : Nat) (gaps : List Nat) (s : Machine)
    (h : s.OsContext.MsElapsed < 4294967296) (k : Nat) (r : Machine)
    (hret : OS_DelayMs d gaps s = some (k, r)) :
    1 ≤ k ∧ k ≤ gaps.length ∧ r = pulses (pulsesBefore gaps k) s ∧
      d ≤ pulsesBefore gaps k ∧
      ∀ j, pulsesBefore gaps j < d → j ≠ k := by
  unfold OS_DelayMs at hret
  obtain ⟨j, hj1, hj2, hk, hr, hd, -⟩ :=
    OS_DelayMs_loop_exit d s h gaps 0 0 k r hret
  rw [Nat.zero_add] at hk hr hd
  rw [hk]
  have hle : d ≤ pulsesBefore gaps j := le_trans hd (Nat.mod_le _ _)
  refine ⟨hj1, hj2, hr, hle, ?_⟩
  intro i hi heq
  rw [heq] at hi
  omega

/-- C4 on a concrete run: a 5 ms delay against the gaps `0,1,1,2,0,3,1` returns at the sixth
sample, before which 7 firings occurred. -/
theorem C4_OS_DelayMs_waits_witness :
    OS_DelayMs 5 [0, 1, 1, 2, 0, 3, 1] demoMachine = some (6, pulses 7 demoMachine) ∧
    5 ≤ pulsesBefore [0, 1, 1, 2, 0, 3, 1] 6 :=
  ⟨rfl, (C4_OS_DelayMs_waits 5 [0, 1, 1, 2, 0, 3, 1] demoMachine
    (by show 0 < 4294967296; decide) 6 (pulses 7 demoMachine) rfl).2.2.2.1⟩

/-- C5, amended: for every scheduler state and every sequence of `n` firings of `MTI_IRQ`
that does not wrap the 32-bit counter (`MsElapsed + n < 2^32`), the value returned by
`OS_GetElapsedTime` after the sequence is at least the value before it; it has grown by
exactly `n`. -/
theorem C5_elapsed_time_nondecreasing (s : Machine) (n : Nat)
    (h : s.OsContext.MsElapsed + n < 4294967296) :
    OS_GetElapsedTime s ≤ OS_GetElapsedTime (pulses n s) ∧
    OS_GetElapsedTime (pulses n s) = OS_GetElapsedTime s + n := by
  unfold OS_GetElapsedTime
  rw [pulses_ms n s (by omega)]
  unfold toLWord
  rw [Nat.mod_eq_of_lt h]
  omega

/-- C5 amended, at the boot image: a thousand pulses after boot the query returns 1000. -/
theorem C5_elapsed_time_nondecreasing_witness :
    OS_GetElapsedTime demoMachine ≤ OS_GetElapsedTime (pulses 1000 demoMachine) ∧
    OS_GetElapsedTime (pulses 1000 demoMachine) = OS_GetElapsedTime demoMachine + 1000 :=
  C5_elapsed_time_nondecreasing demoMachine 1000 (by show 0 + 1000 < 4294967296; decide)

theorem OS_GetElapsedTime_pulses (n : Nat) (s : Machine)
    (h : s.OsContext.MsElapsed < 4294967296) :
    OS_GetElapsedTime (pulses n s) = toLWord (s.OsContext.MsElapsed + n) :=
  pulses_ms n s h

theorem demoMachine_ms : demoMachine.OsContext.MsElapsed < 4294967296 := by
  show 0 < 4294967296
  decide

/-- C5 without the no-wrap condition fails, at the wrap of the 32-bit counter: `2^32 - 1` firings after boot the
query returns `4294967295`, and after one more firing it returns `0`, a smaller value. -/
theorem C5_counterexample :
    OS_GetElapsedTime (pulses 4294967295 demoMachine) = 4294967295 ∧
    OS_GetElapsedTime (pulses 1 (pulses 4294967295 demoMachine)) = 0 :=
  ⟨(OS_GetElapsedTime_pulses 4294967295 demoMachine demoMachine_ms).trans
      (by show toLWord (0 + 4294967295) = 4294967295; decide),
   (congrArg OS_GetElapsedTime (pulses_add 4294967295 1 demoMachine)).symm.trans
    ((OS_GetElapsedTime_pulses (4294967295 + 1) demoMachine demoMachine_ms).trans
      (by show toLWord (0 + (4294967295 + 1)) = 0; decide))⟩

/-! ## Timer calibration -/

theorem BUS_TICKS_PER_US_eq : BUS_TICKS_PER_US = 4 := by decide

theorem periodError_eq (e m target : Nat) :
    periodError e m target = |((m : ℚ) * 2 ^ e) / 4 - (target : ℚ)| := by
  unfold periodError
  rw [BUS_TICKS_PER_US_eq]
  norm_num

set_option maxRecDepth 100000 in
theorem MTI_RegTraining_values_8000 : MTI_RegTraining_values 9 8000 = some (7, 250) := by
  decide

set_option maxRecDepth 100000 in
theorem MTI_RegTraining_values_32000 : MTI_RegTraining_values 9 32000 = some (8, 255) := by
  decide

/-- C10: the boot-time calibration `MTI_RegTraining(1000)` made by `OS_InitElapsedTime`
terminates and writes prescaler exponent 4 and modulo count 250; then
`count * 2^exponent = 4000 = 1000 us * 4 ticks/us`, so the period is exactly 1 ms. -/
theorem C10_boot_calibration (s : Machine) (fuel : Nat) (hf : 9 ≤ fuel) :
    MTI_RegTraining_values fuel 1000 = some (4, 250) ∧
    (∃ r, OS_InitElapsedTime fuel s = some r ∧ r.hw.MTIMCLK_PS = 4 ∧ r.hw.MTIMMOD = 250) ∧
    250 * 2 ^ 4 = 1000 * BUS_TICKS_PER_US ∧
    periodError 4 250 1000 = 0 := by
  refine ⟨MTI_RegTraining_values_1000 fuel hf, ?_, by decide, ?_⟩
  · obtain ⟨r, h1, -, -, -, -, h2, h3⟩ := OS_InitElapsedTime_some fuel hf s
    exact ⟨r, h1, h2, h3⟩
  · rw [periodError_eq]
    norm_num

/-- C10 at the concrete boot image. -/
theorem C10_boot_calibration_witness :
    MTI_RegTraining_values 9 1000 = some (4, 250) ∧
    (∃ r, OS_InitElapsedTime 9 demoMachine = some r ∧
      r.hw.MTIMCLK_PS = 4 ∧ r.hw.MTIMMOD = 250) ∧
    250 * 2 ^ 4 = 1000 * BUS_TICKS_PER_US ∧
    periodError 4 250 1000 = 0 :=
  C10_boot_calibration demoMachine 9 (by decide)

theorem periodError_nonneg (e m target : Nat) : 0 ≤ periodError e m target := abs_nonneg _

/-- No setting with exponent at most 7 comes closer than 23840 us to a 32000 us target. -/
theorem periodError_32000_lower (e m : Nat) (he : e ≤ 7) (hm : m ≤ 255) :
    23840 ≤ periodError e m 32000 := by
  rw [periodError_eq]
  have h2 : (2 : ℚ) ^ e ≤ 2 ^ 7 := pow_le_pow_right₀ (by norm_num) he
  have hm' : (m : ℚ) ≤ 255 := by exact_mod_cast hm
  have hprod : (m : ℚ) * 2 ^ e ≤ 255 * 2 ^ 7 :=
    mul_le_mul hm' h2 (by positivity) (by norm_num)
  have hneg : (m : ℚ) * 2 ^ e / 4 - ((32000 : Nat) : ℚ) ≤ -23840 := by
    push_cast
    linarith
  rw [abs_of_nonpos (by linarith)]
  linarith

/-- C3: for each of the target periods 1000, 8000 and 32000 microseconds at 4 bus ticks per
microsecond, `MTI_RegTraining` terminates and the pair it writes to the prescaler field and
the modulo register has an error no larger than that of any pair with exponent in `[0,7]`
and count in `[0,255]`. -/
theorem C3_calibration_beats_brute_force (target : Nat)
    (ht : target = 1000 ∨ target = 8000 ∨ target = 32000) :
    ∃ e m, MTI_RegTraining_values 9 target = some (e, m) ∧
      ∀ e1 m1, e1 ≤ 7 → m1 ≤ 255 → periodError e m target ≤ periodError e1 m1 target := by
  rcases ht with h | h | h
  · subst h
    refine ⟨4, 250, MTI_RegTraining_values_1000 9 (le_refl 9), ?_⟩
    intro e1 m1 _ _
    have h0 : periodError 4 250 1000 = 0 := by rw [periodError_eq]; norm_num
    rw [h0]
    exact periodError_nonneg _ _ _
  · subst h
    refine ⟨7, 250, MTI_RegTraining_values_8000, ?_⟩
    intro e1 m1 _ _
    have h0 : periodError 7 250 8000 = 0 := by rw [periodError_eq]; norm_num
    rw [h0]
    exact periodError_nonneg _ _ _
  · subst h
    refine ⟨8, 255, MTI_RegTraining_values_32000, ?_⟩
    intro e1 m1 he hm
    have h0 : periodError 8 255 32000 = 15680 := by
      rw [periodError_eq]
      norm_num [abs_of_nonpos]
    rw [h0]
    exact le_trans (by norm_num) (periodError_32000_lower e1 m1 he hm)

/-- C3 for the 8000 microsecond target, against the brute-force pair `(7, 255)`. -/
theorem C3_calibration_beats_brute_force_witness :
    ∃ e m, MTI_RegTraining_values 9 8000 = some (e, m) ∧
      periodError e m 8000 ≤ periodError 7 255 8000 := by
  obtain ⟨e, m, h1, h2⟩ := C3_calibration_beats_brute_force 8000 (Or.inr (Or.inl rfl))
  exact ⟨e, m, h1, h2 7 255 (le_refl 7) (le_refl 255)⟩
set_option maxRecDepth 1000000 in
/-- The bit scan, tabulated over every byte value of the linear ratio `r`: it stops within
nine evaluations of its condition with the loop index 8 in the low nibble and `e - 1` in
the high nibble, where `2^(e-1) ≤ r < 2^e` (`e = 1` for `r = 0`). -/
theorem prescaleScan_table : ∀ r < 256, ∃ e < 9, 1 ≤ e ∧
    prescaleScan r 9 0 = some (16 * (e - 1) + 8) ∧ r < 2 ^ e ∧ (r ≠ 0 → 2 ^ (e - 1) ≤ r) := by
  decide

/-- The exponent selected for a linear ratio `r`, for any sufficient fuel. -/
theorem prescaleScan_exponent (r fuel : Nat) (hr : r < 256) (hf : 9 ≤ fuel) :
    ∃ e, 1 ≤ e ∧ e ≤ 8 ∧ prescaleScan r fuel 0 = some (16 * (e - 1) + 8) ∧
      toByte ((16 * (e - 1) + 8) >>> NIBBLE_SIZE + 1) = e ∧
      r < 2 ^ e ∧ (r ≠ 0 → 2 ^ (e - 1) ≤ r) := by
  obtain ⟨e, he9, he1, hscan, hlt, hge⟩ := prescaleScan_table r hr
  refine ⟨e, he1, by omega, ?_, ?_, hlt, hge⟩
  · have := prescaleScan_mono r 9 (fuel - 9) 0 _ hscan
    rwa [Nat.add_sub_cancel' hf] at this
  · unfold toByte NIBBLE_SIZE
    rw [Nat.shiftRight_eq_div_pow]
    omega

theorem currentError_lt (t P m : Nat) (h : toWord (P * m) / 4 < t) :
    currentError t P m = t - toWord (P * m) / 4 := by
  unfold currentError
  simp only [BUS_TICKS_PER_US_eq, toWord_of_lt 4 (by decide)]
  rw [if_pos h]

theorem currentError_ge (t P m : Nat) (h : ¬ toWord (P * m) / 4 < t) :
    currentError t P m = toWord (P * m) / 4 - t := by
  unfold currentError
  simp only [BUS_TICKS_PER_US_eq, toWord_of_lt 4 (by decide)]
  rw [if_neg h]

/-- What the `do` loop returns: its `LowestError` is at most the error of every candidate
scanned, and either nothing was better than the initial `LowestError`, or the returned
`OptimalModule` is a scanned candidate with exactly that error, strictly better than every
candidate scanned before it (the larger ones). -/
theorem moduleScan_spec (t P : Nat) (Module lo opt : Nat) :
    (∀ m, m ≤ Module → (moduleScan t P Module lo opt).1 ≤ currentError t P m) ∧
    (((moduleScan t P Module lo opt).1 = lo ∧ (moduleScan t P Module lo opt).2 = opt ∧
        ∀ m, m ≤ Module → lo ≤ currentError t P m) ∨
      ((moduleScan t P Module lo opt).2 ≤ Module ∧
        (moduleScan t P Module lo opt).1 = currentError t P (moduleScan t P Module lo opt).2 ∧
        (moduleScan t P Module lo opt).1 < lo ∧
        ∀ m, (moduleScan t P Module lo opt).2 < m → m ≤ Module →
          (moduleScan t P Module lo opt).1 < currentError t P m)) := by
  induction Module generalizing lo opt with
  | zero =>
    unfold moduleScan
    by_cases h : currentError t P 0 < lo
    · rw [if_pos h]
      refine ⟨?_, Or.inr ⟨le_refl 0, rfl, h, ?_⟩⟩
      · intro m hm
        have : m = 0 := by omega
        rw [this]
      · intro m h1 h2
        exact absurd h2 (by simp only [] at h1; omega)
    · rw [if_neg h]
      have hall : ∀ m, m ≤ 0 → lo ≤ currentError t P m := by
        intro m hm
        have : m = 0 := by omega
        rw [this]
        omega
      exact ⟨hall, Or.inl ⟨rfl, rfl, hall⟩⟩
  | succ M ih =>
    unfold moduleScan
    by_cases h : currentError t P (M + 1) < lo
    · rw [if_pos h]
      obtain ⟨hmin, hcase⟩ := ih (currentError t P (M + 1)) (M + 1)
      set r := moduleScan t P M (currentError t P (M + 1)) (M + 1) with hr
      have hle : r.1 ≤ currentError t P (M + 1) := by
        rcases hcase with ⟨h1, -, -⟩ | ⟨-, -, h3, -⟩
        · rw [h1]
        · exact le_of_lt h3
      refine ⟨?_, Or.inr ?_⟩
      · intro m hm
        by_cases hm' : m ≤ M
        · exact hmin m hm'
        · have : m = M + 1 := by omega
          rw [this]; exact hle
      · rcases hcase with ⟨h1, h2, -⟩ | ⟨h1, h2, h3, h4⟩
        · refine ⟨by rw [h2], by rw [h1, h2], by rw [h1]; exact h, ?_⟩
          intro m hm1 hm2
          rw [h2] at hm1
          omega
        · refine ⟨by omega, h2, by omega, ?_⟩
          intro m hm1 hm2
          by_cases hm' : m ≤ M
          · exact h4 m hm1 hm'
          · have : m = M + 1 := by omega
            rw [this]; exact h3
    · rw [if_neg h]
      obtain ⟨hmin, hcase⟩ := ih lo opt
      set r := moduleScan t P M lo opt with hr
      have hle : r.1 ≤ currentError t P (M + 1) := by
        rcases hcase with ⟨h1, -, -⟩ | ⟨-, -, h3, -⟩
        · rw [h1]; omega
        · omega
      refine ⟨?_, ?_⟩
      · intro m hm
        by_cases hm' : m ≤ M
        · exact hmin m hm'
        · have : m = M + 1 := by omega
          rw [this]; exact hle
      · rcases hcase with ⟨h1, h2, h3⟩ | ⟨h1, h2, h3, h4⟩
        · refine Or.inl ⟨h1, h2, ?_⟩
          intro m hm
          by_cases hm' : m ≤ M
          · exact h3 m hm'
          · have : m = M + 1 := by omega
            rw [this]; omega
        · refine Or.inr ⟨by omega, h2, h3, ?_⟩
          intro m hm1 hm2
          by_cases hm' : m ≤ M
          · exact h4 m hm1 hm'
          · have : m = M + 1 := by omega
            rw [this]; omega

/-- The full scan of `MTI_RegTraining`, when the largest candidate already beats the initial
`UINT_MAX`: the returned count is a candidate of least computed error. -/
theorem moduleScan_full (t P : Nat) (h : currentError t P 255 < 65535) :
    (moduleScan t P UCHAR_MAX UINT_MAX UCHAR_MAX).2 ≤ 255 ∧
    ∀ m, m ≤ 255 → currentError t P (moduleScan t P UCHAR_MAX UINT_MAX UCHAR_MAX).2 ≤
      currentError t P m := by
  obtain ⟨hmin, hcase⟩ := moduleScan_spec t P UCHAR_MAX UINT_MAX UCHAR_MAX
  rcases hcase with ⟨-, -, h3⟩ | ⟨h1, h2, -, -⟩
  · have := h3 255 (by decide)
    unfold UINT_MAX at this
    omega
  · refine ⟨h1, ?_⟩
    intro m hm
    rw [← h2]
    exact hmin m hm

/-- With prescaler `2^e`, `1 ≤ e ≤ 7`, and a target below the largest reachable period, a
count of least computed error lies within one prescaled count of the target. -/
theorem scan_bound (e : Nat) (he1 : 1 ≤ e) (he7 : e ≤ 7) (t : Nat)
    (ht : t * 4 / 255 < 2 ^ e) (m : Nat) (hm : m ≤ 255)
    (hmin : ∀ m1, m1 ≤ 255 → currentError t (2 ^ e) m ≤ currentError t (2 ^ e) m1) :
    m * 2 ^ e ≤ 4 * t + 2 ^ e ∧ 4 * t ≤ m * 2 ^ e + 2 ^ e := by
  have key : ∀ P g : Nat, 2 ^ e = P → P ≤ 128 → (P = 2 ∧ g = 1 ∨ P = 4 * g) → 0 < g →
      (∀ m1, m1 ≤ 255 → currentError t P m ≤ currentError t P m1) →
      t * 4 / 255 < P → m * P ≤ 4 * t + P ∧ 4 * t ≤ m * P + P := by
    intro P g _ hP hg hgpos hmin1 ht1
    rcases hg with ⟨hP2, -⟩ | hP4
    · subst hP2
      have h0 := hmin1 (2 * t) (by omega)
      have hw : toWord (2 * m) = 2 * m := toWord_of_lt _ (by omega)
      have hw0 : toWord (2 * (2 * t)) = 2 * (2 * t) := toWord_of_lt _ (by omega)
      by_cases h1 : toWord (2 * m) / 4 < t
      · rw [currentError_lt _ _ _ h1, currentError_ge _ _ _ (by rw [hw0]; omega), hw0] at h0
        rw [hw] at h1
        omega
      · rw [currentError_ge _ _ _ h1, currentError_ge _ _ _ (by rw [hw0]; omega), hw0, hw] at h0
        rw [hw] at h1
        omega
    · subst hP4
      have hq : t / g ≤ 255 := by
        have : t < 255 * g := by omega
        exact Nat.le_of_lt (Nat.div_lt_of_lt_mul (by rw [Nat.mul_comm]; exact this))
      have h0 := hmin1 (t / g) hq
      have hmul : g * (t / g) ≤ t := Nat.mul_div_le t g
      have hmul2 : t < g * (t / g) + g := by
        have := Nat.lt_div_mul_add (a := t) hgpos
        rw [Nat.mul_comm] at this
        exact this
      have hgm : g * m ≤ 32 * 255 := Nat.mul_le_mul (by omega) hm
      have hw : toWord (4 * g * m) = 4 * (g * m) := by
        rw [Nat.mul_assoc]
        exact toWord_of_lt _ (by omega)
      have hw0 : toWord (4 * g * (t / g)) = 4 * (g * (t / g)) := by
        rw [Nat.mul_assoc]
        exact toWord_of_lt _ (by omega)
      have e1 : m * (4 * g) = 4 * (g * m) := by ring
      rw [e1]
      by_cases h1 : toWord (4 * g * m) / 4 < t
      · rw [currentError_lt _ _ _ h1, hw] at h0
        rw [hw] at h1
        by_cases h2 : toWord (4 * g * (t / g)) / 4 < t
        · rw [currentError_lt _ _ _ h2, hw0] at h0
          omega
        · rw [currentError_ge _ _ _ h2, hw0] at h0
          omega
      · rw [currentError_ge _ _ _ h1, hw] at h0
        rw [hw] at h1
        by_cases h2 : toWord (4 * g * (t / g)) / 4 < t
        · rw [currentError_lt _ _ _ h2, hw0] at h0
          omega
        · rw [currentError_ge _ _ _ h2, hw0] at h0
          omega
  interval_cases e
  · exact key 2 1 rfl (by decide) (Or.inl ⟨rfl, rfl⟩) (by decide) hmin ht
  · exact key 4 1 rfl (by decide) (Or.inr rfl) (by decide) hmin ht
  · exact key 8 2 rfl (by decide) (Or.inr rfl) (by decide) hmin ht
  · exact key 16 4 rfl (by decide) (Or.inr rfl) (by decide) hmin ht
  · exact key 32 8 rfl (by decide) (Or.inr rfl) (by decide) hmin ht
  · exact key 64 16 rfl (by decide) (Or.inr rfl) (by decide) hmin ht
  · exact key 128 32 rfl (by decide) (Or.inr rfl) (by decide) hmin ht

theorem periodError_le_granularity (e m t : Nat) (h1 : m * 2 ^ e ≤ 4 * t + 2 ^ e)
    (h2 : 4 * t ≤ m * 2 ^ e + 2 ^ e) : periodError e m t ≤ granularity e := by
  rw [periodError_eq]
  unfold granularity
  rw [BUS_TICKS_PER_US_eq]
  have h1q : ((m : ℚ) * 2 ^ e) ≤ 4 * (t : ℚ) + 2 ^ e := by exact_mod_cast h1
  have h2q : 4 * (t : ℚ) ≤ (m : ℚ) * 2 ^ e + 2 ^ e := by exact_mod_cast h2
  rw [abs_le]
  push_cast
  constructor <;> linarith

/-- The selection made by `MTI_RegTraining` for a target of at most 8159 microseconds: the
exponent is at most 7 and the count has least computed error for the prescaler `2^e`. -/
theorem MTI_RegTraining_values_small (target fuel : Nat) (hf : 9 ≤ fuel)
    (ht : target ≤ 8159) :
    ∃ e m, MTI_RegTraining_values fuel target = some (e, m) ∧ 1 ≤ e ∧ e ≤ 7 ∧ m ≤ 255 ∧
      target * 4 / 255 < 2 ^ e ∧ (target * 4 / 255 ≠ 0 → 2 ^ (e - 1) ≤ target * 4 / 255) ∧
      ∀ m1, m1 ≤ 255 → currentError target (2 ^ e) m ≤ currentError target (2 ^ e) m1 := by
  have hlin : toByte (toWord (target * toWord BUS_TICKS_PER_US) / BYTE_MASK) =
      target * 4 / 255 := by
    have hr0 : target * 4 / 255 < 128 := by omega
    rw [BUS_TICKS_PER_US_eq, toWord_of_lt 4 (by decide), toWord_of_lt (target * 4) (by omega)]
    unfold toByte BYTE_MASK
    exact Nat.mod_eq_of_lt (by omega)
  have hr : target * 4 / 255 < 128 := by omega
  obtain ⟨e, he1, he8, hscan, hexp, hlt, hge⟩ :=
    prescaleScan_exponent (target * 4 / 255) fuel (by omega) hf
  have he7 : e ≤ 7 := by
    by_contra hcon
    have he : e = 8 := by omega
    subst he
    by_cases h0 : target * 4 / 255 = 0
    · rw [h0] at hscan
      have h9 : prescaleScan 0 9 0 = some 8 := by decide
      have := prescaleScan_mono 0 9 (fuel - 9) 0 _ h9
      rw [Nat.add_sub_cancel' hf, hscan] at this
      simp at this
    · have := hge h0
      norm_num at this
      omega
  have hP : toByte (1 <<< e) = 2 ^ e := by
    interval_cases e <;> decide
  have hce : currentError target (2 ^ e) 255 < 65535 := by
    have hpow : 2 ^ e ≤ 128 := by
      calc 2 ^ e ≤ 2 ^ 7 := Nat.pow_le_pow_right (by decide) he7
        _ = 128 := by decide
    have hprod : 2 ^ e * 255 ≤ 128 * 255 := Nat.mul_le_mul_right 255 hpow
    have hw : toWord (2 ^ e * 255) = 2 ^ e * 255 := toWord_of_lt _ (by omega)
    by_cases h1 : toWord (2 ^ e * 255) / 4 < target
    · rw [currentError_lt _ _ _ h1]; omega
    · rw [currentError_ge _ _ _ h1, hw]; omega
  obtain ⟨hm, hmin⟩ := moduleScan_full target (2 ^ e) hce
  refine ⟨e, (moduleScan target (2 ^ e) UCHAR_MAX UINT_MAX UCHAR_MAX).2, ?_, he1, he7, hm,
    hlt, hge, hmin⟩
  unfold MTI_RegTraining_values
  simp only [hlin, hscan, hexp, hP]

/-- C9, amended: for every target period of at most 8159 microseconds (linear ratio
`target * 4 / 255` below 128, so that the exponent is at most 7), `MTI_RegTraining`
terminates and the exponent `e` and count `m` it selects have residual error
`|m * 2^e / ticks_per_us - target|` of at most one prescaled timer count
`2^e / ticks_per_us`. -/
theorem C9_residual_error_bound (target fuel : Nat) (hf : 9 ≤ fuel) (ht : target ≤ 8159) :
    ∃ e m, MTI_RegTraining_values fuel target = some (e, m) ∧
      periodError e m target ≤ granularity e := by
  obtain ⟨e, m, h, he1, he7, hm, hlt, -, hmin⟩ :=
    MTI_RegTraining_values_small target fuel hf ht
  obtain ⟨h1, h2⟩ := scan_bound e he1 he7 target hlt m hm hmin
  exact ⟨e, m, h, periodError_le_granularity e m target h1 h2⟩

/-- C9 amended, at the 100 microsecond target: the selection `(1, 201)` is half a
microsecond off, exactly one prescaled count. -/
theorem C9_residual_error_bound_witness :
    ∃ e m, MTI_RegTraining_values 9 100 = some (e, m) ∧
      periodError e m 100 ≤ granularity e :=
  C9_residual_error_bound 100 9 (by decide) (by decide)

set_option maxRecDepth 100000 in
theorem MTI_RegTraining_values_20000 : MTI_RegTraining_values 9 20000 = some (6, 255) := by
  decide

/-- C9 without the bound on the target fails, for a 20000 microsecond target: the selection is exponent 6 and
count 255, a period of 4080 microseconds, 15920 off, against a granularity of 16. No
setting of the timer (exponent up to 8, count up to 255) reaches that target. -/
theorem C9_counterexample :
    MTI_RegTraining_values 9 20000 = some (6, 255) ∧
    periodError 6 255 20000 = 15920 ∧ granularity 6 = 16 ∧
    ¬ (periodError 6 255 20000 ≤ granularity 6) ∧
    ∀ e : Fin 9, ∀ m : Fin 256, ¬ (periodError e m 20000 ≤ granularity e) := by
  have h1 : periodError 6 255 20000 = 15920 := by
    rw [periodError_eq]; norm_num [abs_of_nonpos]
  have h2 : granularity 6 = 16 := by
    unfold granularity; rw [BUS_TICKS_PER_US_eq]; norm_num
  refine ⟨MTI_RegTraining_values_20000, h1, h2, by rw [h1, h2]; norm_num, ?_⟩
  intro e m hle
  rw [periodError_eq] at hle
  unfold granularity at hle
  rw [BUS_TICKS_PER_US_eq] at hle
  have he : (2 : ℚ) ^ (e : Nat) ≤ 2 ^ 8 :=
    pow_le_pow_right₀ (by norm_num) (Nat.lt_succ_iff.mp e.isLt)
  have hm : ((m : Nat) : ℚ) ≤ 255 := by exact_mod_cast Nat.lt_succ_iff.mp m.isLt
  have hprod : ((m : Nat) : ℚ) * 2 ^ (e : Nat) ≤ 255 * 2 ^ 8 :=
    mul_le_mul hm he (by positivity) (by norm_num)
  have := (abs_le.mp hle).1
  push_cast at this
  linarith

/-! ## Saved-context frames -/

theorem PUSH_TO_SP_sp (t v : Nat) (s : Machine) :
    ((PUSH_TO_SP t v s).threads t).StackPointer =
      toWord ((s.threads t).StackPointer + 65535) := by
  simp only [PUSH_TO_SP, setThread_same]

theorem PUSH_TO_SP_mem (t v : Nat) (s : Machine) :
    (PUSH_TO_SP t v s).mem =
      writeByte s.mem (toWord ((s.threads t).StackPointer + 65535)) (toByte v) := rfl

theorem PUSH_TO_SP_Thread (t v : Nat) (s : Machine) :
    ((PUSH_TO_SP t v s).threads t).Thread = (s.threads t).Thread := by
  simp only [PUSH_TO_SP, setThread_same]

theorem linkThread_mem (t : Nat) (s : Machine) : (linkThread t s).mem = s.mem := by
  unfold linkThread
  split <;> rfl

theorem linkThread_sp (t q : Nat) (s : Machine) :
    ((linkThread t s).threads q).StackPointer = (s.threads q).StackPointer := by
  unfold linkThread
  split
  · rfl
  · simp only [Machine.setCurrentThread, setThread]
    by_cases h1 : q = t <;> by_cases h2 : q = s.CurrentThread <;> simp_all

/-- The stack formatting of `OS_AddThread`: the descriptor's stack pointer goes down by six
(modulo `2^16`) and the six bytes below the old stack pointer are written. -/
theorem OS_AddThread_stack (t : Nat) (s : Machine) :
    ((OS_AddThread t s).threads t).StackPointer =
      toWord ((s.threads t).StackPointer + 65530) ∧
    (OS_AddThread t s).mem =
      writeByte (writeByte (writeByte (writeByte (writeByte (writeByte s.mem
        (toWord ((s.threads t).StackPointer + 65535)) (loByte (s.threads t).Thread))
        (toWord ((s.threads t).StackPointer + 65534)) (hiByte (s.threads t).Thread))
        (toWord ((s.threads t).StackPointer + 65533)) 0x00)
        (toWord ((s.threads t).StackPointer + 65532)) 0x6A)
        (toWord ((s.threads t).StackPointer + 65531)) 0x00)
        (toWord ((s.threads t).StackPointer + 65530)) 0x00 := by
  have e0 : toByte 0x00 = 0x00 := by decide
  have e1 : toByte 0x6A = 0x6A := by decide
  unfold OS_AddThread
  rw [linkThread_mem, linkThread_sp]
  unfold formatStack
  simp only [PUSH_TO_SP_sp, PUSH_TO_SP_mem, PUSH_TO_SP_Thread, toWord_toWord_add,
    Nat.add_assoc, Nat.reduceAdd, toWord_add_wrap, toByte_toByte, e0, e1]
  exact ⟨trivial, rfl⟩

/-- The restore half of `OS_SwitchContext` on a machine whose next thread `T` has a complete
frame at its saved stack pointer: the frame is popped into the registers, control goes to
the frame's return address and `T` becomes current. -/
theorem dispatch_frame (m : Machine) (T S h x c a pc : Nat)
    (hnext : (m.threads m.cpu.HX).NextThread = T) (hT : T < 65536)
    (hS : (m.threads T).StackPointer = S) (hf : FrameAt m S h x c a pc) (hpc : pc < 65536) :
    (run dispatch_asm m).cpu = ⟨a, x, h, c ||| 0x60, toWord (S + 5), pc⟩ ∧
    (run dispatch_asm m).CurrentThread = T ∧
    (run dispatch_asm m).threads = m.threads ∧ (run dispatch_asm m).mem = m.mem := by
  obtain ⟨⟨ticks, ms, ⟨cur⟩⟩, th, mem, ⟨ra, rx, rh, rc, sp, rpc⟩, hw⟩ := m
  obtain ⟨f0, f1, f2, f3, f4, f5⟩ := hf
  simp only [Cpu.HX] at hnext
  simp only [] at hS f0 f1 f2 f3 f4 f5
  rw [run_dispatch]
  simp only [hnext, toWord_of_lt T hT, hS, f0, f1, f2, f3, f4, f5, bytes_eq_toWord,
    toWord_of_lt pc hpc, Machine.CurrentThread]
  exact ⟨trivial, trivial, trivial, trivial⟩

/-- The restore sequence of `OS_PullFirstContext` on a machine whose thread `T`, passed in
`H:X`, has a complete frame at its saved stack pointer. -/
theorem pullFirst_frame (m : Machine) (T S h x c a pc : Nat)
    (hT : m.cpu.HX = T) (hS : (m.threads T).StackPointer = S)
    (hf : FrameAt m S h x c a pc) (hpc : pc < 65536) :
    (run (OS_PullFirstContext_asm.take 7) m).cpu =
      ⟨a, x, h, c ||| 0x60, toWord (S + 3), m.cpu.PC⟩ ∧
    (run OS_PullFirstContext_asm m).cpu =
      ⟨a, x, h, (c ||| 0x60) &&& 0xF7, toWord (S + 5), pc⟩ := by
  obtain ⟨⟨ticks, ms, ⟨cur⟩⟩, th, mem, ⟨ra, rx, rh, rc, sp, rpc⟩, hw⟩ := m
  obtain ⟨f0, f1, f2, f3, f4, f5⟩ := hf
  simp only [Cpu.HX] at hT
  simp only [] at hS f0 f1 f2 f3 f4 f5
  rw [run_pullFirst, run_pullFirst_pops]
  simp only [hT, hS, f0, f1, f2, f3, f4, f5, bytes_eq_toWord, toWord_of_lt pc hpc]
  exact ⟨trivial, trivial⟩

theorem hiByte_of_lt (v : Nat) (h : v < 65536) : hiByte v = v / 256 := by
  rw [hiByte_eq, Nat.mod_eq_of_lt h]

/-- C7: for a descriptor whose `StackPointer` is `sp0`, one past the top of a stack region
of at least 6 bytes, `OS_AddThread` lowers `StackPointer` by exactly 6 and writes, from the
new `StackPointer` upward, `H = 0x00`, `X = 0x00`, `CCR = 0x6A`, `A = 0x00`, then the high
and the low byte of the entry address. On any machine that still holds that frame, the
restore sequence of `OS_PullFirstContext` (thread in `H:X`) and the one of `OS_SwitchContext`
(thread reached through `NextThread`) pop exactly those values into `H`, `X`, `CCR`, `A`,
transfer control to the entry address and leave `SP = sp0 - 1`, the top byte of the region
(the stack is empty: `TSX` would read `sp0`); `OS_PullFirstContext` then clears the
interrupt mask with `CLI`, so the thread starts with `CCR = 0x62`. -/
theorem C7_synthetic_first_frame (s : Machine) (t sp0 entry : Nat)
    (hsp : (s.threads t).StackPointer = sp0) (hentry : (s.threads t).Thread = entry)
    (h6 : 6 ≤ sp0) (h16 : sp0 < 65536) (he : entry < 65536) (ht : t < 65536) :
    ((OS_AddThread t s).threads t).StackPointer = sp0 - 6 ∧
    (OS_AddThread t s).mem (sp0 - 6) = 0x00 ∧
    (OS_AddThread t s).mem (sp0 - 5) = 0x00 ∧
    (OS_AddThread t s).mem (sp0 - 4) = 0x6A ∧
    (OS_AddThread t s).mem (sp0 - 3) = 0x00 ∧
    (OS_AddThread t s).mem (sp0 - 2) = entry / 256 ∧
    (OS_AddThread t s).mem (sp0 - 1) = entry % 256 ∧
    FrameAt (OS_AddThread t s) (sp0 - 6) 0x00 0x00 0x6A 0x00 entry ∧
    ∀ m : Machine, (m.threads t).StackPointer = sp0 - 6 →
      FrameAt m (sp0 - 6) 0x00 0x00 0x6A 0x00 entry →
      (m.cpu.HX = t →
        (run (OS_PullFirstContext_asm.take 7) m).cpu =
          ⟨0x00, 0x00, 0x00, 0x6A, sp0 - 3, m.cpu.PC⟩ ∧
        (run OS_PullFirstContext_asm m).cpu = ⟨0x00, 0x00, 0x00, 0x62, sp0 - 1, entry⟩ ∧
        toWord ((run OS_PullFirstContext_asm m).cpu.SP + 1) = sp0) ∧
      ((m.threads m.cpu.HX).NextThread = t →
        (run dispatch_asm m).cpu = ⟨0x00, 0x00, 0x00, 0x6A, sp0 - 1, entry⟩ ∧
        (run dispatch_asm m).CurrentThread = t ∧
        toWord ((run dispatch_asm m).cpu.SP + 1) = sp0) := by
  obtain ⟨hs, hm⟩ := OS_AddThread_stack t s
  rw [hsp] at hs hm
  rw [hentry] at hm
  have a0 : toWord (sp0 + 65530) = sp0 - 6 := by unfold toWord; omega
  have a1 : toWord (sp0 + 65531) = sp0 - 5 := by unfold toWord; omega
  have a2 : toWord (sp0 + 65532) = sp0 - 4 := by unfold toWord; omega
  have a3 : toWord (sp0 + 65533) = sp0 - 3 := by unfold toWord; omega
  have a4 : toWord (sp0 + 65534) = sp0 - 2 := by unfold toWord; omega
  have a5 : toWord (sp0 + 65535) = sp0 - 1 := by unfold toWord; omega
  rw [a0, a1, a2, a3, a4, a5] at hm
  rw [a0] at hs
  have m0 : (OS_AddThread t s).mem (sp0 - 6) = 0x00 := by
    rw [hm]
    simp (disch := omega) only [writeByte_same, writeByte_other]
  have m1 : (OS_AddThread t s).mem (sp0 - 5) = 0x00 := by
    rw [hm]
    simp (disch := omega) only [writeByte_same, writeByte_other]
  have m2 : (OS_AddThread t s).mem (sp0 - 4) = 0x6A := by
    rw [hm]
    simp (disch := omega) only [writeByte_same, writeByte_other]
  have m3 : (OS_AddThread t s).mem (sp0 - 3) = 0x00 := by
    rw [hm]
    simp (disch := omega) only [writeByte_same, writeByte_other]
  have m4 : (OS_AddThread t s).mem (sp0 - 2) = entry / 256 := by
    rw [hm]
    simp (disch := omega) only [writeByte_same, writeByte_other]
    exact hiByte_of_lt entry he
  have m5 : (OS_AddThread t s).mem (sp0 - 1) = entry % 256 := by
    rw [hm]
    simp (disch := omega) only [writeByte_same, writeByte_other]
    rfl
  have w0 : toWord (sp0 - 6) = sp0 - 6 := toWord_of_lt _ (by omega)
  have w1 : toWord (sp0 - 6 + 1) = sp0 - 5 := by unfold toWord; omega
  have w2 : toWord (sp0 - 6 + 2) = sp0 - 4 := by unfold toWord; omega
  have w3 : toWord (sp0 - 6 + 3) = sp0 - 3 := by unfold toWord; omega
  have w4 : toWord (sp0 - 6 + 4) = sp0 - 2 := by unfold toWord; omega
  have w5 : toWord (sp0 - 6 + 5) = sp0 - 1 := by unfold toWord; omega
  have w6 : toWord (sp0 - 1 + 1) = sp0 := by unfold toWord; omega
  have hframe : FrameAt (OS_AddThread t s) (sp0 - 6) 0x00 0x00 0x6A 0x00 entry := by
    unfold FrameAt
    rw [w0, w1, w2, w3, w4, w5, m0, m1, m2, m3, m4, m5, hiByte_of_lt entry he]
    refine ⟨by decide, by decide, by decide, by decide, ?_, ?_⟩
    · unfold toByte; omega
    · unfold loByte toByte; omega
  refine ⟨hs, m0, m1, m2, m3, m4, m5, hframe, ?_⟩
  intro m hmS hmF
  have c1 : (0x6A : Nat) ||| 0x60 = 0x6A := by decide
  have c2 : ((0x6A : Nat) ||| 0x60) &&& 0xF7 = 0x62 := by decide
  constructor
  · intro hHX
    obtain ⟨p1, p2⟩ := pullFirst_frame m t (sp0 - 6) 0x00 0x00 0x6A 0x00 entry hHX hmS hmF he
    rw [c1, w3] at p1
    rw [c2, w5] at p2
    refine ⟨p1, p2, ?_⟩
    rw [p2]
    exact w6
  · intro hnext
    obtain ⟨p1, p2, -, -⟩ :=
      dispatch_frame m t (sp0 - 6) 0x00 0x00 0x6A 0x00 entry hnext ht hmS hmF he
    rw [c1, w5] at p1
    refine ⟨p1, p2, ?_⟩
    rw [p1]
    exact w6

/-- C7 at the concrete boot image: thread `A`, stack top `0x140`, entry `0xE000`. -/
theorem C7_synthetic_first_frame_witness :
    ((OS_AddThread 0x60 demoMachine).threads 0x60).StackPointer = 0x140 - 6 ∧
    (OS_AddThread 0x60 demoMachine).mem (0x140 - 4) = 0x6A ∧
    (OS_AddThread 0x60 demoMachine).mem (0x140 - 2) = 0xE000 / 256 :=
  ⟨(C7_synthetic_first_frame demoMachine 0x60 0x140 0xE000 rfl rfl (by decide) (by decide)
      (by decide) (by decide)).1,
   (C7_synthetic_first_frame demoMachine 0x60 0x140 0xE000 rfl rfl (by decide) (by decide)
      (by decide) (by decide)).2.2.2.1,
   (C7_synthetic_first_frame demoMachine 0x60 0x140 0xE000 rfl rfl (by decide) (by decide)
      (by decide) (by decide)).2.2.2.2.2.1⟩

/-- C8: at entry to `OS_SwitchContext`, with `H:X` holding the descriptor address `T` of
the running thread and the return address on top of the stack, the suspend half pushes `A`,
`CCR`, `X` and `H` below the return address and stores in `T.StackPointer` the address of
the topmost saved byte, leaving a complete frame there. When `T` is next dispatched (its
predecessor's `NextThread` is `T`) on a machine where `T.StackPointer` and the frame are
unaltered, the restore half leaves `A`, `CCR`, `X`, `H`, the stack pointer and the program
counter exactly as a plain return from `OS_SwitchContext` at the moment of suspension would
have: save followed by restore is the identity on `T`'s context. -/
theorem C8_save_restore_identity (s : Machine)
    (ha : s.cpu.A < 256) (hx : s.cpu.X < 256) (hh : s.cpu.H < 256) (hc : s.cpu.CCR < 256)
    (hc1 : s.cpu.CCR ||| 0x60 = s.cpu.CCR) (hsp : s.cpu.SP < 65536) :
    (run suspend_asm s).mem s.cpu.SP = s.cpu.A ∧
    (run suspend_asm s).mem (toWord (s.cpu.SP + 65535)) = s.cpu.CCR ∧
    (run suspend_asm s).mem (toWord (s.cpu.SP + 65534)) = s.cpu.X ∧
    (run suspend_asm s).mem (toWord (s.cpu.SP + 65533)) = s.cpu.H ∧
    ((run suspend_asm s).threads s.cpu.HX).StackPointer = toWord (s.cpu.SP + 65533) ∧
    FrameAt (run suspend_asm s) (toWord (s.cpu.SP + 65533))
      s.cpu.H s.cpu.X s.cpu.CCR s.cpu.A (exec Instr.RTS s).cpu.PC ∧
    ∀ m : Machine, (m.threads m.cpu.HX).NextThread = s.cpu.HX →
      (m.threads s.cpu.HX).StackPointer = toWord (s.cpu.SP + 65533) →
      FrameAt m (toWord (s.cpu.SP + 65533))
        s.cpu.H s.cpu.X s.cpu.CCR s.cpu.A (exec Instr.RTS s).cpu.PC →
      (run dispatch_asm m).cpu = (exec Instr.RTS s).cpu ∧
      (run dispatch_asm m).CurrentThread = s.cpu.HX := by
  obtain ⟨ctx, th, mem, ⟨a, x, h, c, sp, pc⟩, hw⟩ := s
  simp only [] at ha hx hh hc hc1 hsp
  have ba : toByte a = a := Nat.mod_eq_of_lt ha
  have bx : toByte x = x := Nat.mod_eq_of_lt hx
  have bh : toByte h = h := Nat.mod_eq_of_lt hh
  have bc : toByte c = c := Nat.mod_eq_of_lt hc
  have hpcw : toByte (mem (toWord (sp + 1))) * 256 + toByte (mem (toWord (sp + 2))) < 65536 := by
    unfold toByte; omega
  have hhi : hiByte (toByte (mem (toWord (sp + 1))) * 256 + toByte (mem (toWord (sp + 2)))) =
      toByte (mem (toWord (sp + 1))) := by
    rw [hiByte_of_lt _ hpcw]; unfold toByte; omega
  have hlo : loByte (toByte (mem (toWord (sp + 1))) * 256 + toByte (mem (toWord (sp + 2)))) =
      toByte (mem (toWord (sp + 2))) := by
    unfold loByte toByte; omega
  rw [run_suspend, exec_RTS]
  simp only [Cpu.HX, ba, bx, bh, bc]
  have r0 : writeByte (writeByte (writeByte (writeByte (writeByte (writeByte mem
      sp a) (toWord (sp + 65535)) c) (toWord (sp + 65534)) x) (toWord (sp + 65533)) h)
      (toWord (sp + 65532)) (hiByte (sp + 65533)))
      (toWord (sp + 65531)) (loByte (sp + 65533)) sp = a := by
    simp (disch := (simp only [toWord]; omega)) only [writeByte_same, writeByte_other]
  have r1 : writeByte (writeByte (writeByte (writeByte (writeByte (writeByte mem
      sp a) (toWord (sp + 65535)) c) (toWord (sp + 65534)) x) (toWord (sp + 65533)) h)
      (toWord (sp + 65532)) (hiByte (sp + 65533)))
      (toWord (sp + 65531)) (loByte (sp + 65533)) (toWord (sp + 65535)) = c := by
    simp (disch := (simp only [toWord]; omega)) only [writeByte_same, writeByte_other]
  have r2 : writeByte (writeByte (writeByte (writeByte (writeByte (writeByte mem
      sp a) (toWord (sp + 65535)) c) (toWord (sp + 65534)) x) (toWord (sp + 65533)) h)
      (toWord (sp + 65532)) (hiByte (sp + 65533)))
      (toWord (sp + 65531)) (loByte (sp + 65533)) (toWord (sp + 65534)) = x := by
    simp (disch := (simp only [toWord]; omega)) only [writeByte_same, writeByte_other]
  have r3 : writeByte (writeByte (writeByte (writeByte (writeByte (writeByte mem
      sp a) (toWord (sp + 65535)) c) (toWord (sp + 65534)) x) (toWord (sp + 65533)) h)
      (toWord (sp + 65532)) (hiByte (sp + 65533)))
      (toWord (sp + 65531)) (loByte (sp + 65533)) (toWord (sp + 65533)) = h := by
    simp (disch := (simp only [toWord]; omega)) only [writeByte_same, writeByte_other]
  have r4 : writeByte (writeByte (writeByte (writeByte (writeByte (writeByte mem
      sp a) (toWord (sp + 65535)) c) (toWord (sp + 65534)) x) (toWord (sp + 65533)) h)
      (toWord (sp + 65532)) (hiByte (sp + 65533)))
      (toWord (sp + 65531)) (loByte (sp + 65533)) (toWord (sp + 1)) = mem (toWord (sp + 1)) := by
    simp (disch := (simp only [toWord]; omega)) only [writeByte_same, writeByte_other]
  have r5 : writeByte (writeByte (writeByte (writeByte (writeByte (writeByte mem
      sp a) (toWord (sp + 65535)) c) (toWord (sp + 65534)) x) (toWord (sp + 65533)) h)
      (toWord (sp + 65532)) (hiByte (sp + 65533)))
      (toWord (sp + 65531)) (loByte (sp + 65533)) (toWord (sp + 2)) = mem (toWord (sp + 2)) := by
    simp (disch := (simp only [toWord]; omega)) only [writeByte_same, writeByte_other]
  have w0 : toWord (toWord (sp + 65533)) = toWord (sp + 65533) := by unfold toWord; omega
  have w1 : toWord (toWord (sp + 65533) + 1) = toWord (sp + 65534) := by unfold toWord; omega
  have w2 : toWord (toWord (sp + 65533) + 2) = toWord (sp + 65535) := by unfold toWord; omega
  have w3 : toWord (toWord (sp + 65533) + 3) = sp := by unfold toWord; omega
  have w4 : toWord (toWord (sp + 65533) + 4) = toWord (sp + 1) := by unfold toWord; omega
  have w5 : toWord (toWord (sp + 65533) + 5) = toWord (sp + 2) := by unfold toWord; omega
  have hframe : FrameAt
      ⟨ctx,
        setThread th (toWord (h * 256 + x))
          (Field.StackPointer.set (th (toWord (h * 256 + x))) (toWord (sp + 65533))),
        writeByte (writeByte (writeByte (writeByte (writeByte (writeByte mem
          sp a) (toWord (sp + 65535)) c) (toWord (sp + 65534)) x) (toWord (sp + 65533)) h)
          (toWord (sp + 65532)) (hiByte (sp + 65533)))
          (toWord (sp + 65531)) (loByte (sp + 65533)),
        ⟨hiByte (sp + 65533), x, h, suspendCCR c x h sp, toWord (sp + 65532), pc⟩, hw⟩
      (toWord (sp + 65533)) h x c a
      (toByte (mem (toWord (sp + 1))) * 256 + toByte (mem (toWord (sp + 2)))) := by
    unfold FrameAt
    simp only []
    rw [w0, w1, w2, w3, w4, w5, r0, r1, r2, r3, r4, r5, hhi, hlo]
    exact ⟨bh, bx, bc, ba, rfl, rfl⟩
  refine ⟨r0, r1, r2, r3, ?_, hframe, ?_⟩
  · rw [setThread_same]; rfl
  · intro m hnext hS hF
    obtain ⟨p1, p2, -, -⟩ := dispatch_frame m (toWord (h * 256 + x)) (toWord (sp + 65533))
      h x c a _ hnext (Nat.mod_lt _ (by decide)) hS hF hpcw
    rw [hc1, w5] at p1
    exact ⟨p1, p2⟩

/-- C8 on a concrete machine: thread `A` (descriptor `0x60`) enters `OS_SwitchContext` with
`A = 0x12`, `CCR = 0x6B` and `SP = 0x13B`; the accumulator is saved at `0x13B` and the
descriptor records the address `0x138` of the topmost saved byte. -/
theorem C8_save_restore_identity_witness :
    (run suspend_asm switchDemo).mem switchDemo.cpu.SP = switchDemo.cpu.A ∧
    ((run suspend_asm switchDemo).threads switchDemo.cpu.HX).StackPointer =
      toWord (switchDemo.cpu.SP + 65533) :=
  ⟨(C8_save_restore_identity switchDemo (by decide) (by decide) (by decide) (by decide)
      (by decide) (by decide)).1,
   (C8_save_restore_identity switchDemo (by decide) (by decide) (by decide) (by decide)
      (by decide) (by decide)).2.2.2.2.1⟩

/-! ## Ring closure from any element of the chain -/

/-- The result of `OS_InitScheluder` on an open chain, in closed form: the head is made
current and the ring is closed between the tail and the head. -/
theorem OS_InitScheluder_closed_form (s : Machine) (ts : List Nat)
    (hnn : ∀ t ∈ ts, t ≠ NULL) (hchain : OpenChain s ts) (i : Nat) (hi : i < ts.length)
    (hcur : s.CurrentThread = nth ts i) (fuel : Nat) (hf : ts.length ≤ fuel) :
    OS_InitScheluder fuel s =
      some (closeRing (s.setCurrentThread (nth ts 0)) (nth ts (ts.length - 1))) := by
  have hcn : s.CurrentThread ≠ NULL := by rw [hcur]; exact hnn _ (nth_mem ts i hi)
  have h1 := findLastThread_chain s ts hnn hchain fuel i hi (by omega)
  have h2 := rewindCurrentThread_chain ts hnn fuel s hchain i hi hcur (by omega)
  unfold OS_InitScheluder
  rw [if_neg hcn, hcur, h1]
  simp only [h2]
  rfl

theorem openChain_setCurrentThread (s : Machine) (ts : List Nat) (p : Nat)
    (hchain : OpenChain s ts) : OpenChain (s.setCurrentThread p) ts :=
  fun i hi => hchain i hi

/-- C11: for every well-formed open chain `ts` of `n ≥ 1` descriptors and `CurrentThread`
pointing at any element of it, `OS_InitScheluder` terminates (within `n` evaluations of each
loop condition), makes the head current, sets `tail.NextThread = head` and
`head.PrevThread = tail`, and changes no other link; started from any other element of the
chain it returns the very same machine. -/
theorem C11_closure_from_any_element (s : Machine) (ts : List Nat) (hne : ts ≠ [])
    (hnn : ∀ t ∈ ts, t ≠ NULL) (hchain : OpenChain s ts) (i : Nat) (hi : i < ts.length)
    (hcur : s.CurrentThread = nth ts i) (fuel : Nat) (hf : ts.length ≤ fuel) :
    ∃ r, OS_InitScheluder fuel s = some r ∧
      r.CurrentThread = ts.head hne ∧
      (r.threads (ts.getLast hne)).NextThread = ts.head hne ∧
      (r.threads (ts.head hne)).PrevThread = ts.getLast hne ∧
      (∀ q, q ≠ ts.getLast hne → (r.threads q).NextThread = (s.threads q).NextThread) ∧
      (∀ q, q ≠ ts.head hne → (r.threads q).PrevThread = (s.threads q).PrevThread) ∧
      (∀ j, j < ts.length → OS_InitScheluder fuel (s.setCurrentThread (nth ts j)) = some r) := by
  have hlen : 0 < ts.length := List.length_pos.mpr hne
  have hhead : ts.head hne = nth ts 0 := by
    rw [nth_lt ts 0 hlen]; exact (List.getElem_zero hlen).symm
  have hlast : ts.getLast hne = nth ts (ts.length - 1) := by
    rw [nth_lt ts _ (by omega)]; exact List.getLast_eq_getElem ts hne
  obtain ⟨r, h1, h2, h3, h4⟩ := OS_InitScheluder_chain s ts hnn hchain i hi hcur fuel hf
  have hform := OS_InitScheluder_closed_form s ts hnn hchain i hi hcur fuel hf
  rw [hhead, hlast]
  refine ⟨r, h1, h2, ?_, ?_, ?_, ?_, ?_⟩
  · rw [h3, if_pos rfl]
  · rw [h4, if_pos rfl]
  · intro q hq
    rw [h3, if_neg hq]
  · intro q hq
    rw [h4, if_neg hq]
  · intro j hj
    rw [OS_InitScheluder_closed_form (s.setCurrentThread (nth ts j)) ts hnn
      (openChain_setCurrentThread s ts _ hchain) j hj rfl fuel hf, setCurrentThread_twice,
      ← hform, h1]

/-- C11 at the concrete boot image: the chain `A, B, C` built by registration, closed from
its tail `C` and from its interior element `B`. -/
theorem C11_closure_from_any_element_witness :
    ∃ r, OS_InitScheluder 3 (addThreads demoThreads demoMachine) = some r ∧
      r.CurrentThread = 0x60 ∧
      OS_InitScheluder 3 ((addThreads demoThreads demoMachine).setCurrentThread 0x70) =
        some r := by
  obtain ⟨r, h1, h2, -, -, -, -, h7⟩ := C11_closure_from_any_element
    (addThreads demoThreads demoMachine) demoThreads (by decide) demo_registrable.nonnull
    (addThreads_invariant demoMachine demoThreads demo_registrable).2.1 2 (by decide) rfl
    3 (by decide)
  exact ⟨r, h1, h2, h7 1 (by decide)⟩

/-! ## The selected exponent and count, for every target -/

set_option maxRecDepth 1000000 in
/-- Eight evaluations of the bit scan's condition never suffice: the body runs eight times
for every byte value of the linear ratio. -/
theorem prescaleScan_eight : ∀ r < 256, prescaleScan r 8 0 = none := by
  decide

theorem linearRatio_lt (t : Nat) : linearRatio t < 256 := Nat.mod_lt _ (by decide)

theorem linearRatio_eq (t : Nat) (ht : t ≤ 16319) :
    linearRatio t = t * BUS_TICKS_PER_US / 255 := by
  unfold linearRatio
  rw [BUS_TICKS_PER_US_eq, toWord_of_lt 4 (by decide), toWord_of_lt (t * 4) (by omega)]
  unfold toByte BYTE_MASK
  exact Nat.mod_eq_of_lt (by omega)

theorem moduleScan_count_le (t P : Nat) :
    (moduleScan t P UCHAR_MAX UINT_MAX UCHAR_MAX).2 ≤ 255 := by
  obtain ⟨-, hcase⟩ := moduleScan_spec t P UCHAR_MAX UINT_MAX UCHAR_MAX
  rcases hcase with ⟨-, h2, -⟩ | ⟨h1, -, -, -⟩
  · rw [h2]; decide
  · exact h1

/-- The pair selected by `MTI_RegTraining`, for every target: the exponent is one more than
the position found by the bit scan of the linear ratio, and the count is the result of the
`do` loop run with the byte `1 << e`. -/
theorem MTI_RegTraining_values_all (target fuel : Nat) (hf : 9 ≤ fuel) :
    ∃ e, 1 ≤ e ∧ e ≤ 8 ∧
      MTI_RegTraining_values fuel target =
        some (e, (moduleScan target (toByte (1 <<< e)) UCHAR_MAX UINT_MAX UCHAR_MAX).2) ∧
      linearRatio target < 2 ^ e ∧
      (linearRatio target ≠ 0 → 2 ^ (e - 1) ≤ linearRatio target) ∧
      (linearRatio target = 0 → e = 1) := by
  obtain ⟨e, he1, he8, hscan, hexp, hlt, hge⟩ :=
    prescaleScan_exponent (linearRatio target) fuel (linearRatio_lt target) hf
  refine ⟨e, he1, he8, ?_, hlt, hge, ?_⟩
  · unfold MTI_RegTraining_values
    simp only [← linearRatio.eq_1, hscan, hexp]
  · intro h0
    rw [h0] at hscan
    have h9 : prescaleScan 0 9 0 = some 8 := by decide
    have := prescaleScan_mono 0 9 (fuel - 9) 0 _ h9
    rw [Nat.add_sub_cancel' hf, hscan] at this
    simp only [Option.some.injEq] at this
    omega

/-- C17: for every `ExpectedTime`, the bit-scan loop of `MTI_RegTraining` runs its body
exactly 8 times (its condition holds at the first eight evaluations and fails at the ninth),
the exponent produced lies in `[1, 8]` and is what the 4-bit prescaler field receives, the
count produced lies in `[0, 255]`, and a linear ratio of 0 yields exponent 1. -/
theorem C17_scan_terminates_in_range (ExpectedTime : Nat) :
    prescaleScan (linearRatio ExpectedTime) 8 0 = none ∧
    (∃ v, prescaleScan (linearRatio ExpectedTime) 9 0 = some v) ∧
    ∃ e m, MTI_RegTraining_values 9 ExpectedTime = some (e, m) ∧
      1 ≤ e ∧ e ≤ 8 ∧ e % 16 = e ∧ m ≤ 255 ∧
      (linearRatio ExpectedTime = 0 → e = 1) ∧
      (ExpectedTime * BUS_TICKS_PER_US / 255 = 0 → e = 1) := by
  obtain ⟨e, he1, he8, hval, -, -, h0⟩ := MTI_RegTraining_values_all ExpectedTime 9 (le_refl 9)
  obtain ⟨e1, -, -, hscan, -⟩ := prescaleScan_table (linearRatio ExpectedTime)
    (linearRatio_lt ExpectedTime)
  refine ⟨prescaleScan_eight _ (linearRatio_lt ExpectedTime), ⟨_, hscan⟩, e, _, hval, he1, he8,
    Nat.mod_eq_of_lt (by omega), moduleScan_count_le _ _, h0, ?_⟩
  intro hz
  apply h0
  have ht : ExpectedTime ≤ 16319 := by
    rw [BUS_TICKS_PER_US_eq] at hz
    omega
  rw [linearRatio_eq ExpectedTime ht, hz]

/-- C17 at a target whose linear ratio is 0: 50 microseconds. -/
theorem C17_scan_terminates_in_range_witness :
    ∃ e m, MTI_RegTraining_values 9 50 = some (e, m) ∧ e = 1 ∧ m ≤ 255 := by
  obtain ⟨-, -, e, m, h1, -, -, -, h5, -, h7⟩ := C17_scan_terminates_in_range 50
  exact ⟨e, m, h1, h7 (by decide), h5⟩

/-- C13, amended: for every target period, the exponent `e` that `MTI_RegTraining` writes is
the position of the highest set bit of the linear ratio, plus one: `2^(e-1) ≤ r < 2^e` for
the non-zero ratio `r` as the code computes it, `((target * ticks_per_us) mod 2^16 / 255)
mod 2^8`; for targets of at most 16319 microseconds that is the ratio
`target * ticks_per_us / 255` itself. -/
theorem C13_exponent_is_highest_bit (target fuel : Nat) (hf : 9 ≤ fuel) :
    ∃ e m, MTI_RegTraining_values fuel target = some (e, m) ∧
      (linearRatio target ≠ 0 →
        2 ^ (e - 1) ≤ linearRatio target ∧ linearRatio target < 2 ^ e) ∧
      (target ≤ 16319 → target * BUS_TICKS_PER_US / 255 ≠ 0 →
        2 ^ (e - 1) ≤ target * BUS_TICKS_PER_US / 255 ∧
        target * BUS_TICKS_PER_US / 255 < 2 ^ e) := by
  obtain ⟨e, -, -, hval, hlt, hge, -⟩ := MTI_RegTraining_values_all target fuel hf
  refine ⟨e, _, hval, fun h => ⟨hge h, hlt⟩, ?_⟩
  intro ht hr
  rw [← linearRatio_eq target ht] at hr ⊢
  exact ⟨hge hr, hlt⟩

/-- C13 amended, at the 1000 microsecond target: ratio 15, exponent 4. -/
theorem C13_exponent_is_highest_bit_witness :
    ∃ e m, MTI_RegTraining_values 9 1000 = some (e, m) ∧
      2 ^ (e - 1) ≤ 1000 * BUS_TICKS_PER_US / 255 ∧ 1000 * BUS_TICKS_PER_US / 255 < 2 ^ e := by
  obtain ⟨e, m, h1, -, h3⟩ := C13_exponent_is_highest_bit 1000 9 (le_refl 9)
  exact ⟨e, m, h1, h3 (by decide) (by decide)⟩

set_option maxRecDepth 100000 in
theorem MTI_RegTraining_values_16320 : MTI_RegTraining_values 9 16320 = some (1, 255) := by
  decide

/-- C13 for the ratio `target * ticks_per_us / 255` fails from 16320 microseconds on: there
the ratio is 256, which the byte holding it truncates to 0, and the exponent written is 1,
while `2^0 ≤ 256 < 2^1` is false. -/
theorem C13_counterexample :
    MTI_RegTraining_values 9 16320 = some (1, 255) ∧
    16320 * BUS_TICKS_PER_US / 255 = 256 ∧
    ¬ (2 ^ (1 - 1) ≤ 16320 * BUS_TICKS_PER_US / 255 ∧ 16320 * BUS_TICKS_PER_US / 255 < 2 ^ 1) :=
  ⟨MTI_RegTraining_values_16320, by decide, by decide⟩

/-! ## The selected count is the largest minimiser of the computed error -/

/-- The full scan of `MTI_RegTraining`, when the largest candidate already beats the initial
`UINT_MAX`: the returned count has least computed error and every larger count has a
strictly greater one. -/
theorem moduleScan_largest (t P : Nat) (h : currentError t P 255 < 65535) :
    (moduleScan t P UCHAR_MAX UINT_MAX UCHAR_MAX).2 ≤ 255 ∧
    (∀ m, m ≤ 255 → currentError t P (moduleScan t P UCHAR_MAX UINT_MAX UCHAR_MAX).2 ≤
      currentError t P m) ∧
    ∀ m, m ≤ 255 → (moduleScan t P UCHAR_MAX UINT_MAX UCHAR_MAX).2 < m →
      currentError t P (moduleScan t P UCHAR_MAX UINT_MAX UCHAR_MAX).2 <
        currentError t P m := by
  obtain ⟨hmin, hcase⟩ := moduleScan_spec t P UCHAR_MAX UINT_MAX UCHAR_MAX
  rcases hcase with ⟨-, -, h3⟩ | ⟨h1, h2, -, h4⟩
  · have := h3 255 (by decide)
    unfold UINT_MAX at this
    omega
  · refine ⟨h1, ?_, ?_⟩
    · intro m hm
      rw [← h2]
      exact hmin m hm
    · intro m hm hlt
      rw [← h2]
      exact h4 m hlt hm

theorem pow_le_128 (e : Nat) (he : e ≤ 7) : 2 ^ e ≤ 128 :=
  calc 2 ^ e ≤ 2 ^ 7 := Nat.pow_le_pow_right (by decide) he
    _ = 128 := by decide

theorem currentError_eq_scanError (e m t : Nat) (he : e ≤ 7) (hm : m ≤ 255) :
    currentError t (2 ^ e) m = scanError e m t := by
  have hprod : 2 ^ e * m ≤ 128 * 255 := Nat.mul_le_mul (pow_le_128 e he) hm
  unfold currentError scanError
  simp only [BUS_TICKS_PER_US_eq, toWord_of_lt 4 (by decide),
    toWord_of_lt (2 ^ e * m) (by omega), Nat.mul_comm m (2 ^ e)]

theorem scanError_cast (e m t : Nat) (he : 2 ≤ e) :
    ((scanError e m t : Nat) : ℚ) = periodError e m t := by
  obtain ⟨k, rfl⟩ : ∃ k, e = k + 2 := ⟨e - 2, by omega⟩
  have hq : m * 2 ^ (k + 2) / 4 = m * 2 ^ k := by
    rw [pow_add]
    have : m * (2 ^ k * 2 ^ 2) = m * 2 ^ k * 4 := by ring
    rw [this, Nat.mul_div_cancel _ (by decide)]
  have hreal : ((m : ℚ) * 2 ^ (k + 2)) / 4 = ((m * 2 ^ k : Nat) : ℚ) := by
    push_cast
    rw [pow_add]
    ring
  rw [periodError_eq, hreal]
  unfold scanError
  simp only [BUS_TICKS_PER_US_eq, hq]
  by_cases h : m * 2 ^ k < t
  · rw [if_pos h, Nat.cast_sub (le_of_lt h), abs_of_nonpos]
    · ring
    · have : ((m * 2 ^ k : Nat) : ℚ) ≤ (t : ℚ) := by exact_mod_cast le_of_lt h
      linarith
  · rw [if_neg h, Nat.cast_sub (by omega), abs_of_nonneg]
    have : ((t : Nat) : ℚ) ≤ ((m * 2 ^ k : Nat) : ℚ) := by exact_mod_cast (by omega : t ≤ m * 2 ^ k)
    linarith

/-- C12, amended: for every target period of at most 8159 microseconds (exponent at most
7), with `e` the exponent `MTI_RegTraining` selects, the count `m` it writes minimises the
error as the scan computes it, `|m * 2^e / ticks_per_us - target|` with integer division,
over all counts in `[0,255]`, and it is the largest minimiser: every larger count has a
strictly greater error. For `e ≥ 2` the division is exact, and `m` is then the largest
minimiser of the error `|m * 2^e / ticks_per_us - target|` itself. -/
theorem C12_largest_minimiser (target fuel : Nat) (hf : 9 ≤ fuel) (ht : target ≤ 8159) :
    ∃ e m, MTI_RegTraining_values fuel target = some (e, m) ∧ e ≤ 7 ∧ m ≤ 255 ∧
      (∀ m1, m1 ≤ 255 → scanError e m target ≤ scanError e m1 target) ∧
      (∀ m1, m1 ≤ 255 → m < m1 → scanError e m target < scanError e m1 target) ∧
      (2 ≤ e →
        (∀ m1, m1 ≤ 255 → periodError e m target ≤ periodError e m1 target) ∧
        (∀ m1, m1 ≤ 255 → m < m1 → periodError e m target < periodError e m1 target)) := by
  obtain ⟨e, he1, he8, hval, hlt, hge, h0⟩ := MTI_RegTraining_values_all target fuel hf
  have hr : linearRatio target < 128 := by
    rw [linearRatio_eq target (by omega), BUS_TICKS_PER_US_eq]
    omega
  have he7 : e ≤ 7 := by
    by_cases hz : linearRatio target = 0
    · have := h0 hz
      omega
    · have h1 := hge hz
      by_contra hcon
      have he : e = 8 := by omega
      subst he
      norm_num at h1
      omega
  have hP : toByte (1 <<< e) = 2 ^ e := by
    interval_cases e <;> decide
  rw [hP] at hval
  have hce : currentError target (2 ^ e) 255 < 65535 := by
    rw [currentError_eq_scanError e 255 target he7 (le_refl 255)]
    have hprod : 255 * 2 ^ e ≤ 255 * 128 := Nat.mul_le_mul_left 255 (pow_le_128 e he7)
    unfold scanError
    simp only [BUS_TICKS_PER_US_eq]
    split <;> omega
  obtain ⟨hm, hmin, hlarge⟩ := moduleScan_largest target (2 ^ e) hce
  set m := (moduleScan target (2 ^ e) UCHAR_MAX UINT_MAX UCHAR_MAX).2 with hmdef
  have hmin1 : ∀ m1, m1 ≤ 255 → scanError e m target ≤ scanError e m1 target := by
    intro m1 hm1
    rw [← currentError_eq_scanError e m target he7 hm,
      ← currentError_eq_scanError e m1 target he7 hm1]
    exact hmin m1 hm1
  have hlarge1 : ∀ m1, m1 ≤ 255 → m < m1 → scanError e m target < scanError e m1 target := by
    intro m1 hm1 hlt1
    rw [← currentError_eq_scanError e m target he7 hm,
      ← currentError_eq_scanError e m1 target he7 hm1]
    exact hlarge m1 hm1 hlt1
  refine ⟨e, m, hval, he7, hm, hmin1, hlarge1, ?_⟩
  intro he2
  constructor
  · intro m1 hm1
    rw [← scanError_cast e m target he2, ← scanError_cast e m1 target he2]
    exact_mod_cast hmin1 m1 hm1
  · intro m1 hm1 hlt1
    rw [← scanError_cast e m target he2, ← scanError_cast e m1 target he2]
    exact_mod_cast hlarge1 m1 hm1 hlt1

/-- C12 amended, at the 1000 microsecond target: the count selected under exponent 4 is no
worse than the count 251. -/
theorem C12_largest_minimiser_witness :
    ∃ e m, MTI_RegTraining_values 9 1000 = some (e, m) ∧
      scanError e m 1000 ≤ scanError e 251 1000 := by
  obtain ⟨e, m, h1, -, -, h4, -⟩ := C12_largest_minimiser 1000 9 (le_refl 9) (by decide)
  exact ⟨e, m, h1, h4 251 (by decide)⟩

set_option maxRecDepth 100000 in
theorem MTI_RegTraining_values_100 : MTI_RegTraining_values 9 100 = some (1, 201) := by
  decide

/-- C12 for the exact error fails at the 100 microsecond target: the code selects exponent 1
and count 201, half a microsecond off, although the count 200 hits the target exactly; the
integer division `402 / 4 = 100` hides the difference from the scan. -/
theorem C12_counterexample :
    MTI_RegTraining_values 9 100 = some (1, 201) ∧
    periodError 1 200 100 = 0 ∧ periodError 1 201 100 = 1 / 2 ∧
    ¬ (periodError 1 201 100 ≤ periodError 1 200 100) := by
  have h1 : periodError 1 200 100 = 0 := by rw [periodError_eq]; norm_num
  have h2 : periodError 1 201 100 = 1 / 2 := by
    rw [periodError_eq]; norm_num [abs_of_nonneg]
  refine ⟨MTI_RegTraining_values_100, h1, h2, ?_⟩
  rw [h1, h2]
  norm_num

/-! ## Frame effects of the two interrupt handlers -/

theorem OS_SwitchContext_ticks (arg ra : Nat) (s : Machine) :
    (OS_SwitchContext arg ra s).OsContext.Ticks = s.OsContext.Ticks := by
  obtain ⟨⟨ticks, ms, ⟨cur⟩⟩, th, mem, ⟨a, x, h, c, sp, pc⟩, hw⟩ := s
  unfold OS_SwitchContext
  rw [OS_SwitchContext_asm_split, run_append, callHX_mk, run_suspend, run_dispatch]

theorem OS_SwitchContext_ms (arg ra : Nat) (s : Machine) :
    (OS_SwitchContext arg ra s).OsContext.MsElapsed = s.OsContext.MsElapsed := by
  obtain ⟨⟨ticks, ms, ⟨cur⟩⟩, th, mem, ⟨a, x, h, c, sp, pc⟩, hw⟩ := s
  unfold OS_SwitchContext
  rw [OS_SwitchContext_asm_split, run_append, callHX_mk, run_suspend, run_dispatch]

theorem RTI_IRQ_ticks (ra : Nat) (s : Machine) :
    (RTI_IRQ ra s).OsContext.Ticks = toLWord (s.OsContext.Ticks + 1) := by
  unfold RTI_IRQ
  exact OS_SwitchContext_ticks _ _ _

theorem RTI_IRQ_ms (ra : Nat) (s : Machine) :
    (RTI_IRQ ra s).OsContext.MsElapsed = s.OsContext.MsElapsed := by
  unfold RTI_IRQ
  exact OS_SwitchContext_ms _ _ _

/-- C14, amended: in every state `Running(T)` of a closed ring, one Tick Source firing
(`RTI_IRQ`) increases `Ticks` by one modulo `2^32` (by exactly one unless the counter holds
`2^32 - 1`), sets `CurrentThread` to `T.NextThread` and leaves `MsElapsed` and every
`NextThread`/`PrevThread` link unchanged; one ElapsedClock firing (`MTI_IRQ`) increases
`MsElapsed` by one modulo `2^32` (by exactly one unless it holds `2^32 - 1`) and leaves
`Ticks`, `CurrentThread` and every descriptor, so every ring link and every saved
`StackPointer`, unchanged. -/
theorem C14_handler_frame_effects (s : Machine) (ts : List Nat) (hring : Ring s ts)
    (hw : ∀ t ∈ ts, t < 65536) (i : Nat) (hi : i < ts.length)
    (hcur : s.CurrentThread = nth ts i) (ra : Nat) :
    (RTI_IRQ ra s).OsContext.Ticks = toLWord (s.OsContext.Ticks + 1) ∧
    (s.OsContext.Ticks + 1 < 4294967296 →
      (RTI_IRQ ra s).OsContext.Ticks = s.OsContext.Ticks + 1) ∧
    (RTI_IRQ ra s).CurrentThread = (s.threads s.CurrentThread).NextThread ∧
    (RTI_IRQ ra s).OsContext.MsElapsed = s.OsContext.MsElapsed ∧
    (∀ q, ((RTI_IRQ ra s).threads q).NextThread = (s.threads q).NextThread ∧
      ((RTI_IRQ ra s).threads q).PrevThread = (s.threads q).PrevThread) ∧
    (MTI_IRQ s).OsContext.MsElapsed = toLWord (s.OsContext.MsElapsed + 1) ∧
    (s.OsContext.MsElapsed + 1 < 4294967296 →
      (MTI_IRQ s).OsContext.MsElapsed = s.OsContext.MsElapsed + 1) ∧
    (MTI_IRQ s).OsContext.Ticks = s.OsContext.Ticks ∧
    (MTI_IRQ s).CurrentThread = s.CurrentThread ∧
    (MTI_IRQ s).threads = s.threads := by
  refine ⟨RTI_IRQ_ticks ra s, ?_, ?_, RTI_IRQ_ms ra s,
    fun q => ⟨RTI_IRQ_next ra q s, RTI_IRQ_prev ra q s⟩, rfl, ?_, rfl, rfl, rfl⟩
  · intro h
    rw [RTI_IRQ_ticks]
    exact Nat.mod_eq_of_lt h
  · rw [ring_tick_current s ts hw hring i hi hcur ra, hcur, (hring i hi).1]
  · intro h
    rw [MTI_IRQ_ms]
    exact Nat.mod_eq_of_lt h

theorem wrapDemo_ring : Ring wrapDemo demoThreads := by
  intro i hi
  have h3 : i < 3 := hi
  interval_cases i <;> exact ⟨rfl, rfl⟩

/-- C14 amended, on the concrete ring with `A` running: a tick makes `B` current. -/
theorem C14_handler_frame_effects_witness :
    Ring wrapDemo demoThreads ∧
    (RTI_IRQ 0xF100 wrapDemo).CurrentThread = (wrapDemo.threads wrapDemo.CurrentThread).NextThread ∧
    (MTI_IRQ wrapDemo).OsContext.MsElapsed = wrapDemo.OsContext.MsElapsed + 1 :=
  ⟨wrapDemo_ring,
   (C14_handler_frame_effects wrapDemo demoThreads wrapDemo_ring (by decide) 0 (by decide) rfl
      0xF100).2.2.1,
   (C14_handler_frame_effects wrapDemo demoThreads wrapDemo_ring (by decide) 0 (by decide) rfl
      0xF100).2.2.2.2.2.2.1 (by decide)⟩

/-- C14 with "exactly one" fails at the wrap of the 32-bit tick counter: on the closed ring
with `A` running and `Ticks = 2^32 - 1`, one Tick Source firing leaves `Ticks = 0`. -/
theorem C14_counterexample :
    Ring wrapDemo demoThreads ∧ wrapDemo.CurrentThread = 0x60 ∧
    wrapDemo.OsContext.Ticks = 4294967295 ∧
    (RTI_IRQ 0xF100 wrapDemo).OsContext.Ticks = 0 ∧
    ¬ ((RTI_IRQ 0xF100 wrapDemo).OsContext.Ticks = wrapDemo.OsContext.Ticks + 1) := by
  have h : (RTI_IRQ 0xF100 wrapDemo).OsContext.Ticks = 0 :=
    (RTI_IRQ_ticks 0xF100 wrapDemo).trans (by show toLWord (4294967295 + 1) = 0; decide)
  refine ⟨wrapDemo_ring, rfl, rfl, h, ?_⟩
  rw [h]
  show ¬ (0 = 4294967295 + 1)
  decide

/-! ## The delay exits at the first sample that has seen enough pulses -/

theorem pulsesBefore_one (g : Nat) (gaps : List Nat) : pulsesBefore (g :: gaps) 1 = g := by
  simp [pulsesBefore]

theorem lword_difference (s : Machine) (h : s.OsContext.MsElapsed < 4294967296) (p : Nat) :
    toLWord ((pulses p s).OsContext.MsElapsed + 4294967296 - s.OsContext.MsElapsed) =
      p % 4294967296 := by
  rw [pulses_ms p s h]
  unfold toLWord
  omega

/-- The busy-wait loop, entered after `p0` pulses: when sample `j` is the first at which the
pulses since the call began reach `DelayMs`, and they are fewer than `2^32`, the loop exits
exactly there. -/
theorem OS_DelayMs_loop_first (d : Nat) (s : Machine) (h : s.OsContext.MsElapsed < 4294967296)
    (gaps : List Nat) (k0 p0 j : Nat) (hj1 : 1 ≤ j) (hj : j ≤ gaps.length)
    (hbefore : ∀ i, 1 ≤ i → i < j → p0 + pulsesBefore gaps i < d)
    (hd : d ≤ p0 + pulsesBefore gaps j) (hp : p0 + pulsesBefore gaps j < 4294967296) :
    OS_DelayMs_loop d s.OsContext.MsElapsed gaps k0 (pulses p0 s) =
      some (k0 + j, pulses (p0 + pulsesBefore gaps j) s) := by
  induction gaps generalizing k0 p0 j with
  | nil => simp only [List.length_nil] at hj; omega
  | cons g gaps ih =>
    unfold OS_DelayMs_loop
    simp only [← pulses_add]
    rw [lword_difference s h (p0 + g)]
    obtain ⟨j, rfl⟩ : ∃ j0, j = j0 + 1 := ⟨j - 1, by omega⟩
    rw [pulsesBefore_succ] at hd hp ⊢
    by_cases hj0 : j = 0
    · subst hj0
      have hz : pulsesBefore gaps 0 = 0 := by simp [pulsesBefore]
      rw [hz, Nat.add_zero] at hd hp
      rw [hz, Nat.mod_eq_of_lt hp, if_neg (by omega)]
      rfl
    · have h1 := hbefore 1 (le_refl 1) (by omega)
      rw [pulsesBefore_one] at h1
      rw [Nat.mod_eq_of_lt (by omega), if_pos h1]
      have := ih (k0 + 1) (p0 + g) j (by omega)
        (by simp only [List.length_cons] at hj; omega)
        (by
          intro i hi1 hi2
          have := hbefore (i + 1) (by omega) (by omega)
          rw [pulsesBefore_succ] at this
          omega)
        (by omega) (by omega)
      rw [this]
      have e1 : k0 + 1 + j = k0 + (j + 1) := by omega
      have e2 : p0 + g + pulsesBefore gaps j = p0 + (g + pulsesBefore gaps j) := by omega
      rw [e1, e2]

/-- C18: for every 32-bit `StartMs` and every duration `d`, `OS_DelayMs(d)` exits at the
first sample `k` of the counter before which `p ≥ d` pulses have occurred since entry
(`p < 2^32`), whether or not `StartMs + p` overflows 32 bits: for every `p < 2^32` the
unsigned difference `(MsElapsed - StartMs) mod 2^32` after `p` pulses is `p` itself, so a
wrap of the counter causes neither an early return nor a missed exit. `OS_DelayMs(0)` exits
at its first sample. -/
theorem C18_delay_exits_at_first_sample (d : Nat) (gaps : List Nat) (s : Machine)
    (h : s.OsContext.MsElapsed < 4294967296) (k : Nat) (hk1 : 1 ≤ k) (hk : k ≤ gaps.length)
    (hbefore : ∀ i, 1 ≤ i → i < k → pulsesBefore gaps i < d)
    (hd : d ≤ pulsesBefore gaps k) (hp : pulsesBefore gaps k < 4294967296) :
    OS_DelayMs d gaps s = some (k, pulses (pulsesBefore gaps k) s) ∧
    (∀ p, p < 4294967296 →
      toLWord ((pulses p s).OsContext.MsElapsed + 4294967296 - s.OsContext.MsElapsed) = p) ∧
    (∀ g rest, OS_DelayMs 0 (g :: rest) s = some (1, pulses g s)) := by
  refine ⟨?_, ?_, ?_⟩
  · have := OS_DelayMs_loop_first d s h gaps 0 0 k hk1 hk
      (by intro i h1 h2; rw [Nat.zero_add]; exact hbefore i h1 h2)
      (by rw [Nat.zero_add]; exact hd) (by rw [Nat.zero_add]; exact hp)
    rw [Nat.zero_add, Nat.zero_add] at this
    exact this
  · intro p hp1
    rw [lword_difference s h p, Nat.mod_eq_of_lt hp1]
  · intro g rest
    unfold OS_DelayMs OS_DelayMs_loop
    simp only [Nat.not_lt_zero, if_false, Nat.zero_add]

/-- C18 on a run that crosses the wrap: the counter starts at `2^32 - 2`, a 5 ms delay
against the gaps `0,1,1,2,0,3,1` returns at the sixth sample, after 7 pulses, with the
counter at 5. -/
theorem C18_delay_exits_at_first_sample_witness :
    OS_DelayMs 5 [0, 1, 1, 2, 0, 3, 1] wrapDemo = some (6, pulses 7 wrapDemo) ∧
    (pulses 7 wrapDemo).OsContext.MsElapsed = 5 :=
  ⟨(C18_delay_exits_at_first_sample 5 [0, 1, 1, 2, 0, 3, 1] wrapDemo
      (by show 4294967294 < 4294967296; decide) 6 (by decide) (by decide) (by decide)
      (by decide) (by decide)).1,
   rfl⟩

/-! ## Starting with no registered thread -/

theorem OS_InitScheluder_null (fuel : Nat) (s : Machine) (h : s.CurrentThread = NULL) :
    OS_InitScheluder fuel s = some s := by
  unfold OS_InitScheluder
  rw [if_pos h]

theorem OS_PullFirstContext_sp (arg ra : Nat) (s : Machine) :
    (OS_PullFirstContext arg ra s).cpu.SP =
      toWord ((s.threads (toWord arg)).StackPointer + 5) := by
  obtain ⟨⟨ticks, ms, ⟨cur⟩⟩, th, mem, ⟨a, x, h, c, sp, pc⟩, hw⟩ := s
  unfold OS_PullFirstContext
  rw [callHX_mk, run_pullFirst]
  simp only [word_of_bytes]

/-- C16: with zero registered threads (`CurrentThread` is `NULL`), `OS_InitScheluder`
returns the machine unchanged, so no ring is formed and `CurrentThread` stays `NULL`;
`OS_Init` then hands `NULL` to `OS_PullFirstContext`. The first-dispatch step loads the
stack pointer from whatever lies at the address `NULL`, not from a registered thread, and
ends with `CurrentThread` still `NULL`: no thread has entered `Running`. -/
theorem C16_empty_ring_start (s0 : Machine) (h0 : s0.CurrentThread = NULL)
    (fuel ra : Nat) (hf : 9 ≤ fuel) :
    addThreads [] s0 = s0 ∧
    (∀ f, OS_InitScheluder f s0 = some s0) ∧
    ∃ s1, OS_InitElapsedTime fuel s0 = some s1 ∧
      s1.CurrentThread = NULL ∧ s1.threads = s0.threads ∧
      OS_InitScheluder fuel s1 = some s1 ∧
      OS_Init fuel ra (addThreads [] s0) =
        some (OS_PullFirstContext NULL ra (OS_InitSysTick s1)) ∧
      (OS_PullFirstContext NULL ra (OS_InitSysTick s1)).CurrentThread = NULL ∧
      (OS_PullFirstContext NULL ra (OS_InitSysTick s1)).cpu.SP =
        toWord ((s0.threads NULL).StackPointer + 5) := by
  obtain ⟨s1, h1, hctx, hth, -⟩ := OS_InitElapsedTime_some fuel hf s0
  have hc1 : s1.CurrentThread = NULL := by
    unfold Machine.CurrentThread
    rw [hctx]
    exact h0
  have hi1 := OS_InitScheluder_null fuel s1 hc1
  refine ⟨rfl, fun f => OS_InitScheluder_null f s0 h0, s1, h1, hc1, hth, hi1, ?_, ?_, ?_⟩
  · show OS_Init fuel ra s0 = _
    unfold OS_Init
    simp only [h1, hi1]
    have : (OS_InitSysTick s1).CurrentThread = NULL := hc1
    rw [this]
  · rw [OS_PullFirstContext_current]
    exact hc1
  · rw [OS_PullFirstContext_sp]
    have : (OS_InitSysTick s1).threads = s0.threads := hth
    rw [this]
    rfl

/-- C16 at the concrete boot image with nothing registered. -/
theorem C16_empty_ring_start_witness :
    OS_InitScheluder 9 demoMachine = some demoMachine ∧
    ∃ s1, OS_InitElapsedTime 9 demoMachine = some s1 ∧
      (OS_PullFirstContext NULL 0xF000 (OS_InitSysTick s1)).CurrentThread = NULL := by
  obtain ⟨-, h2, s1, h3, -, -, -, -, h8, -⟩ :=
    C16_empty_ring_start demoMachine rfl 9 0xF000 (le_refl 9)
  exact ⟨h2 9, s1, h3, h8⟩

/-! ## The whole effect of a context switch on RAM and on the saved stack pointers -/

theorem hiByte_toWord_add (a b : Nat) : hiByte (toWord a + b) = hiByte (a + b) := by
  rw [hiByte_eq, hiByte_eq]; unfold toWord; omega

theorem loByte_toWord_add (a b : Nat) : loByte (toWord a + b) = loByte (a + b) := by
  unfold loByte toByte toWord; omega

theorem hiByte_add_wrap (a b : Nat) : hiByte (a + (b + 65536)) = hiByte (a + b) := by
  rw [hiByte_eq, hiByte_eq]; omega

theorem loByte_add_wrap (a b : Nat) : loByte (a + (b + 65536)) = loByte (a + b) := by
  unfold loByte toByte; omega

theorem OS_SwitchContext_mem (arg ra : Nat) (s : Machine) :
    (OS_SwitchContext arg ra s).mem =
      writeByte (writeByte (writeByte (writeByte (writeByte (writeByte (writeByte (writeByte
        s.mem
        s.cpu.SP (loByte ra))
        (toWord (s.cpu.SP + 65535)) (hiByte ra))
        (toWord (s.cpu.SP + 65534)) (toByte s.cpu.A))
        (toWord (s.cpu.SP + 65533)) (toByte s.cpu.CCR))
        (toWord (s.cpu.SP + 65532)) (loByte arg))
        (toWord (s.cpu.SP + 65531)) (hiByte arg))
        (toWord (s.cpu.SP + 65530)) (hiByte (s.cpu.SP + 65531)))
        (toWord (s.cpu.SP + 65529)) (loByte (s.cpu.SP + 65531)) := by
  obtain ⟨⟨ticks, ms, ⟨cur⟩⟩, th, mem, ⟨a, x, h, c, sp, pc⟩, hw⟩ := s
  unfold OS_SwitchContext
  rw [OS_SwitchContext_asm_split, run_append, callHX_mk, run_suspend, run_dispatch]
  simp only [toByte_hiByte, toByte_loByte, toWord_toWord_add, Nat.add_assoc, Nat.reduceAdd,
    toWord_add_wrap, hiByte_toWord, loByte_toWord, hiByte_toWord_add, loByte_toWord_add,
    hiByte_add_wrap, loByte_add_wrap]


theorem OS_SwitchContext_stackPointer (arg ra q : Nat) (s : Machine) :
    ((OS_SwitchContext arg ra s).threads q).StackPointer =
      if q = toWord arg then toWord (s.cpu.SP + 65531) else (s.threads q).StackPointer := by
  obtain ⟨⟨ticks, ms, ⟨cur⟩⟩, th, mem, ⟨a, x, h, c, sp, pc⟩, hw⟩ := s
  unfold OS_SwitchContext
  rw [OS_SwitchContext_asm_split, run_append, callHX_mk, run_suspend, run_dispatch]
  simp only [toByte_hiByte, toByte_loByte, word_of_bytes, toWord_toWord_add, Nat.add_assoc,
    Nat.reduceAdd, toWord_add_wrap]
  by_cases hq : q = toWord arg
  · rw [if_pos hq, hq, setThread_same]
    rfl
  · rw [if_neg hq, setThread_other _ _ _ _ hq]

theorem OS_SwitchContext_cpu_sp (arg ra : Nat) (s : Machine) :
    (OS_SwitchContext arg ra s).cpu.SP =
      toWord (((OS_SwitchContext arg ra s).threads
        (OS_SwitchContext arg ra s).CurrentThread).StackPointer + 5) := by
  obtain ⟨⟨ticks, ms, ⟨cur⟩⟩, th, mem, ⟨a, x, h, c, sp, pc⟩, hw⟩ := s
  unfold OS_SwitchContext
  rw [OS_SwitchContext_asm_split, run_append, callHX_mk, run_suspend, run_dispatch]
  rfl

theorem RTI_IRQ_mem (ra : Nat) (s : Machine) :
    (RTI_IRQ ra s).mem =
      writeByte (writeByte (writeByte (writeByte (writeByte (writeByte (writeByte (writeByte
        s.mem
        s.cpu.SP (loByte ra))
        (toWord (s.cpu.SP + 65535)) (hiByte ra))
        (toWord (s.cpu.SP + 65534)) (toByte s.cpu.A))
        (toWord (s.cpu.SP + 65533)) (toByte s.cpu.CCR))
        (toWord (s.cpu.SP + 65532)) (loByte s.CurrentThread))
        (toWord (s.cpu.SP + 65531)) (hiByte s.CurrentThread))
        (toWord (s.cpu.SP + 65530)) (hiByte (s.cpu.SP + 65531)))
        (toWord (s.cpu.SP + 65529)) (loByte (s.cpu.SP + 65531)) := by
  unfold RTI_IRQ
  exact OS_SwitchContext_mem _ _ _

theorem RTI_IRQ_stackPointer (ra q : Nat) (s : Machine) :
    ((RTI_IRQ ra s).threads q).StackPointer =
      if q = toWord s.CurrentThread then toWord (s.cpu.SP + 65531)
      else (s.threads q).StackPointer := by
  unfold RTI_IRQ
  exact OS_SwitchContext_stackPointer _ _ _ _

theorem RTI_IRQ_cpu_sp (ra : Nat) (s : Machine) :
    (RTI_IRQ ra s).cpu.SP =
      toWord (((RTI_IRQ ra s).threads (RTI_IRQ ra s).CurrentThread).StackPointer + 5) := by
  unfold RTI_IRQ
  exact OS_SwitchContext_cpu_sp _ _ _

/-! ## The scheduling invariant -/

theorem toWord_wrap (y c k x : Nat) (hck : c + k = 65536) (hy : y = x + k) (hx : y < 65536) :
    toWord (y + c) = x := by
  unfold toWord
  omega

theorem FrameAt_of_agree (m m1 : Machine) (S h x c a pc : Nat) (hS : S + 6 ≤ 65536)
    (hagree : ∀ b, S ≤ b → b < S + 6 → m1.mem b = m.mem b)
    (hf : FrameAt m S h x c a pc) : FrameAt m1 S h x c a pc := by
  have w0 : toWord S = S := toWord_of_lt _ (by omega)
  have w1 : toWord (S + 1) = S + 1 := toWord_of_lt _ (by omega)
  have w2 : toWord (S + 2) = S + 2 := toWord_of_lt _ (by omega)
  have w3 : toWord (S + 3) = S + 3 := toWord_of_lt _ (by omega)
  have w4 : toWord (S + 4) = S + 4 := toWord_of_lt _ (by omega)
  have w5 : toWord (S + 5) = S + 5 := toWord_of_lt _ (by omega)
  unfold FrameAt at hf ⊢
  rw [w0, w1, w2, w3, w4, w5] at hf ⊢
  rw [hagree S (by omega) (by omega), hagree (S + 1) (by omega) (by omega),
    hagree (S + 2) (by omega) (by omega), hagree (S + 3) (by omega) (by omega),
    hagree (S + 4) (by omega) (by omega), hagree (S + 5) (by omega) (by omega)]
  exact hf

/-- The six bytes that `OS_AddThread` pushes below the top `T = F + 6` of a stack make a
frame at `F`; no byte outside `F .. F + 5` changes. -/
theorem frame_of_pushes (m M : Machine) (T F entry : Nat) (hF : T = F + 6)
    (hlt : T < 65536)
    (hM : M.mem = writeByte (writeByte (writeByte (writeByte (writeByte (writeByte m.mem
      (toWord (T + 65535)) (loByte entry)) (toWord (T + 65534)) (hiByte entry))
      (toWord (T + 65533)) 0x00) (toWord (T + 65532)) 0x6A) (toWord (T + 65531)) 0x00)
      (toWord (T + 65530)) 0x00) :
    toWord (T + 65530) = F ∧ FrameAt M F 0x00 0x00 0x6A 0x00 entry ∧
    ∀ b, (b < F ∨ F + 6 ≤ b) → M.mem b = m.mem b := by
  have w0 : toWord F = F := toWord_of_lt _ (by omega)
  have w1 : toWord (F + 1) = F + 1 := toWord_of_lt _ (by omega)
  have w2 : toWord (F + 2) = F + 2 := toWord_of_lt _ (by omega)
  have w3 : toWord (F + 3) = F + 3 := toWord_of_lt _ (by omega)
  have w4 : toWord (F + 4) = F + 4 := toWord_of_lt _ (by omega)
  have w5 : toWord (F + 5) = F + 5 := toWord_of_lt _ (by omega)
  have a6 : toWord (T + 65530) = F := toWord_wrap _ 65530 6 _ rfl hF hlt
  refine ⟨a6, ?_, ?_⟩
  · unfold FrameAt
    rw [w0, w1, w2, w3, w4, w5, hM, toWord_wrap _ 65535 1 (F + 5) rfl hF hlt,
      toWord_wrap _ 65534 2 (F + 4) rfl hF hlt, toWord_wrap _ 65533 3 (F + 3) rfl hF hlt,
      toWord_wrap _ 65532 4 (F + 2) rfl hF hlt, toWord_wrap _ 65531 5 (F + 1) rfl hF hlt, a6]
    clear w0 w1 w2 w3 w4 w5 a6 hM
    simp (disch := omega) only [writeByte_same, writeByte_other, toByte_hiByte, toByte_loByte]
    exact ⟨rfl, rfl, rfl, rfl, trivial, trivial⟩
  · intro b hb
    rw [hM, toWord_wrap _ 65535 1 (F + 5) rfl hF hlt,
      toWord_wrap _ 65534 2 (F + 4) rfl hF hlt, toWord_wrap _ 65533 3 (F + 3) rfl hF hlt,
      toWord_wrap _ 65532 4 (F + 2) rfl hF hlt, toWord_wrap _ 65531 5 (F + 1) rfl hF hlt, a6]
    clear w0 w1 w2 w3 w4 w5 a6 hM
    simp (disch := omega) only [writeByte_other]

/-- The eight bytes that a call of `OS_SwitchContext` and its suspend half push from the
stack pointer `S = F + 7` downward hold a frame at `F + 2`; no byte outside `F .. F + 7`
changes. -/
theorem frame_of_suspend (m M : Machine) (S F arg c a ra v6 v7 : Nat) (hF : S = F + 7)
    (hlt : S < 65536)
    (hM : M.mem = writeByte (writeByte (writeByte (writeByte (writeByte (writeByte (writeByte
      (writeByte m.mem S (loByte ra)) (toWord (S + 65535)) (hiByte ra))
      (toWord (S + 65534)) (toByte a)) (toWord (S + 65533)) (toByte c))
      (toWord (S + 65532)) (loByte arg)) (toWord (S + 65531)) (hiByte arg))
      (toWord (S + 65530)) v6) (toWord (S + 65529)) v7) :
    toWord (S + 65531) = F + 2 ∧
    FrameAt M (F + 2) (hiByte arg) (loByte arg) (toByte c) (toByte a) ra ∧
    ∀ b, (b < F ∨ F + 7 < b) → M.mem b = m.mem b := by
  have w0 : toWord (F + 2) = F + 2 := toWord_of_lt _ (by omega)
  have w1 : toWord (F + 2 + 1) = F + 3 := toWord_of_lt _ (by omega)
  have w2 : toWord (F + 2 + 2) = F + 4 := toWord_of_lt _ (by omega)
  have w3 : toWord (F + 2 + 3) = F + 5 := toWord_of_lt _ (by omega)
  have w4 : toWord (F + 2 + 4) = F + 6 := toWord_of_lt _ (by omega)
  have w5 : toWord (F + 2 + 5) = F + 7 := toWord_of_lt _ (by omega)
  have a5 : toWord (S + 65531) = F + 2 := toWord_wrap _ 65531 5 _ rfl hF hlt
  refine ⟨a5, ?_, ?_⟩
  · unfold FrameAt
    rw [w0, w1, w2, w3, w4, w5, hM, toWord_wrap _ 65535 1 (F + 6) rfl hF hlt,
      toWord_wrap _ 65534 2 (F + 5) rfl hF hlt, toWord_wrap _ 65533 3 (F + 4) rfl hF hlt,
      toWord_wrap _ 65532 4 (F + 3) rfl hF hlt, a5,
      toWord_wrap _ 65530 6 (F + 1) rfl hF hlt, toWord_wrap _ 65529 7 F rfl hF hlt, hF]
    clear w0 w1 w2 w3 w4 w5 a5 hM
    simp (disch := omega) only [writeByte_same, writeByte_other, toByte_hiByte, toByte_loByte,
      toByte_toByte]
    exact ⟨trivial, trivial, trivial, trivial, trivial, trivial⟩
  · intro b hb
    rw [hM, toWord_wrap _ 65535 1 (F + 6) rfl hF hlt,
      toWord_wrap _ 65534 2 (F + 5) rfl hF hlt, toWord_wrap _ 65533 3 (F + 4) rfl hF hlt,
      toWord_wrap _ 65532 4 (F + 3) rfl hF hlt, a5,
      toWord_wrap _ 65530 6 (F + 1) rfl hF hlt, toWord_wrap _ 65529 7 F rfl hF hlt, hF]
    clear w0 w1 w2 w3 w4 w5 a5 hM
    simp (disch := omega) only [writeByte_other]

/-- Stack arithmetic of a tick for the suspended thread: with the stack pointer `S = F + 7`
inside the region, the frame at `F + 2` lies inside it too. -/
theorem tick_self_bounds (base top S F : Nat) (h1 : base + 7 ≤ S) (h2 : S < top)
    (hF : S = F + 7) : base + 2 ≤ F + 2 ∧ F + 2 + 6 ≤ top := by
  omega

/-- Stack arithmetic of a dispatch: popping the frame at `P` leaves the stack pointer at
`P + 5`, inside the region. -/
theorem dispatch_bounds (base top P : Nat) (h1 : base + 2 ≤ P) (h2 : P + 6 ≤ top)
    (h3 : top < 65536) : P + 5 < 65536 ∧ base + 7 ≤ P + 5 ∧ P + 5 < top := by
  omega

/-- Stack arithmetic of a tick for another thread: its frame is out of reach of the eight
bytes written on the running thread's stack. -/
theorem tick_other_bounds (baseT topT P baseC topC S F b : Nat) (h1 : baseT + 2 ≤ P)
    (h2 : P + 6 ≤ topT) (h3 : baseC + 7 ≤ S) (h4 : S < topC) (hF : S = F + 7)
    (hd : topT ≤ baseC ∨ topC ≤ baseT) (hb1 : P ≤ b) (hb2 : b < P + 6) :
    b < F ∨ F + 7 < b := by
  omega

/-- A Tick Source firing keeps the scheduling invariant, with the context of the suspended
thread replaced by the one just saved. -/
theorem settled_tick (s0 : Machine) (ts : List Nat) (hr : Registrable s0 ts)
    (hl : StackLayout s0 ts) (k : Nat → SavedContext) (s : Machine)
    (hs : Settled s0 ts k s) (ra : Nat) :
    Settled s0 ts (fun t => if t = s.CurrentThread then suspendedContext s ra else k t)
      (RTI_IRQ ra s) := by
  obtain ⟨⟨i, hi, hcur⟩, hring, ⟨hsp1, hsp2⟩, hframes⟩ := hs
  have hTmem : s.CurrentThread ∈ ts := by rw [hcur]; exact nth_mem ts i hi
  have hTw : toWord s.CurrentThread = s.CurrentThread := toWord_of_lt _ (hr.word _ hTmem)
  have htop := hl.top_word _ hTmem
  have hpos : 0 < ts.length := Nat.lt_of_le_of_lt (Nat.zero_le _) hi
  have hnmem : nth ts ((i + 1) % ts.length) ∈ ts := nth_mem ts _ (Nat.mod_lt _ hpos)
  -- the eight bytes written lie at `F .. F + 7`, where `F + 7` is the stack pointer
  have hF : s.cpu.SP = s.cpu.SP - 7 + 7 :=
    (Nat.sub_add_cancel (Nat.le_trans (Nat.le_add_left 7 _) hsp1)).symm
  have hlt : s.cpu.SP < 65536 := Nat.lt_trans hsp2 htop
  obtain ⟨a5, hfr, rother⟩ := frame_of_suspend s (RTI_IRQ ra s) s.cpu.SP (s.cpu.SP - 7)
    s.CurrentThread s.cpu.CCR s.cpu.A ra _ _ hF hlt (RTI_IRQ_mem ra s)
  have hspf : ∀ q, ((RTI_IRQ ra s).threads q).StackPointer =
      if q = s.CurrentThread then s.cpu.SP - 7 + 2 else (s.threads q).StackPointer := by
    intro q
    rw [RTI_IRQ_stackPointer, hTw, a5]
  obtain ⟨n1, n2⟩ := tick_self_bounds _ _ _ _ hsp1 hsp2 hF
  refine ⟨⟨_, Nat.mod_lt _ hpos, ring_tick_current s ts hr.word hring i hi hcur ra⟩,
    ring_step s ts (Event.tick ra) hring, ?_, ?_⟩
  · -- the dispatched thread runs on its own stack
    rw [RTI_IRQ_cpu_sp, hspf, ring_tick_current s ts hr.word hring i hi hcur ra]
    by_cases hn : nth ts ((i + 1) % ts.length) = s.CurrentThread
    · rw [if_pos hn, hn]
      obtain ⟨d1, d2, d3⟩ := dispatch_bounds _ _ _ n1 n2 htop
      rw [toWord_of_lt _ d1]
      exact ⟨d2, d3⟩
    · rw [if_neg hn]
      obtain ⟨b1, b2, -⟩ := hframes _ hnmem hn
      obtain ⟨d1, d2, d3⟩ := dispatch_bounds _ _ _ b1 b2 (hl.top_word _ hnmem)
      rw [toWord_of_lt _ d1]
      exact ⟨d2, d3⟩
  · intro t ht hne
    rw [hspf]
    by_cases htT : t = s.CurrentThread
    · -- the thread just suspended
      simp only [if_pos htT]
      rw [htT]
      exact ⟨n1, n2, hfr⟩
    · -- a thread suspended earlier: its frame is out of reach of the writes
      simp only [if_neg htT]
      have htT2 : t ≠ s.CurrentThread := htT
      obtain ⟨b1, b2, b3⟩ := hframes t ht htT2
      refine ⟨b1, b2, ?_⟩
      apply FrameAt_of_agree s (RTI_IRQ ra s) _ _ _ _ _ _
        (Nat.le_trans b2 (Nat.le_of_lt (hl.top_word _ ht))) ?_ b3
      intro b hb1 hb2
      exact rother b (tick_other_bounds _ _ _ _ _ _ _ b b1 b2 hsp1 hsp2 hF
        (hl.disjoint t ht _ hTmem htT2) hb1 hb2)

/-- An ElapsedClock firing keeps the scheduling invariant. -/
theorem settled_pulse (s0 : Machine) (ts : List Nat) (k : Nat → SavedContext) (s : Machine)
    (hs : Settled s0 ts k s) : Settled s0 ts k (MTI_IRQ s) := hs

/-- A stretch of execution of the running thread that stays on its own stack keeps the
scheduling invariant. -/
theorem settled_compute (s0 : Machine) (ts : List Nat) (hl : StackLayout s0 ts)
    (k : Nat → SavedContext) (s : Machine) (hs : Settled s0 ts k s) (cpu : Cpu)
    (mem : Nat → Nat) (ha : Admissible s0 s (Event.compute cpu mem)) :
    Settled s0 ts k (step s (Event.compute cpu mem)) := by
  obtain ⟨⟨i, hi, hcur⟩, hring, -, hframes⟩ := hs
  obtain ⟨a1, a2, a3⟩ := ha
  have hTmem : s.CurrentThread ∈ ts := by rw [hcur]; exact nth_mem ts i hi
  refine ⟨⟨i, hi, hcur⟩, ring_step s ts _ hring, ⟨a1, a2⟩, ?_⟩
  intro t ht hne
  have hne2 : t ≠ s.CurrentThread := hne
  obtain ⟨b1, b2, b3⟩ := hframes t ht hne2
  refine ⟨b1, b2, ?_⟩
  have htt := hl.top_word _ ht
  have hdis := hl.disjoint t ht _ hTmem hne2
  apply FrameAt_of_agree s _ _ _ _ _ _ _ (by omega) ?_ b3
  intro b hb1 hb2
  apply a3
  have hb3 : b < stackTop s0 t := by
    have : (s.threads t).StackPointer = ((step s (Event.compute cpu mem)).threads t).StackPointer :=
      rfl
    omega
  have hb4 : stackBase s0 t ≤ b := by
    have : (s.threads t).StackPointer = ((step s (Event.compute cpu mem)).threads t).StackPointer :=
      rfl
    omega
  rcases hdis with hd | hd
  · left; omega
  · right; omega

/-- The scheduling invariant holds along every admissible run, with the saved contexts
tracked by `savedAfter`. -/
theorem settled_run (s0 : Machine) (ts : List Nat) (hr : Registrable s0 ts)
    (hl : StackLayout s0 ts) (es : List Event) :
    ∀ (k : Nat → SavedContext) (s : Machine), Settled s0 ts k s → AdmissibleRun s0 s es →
      Settled s0 ts (savedAfter k s es) (runEvents s es) := by
  induction es with
  | nil => intro k s hs _; exact hs
  | cons e es ih =>
    intro k s hs ha
    obtain ⟨ha1, ha2⟩ := ha
    cases e with
    | tick ra => exact ih _ _ (settled_tick s0 ts hr hl k s hs ra) ha2
    | pulse => exact ih _ _ (settled_pulse s0 ts k s hs) ha2
    | compute cpu mem => exact ih _ _ (settled_compute s0 ts hl k s hs cpu mem ha1) ha2

/-- The context recorded for a thread is the initial one, or the one saved at a Tick Source
firing of the run that found the thread running. -/
theorem savedAfter_cases (es : List Event) :
    ∀ (k : Nat → SavedContext) (s : Machine) (t : Nat),
      savedAfter k s es t = k t ∨
      ∃ es1 ra es2, es = es1 ++ Event.tick ra :: es2 ∧ (runEvents s es1).CurrentThread = t ∧
        savedAfter k s es t = suspendedContext (runEvents s es1) ra := by
  induction es with
  | nil => intro k s t; exact Or.inl rfl
  | cons e es ih =>
    intro k s t
    cases e with
    | tick ra =>
      rcases ih (fun t => if t = s.CurrentThread then suspendedContext s ra else k t)
        (RTI_IRQ ra s) t with h | ⟨es1, ra1, es2, h1, h2, h3⟩
      · by_cases htc : t = s.CurrentThread
        · right
          refine ⟨[], ra, es, rfl, htc.symm, ?_⟩
          show savedAfter _ (RTI_IRQ ra s) es t = _
          rw [h]
          simp only [if_pos htc]
          rfl
        · left
          show savedAfter _ (RTI_IRQ ra s) es t = _
          rw [h]
          simp only [if_neg htc]
      · right
        exact ⟨Event.tick ra :: es1, ra1, es2, by rw [h1]; rfl, h2, h3⟩
    | pulse =>
      rcases ih k (MTI_IRQ s) t with h | ⟨es1, ra1, es2, h1, h2, h3⟩
      · exact Or.inl h
      · right
        exact ⟨Event.pulse :: es1, ra1, es2, by rw [h1]; rfl, h2, h3⟩
    | compute cpu mem =>
      rcases ih k (step s (Event.compute cpu mem)) t with h | ⟨es1, ra1, es2, h1, h2, h3⟩
      · exact Or.inl h
      · right
        exact ⟨Event.compute cpu mem :: es1, ra1, es2, by rw [h1]; rfl, h2, h3⟩

/-! ## The stacks at the first dispatch -/

theorem PUSH_TO_SP_sp_other (t v q : Nat) (s : Machine) (h : q ≠ t) :
    ((PUSH_TO_SP t v s).threads q).StackPointer = (s.threads q).StackPointer := by
  simp only [PUSH_TO_SP, setThread_other _ _ _ _ h]

theorem PUSH_TO_SP_entry (t v q : Nat) (s : Machine) :
    ((PUSH_TO_SP t v s).threads q).Thread = (s.threads q).Thread := by
  by_cases h : q = t
  · subst h
    simp only [PUSH_TO_SP, setThread_same]
  · simp only [PUSH_TO_SP, setThread_other _ _ _ _ h]

theorem linkThread_entry (t q : Nat) (s : Machine) :
    ((linkThread t s).threads q).Thread = (s.threads q).Thread := by
  unfold linkThread
  split
  · rfl
  · simp only [Machine.setCurrentThread, setThread]
    by_cases h1 : q = t <;> by_cases h2 : q = s.CurrentThread <;> simp_all

theorem linkThread_cpu (t : Nat) (s : Machine) : (linkThread t s).cpu = s.cpu := by
  unfold linkThread
  split <;> rfl

theorem OS_AddThread_cpu (t : Nat) (s : Machine) : (OS_AddThread t s).cpu = s.cpu := by
  unfold OS_AddThread
  rw [linkThread_cpu]
  rfl

theorem OS_AddThread_entry (t q : Nat) (s : Machine) :
    ((OS_AddThread t s).threads q).Thread = (s.threads q).Thread := by
  unfold OS_AddThread
  rw [linkThread_entry]
  unfold formatStack
  simp only [PUSH_TO_SP_entry]

theorem OS_AddThread_sp_other (t q : Nat) (s : Machine) (h : q ≠ t) :
    ((OS_AddThread t s).threads q).StackPointer = (s.threads q).StackPointer := by
  unfold OS_AddThread
  rw [linkThread_sp]
  unfold formatStack
  simp only [PUSH_TO_SP_sp_other _ _ _ _ h]

theorem stackLayout_mono (s0 : Machine) (ts l : List Nat) (h : ∀ t ∈ l, t ∈ ts)
    (hl : StackLayout s0 ts) : StackLayout s0 l where
  sp_top := fun t ht => hl.sp_top t (h t ht)
  room := fun t ht => hl.room t (h t ht)
  top_word := fun t ht => hl.top_word t (h t ht)
  entry_word := fun t ht => hl.entry_word t (h t ht)
  disjoint := fun t ht u hu hne => hl.disjoint t (h t ht) u (h u hu) hne
  boot := fun t ht => hl.boot t (h t ht)

/-- Stack arithmetic of a registration for an earlier thread: its frame is out of reach of
the six bytes written on the new thread's stack. -/
theorem push_other_bounds (baseU topU P baseT topT F b : Nat) (h1 : P + 6 = topU)
    (h2 : baseU + 8 ≤ topU) (h3 : baseT + 8 ≤ topT) (hF : topT = F + 6)
    (hd : topU ≤ baseT ∨ topT ≤ baseU) (hb1 : P ≤ b) (hb2 : b < P + 6) :
    b < F ∨ F + 6 ≤ b := by
  omega

/-- Registration leaves every registered thread with its stack pointer six bytes below the
top of its stack, at a synthetic frame for its entry point; the registers and the
descriptors of other threads keep their stack pointer and entry point. -/
theorem addThreads_stacks (s0 : Machine) (ts : List Nat) (hnd : ts.Nodup)
    (hl : StackLayout s0 ts) :
    (addThreads ts s0).cpu = s0.cpu ∧
    (∀ t ∈ ts, ((addThreads ts s0).threads t).StackPointer + 6 = stackTop s0 t ∧
      HoldsContext (addThreads ts s0) ((addThreads ts s0).threads t).StackPointer
        (syntheticContext (s0.threads t).Thread)) ∧
    (∀ q, q ∉ ts →
      ((addThreads ts s0).threads q).StackPointer = (s0.threads q).StackPointer) ∧
    (∀ q, ((addThreads ts s0).threads q).Thread = (s0.threads q).Thread) := by
  induction ts using List.reverseRecOn with
  | nil =>
    refine ⟨rfl, ?_, fun q _ => rfl, fun q => rfl⟩
    intro t ht
    simp at ht
  | append_singleton l t ih =>
    have hnd2 := List.nodup_append.mp hnd
    have htl : t ∉ l := fun hm => hnd2.2.2 hm (List.mem_singleton_self t)
    have htm : t ∈ l ++ [t] := List.mem_append_right _ (List.mem_singleton_self t)
    obtain ⟨hcpu, hfr, hsp, hen⟩ :=
      ih hnd2.1 (stackLayout_mono s0 _ l (fun x hx => List.mem_append_left _ hx) hl)
    rw [addThreads_append]
    obtain ⟨hst, hmem⟩ := OS_AddThread_stack t (addThreads l s0)
    have htop := hl.top_word t htm
    have hroom := hl.room t htm
    have hspt : ((addThreads l s0).threads t).StackPointer = stackTop s0 t := by
      rw [hsp t htl]; exact hl.sp_top t htm
    rw [hspt] at hst hmem
    rw [hen t] at hmem
    have hF : stackTop s0 t = stackTop s0 t - 6 + 6 :=
      (Nat.sub_add_cancel (Nat.le_trans (by decide) (Nat.le_trans (Nat.le_add_left 8 _)
        hroom))).symm
    obtain ⟨a6, hnew, rother⟩ := frame_of_pushes (addThreads l s0)
      (OS_AddThread t (addThreads l s0)) (stackTop s0 t) (stackTop s0 t - 6)
      (s0.threads t).Thread hF htop hmem
    rw [a6] at hst
    refine ⟨by rw [OS_AddThread_cpu]; exact hcpu, ?_, ?_, ?_⟩
    · intro u hu
      by_cases hut : u = t
      · -- the thread just registered
        rw [hut, hst]
        exact ⟨hF.symm, hnew⟩
      · -- a thread registered earlier
        have hul : u ∈ l := by
          rcases List.mem_append.mp hu with h | h
          · exact h
          · exact absurd (List.mem_singleton.mp h) hut
        obtain ⟨c1, c2⟩ := hfr u hul
        have hut2 : u ≠ t := hut
        rw [OS_AddThread_sp_other t u _ hut2]
        refine ⟨c1, ?_⟩
        apply FrameAt_of_agree (addThreads l s0) _ _ _ _ _ _ _
          (Nat.le_trans (Nat.le_of_eq c1) (Nat.le_of_lt (hl.top_word u hu))) ?_ c2
        intro b hb1 hb2
        exact rother b (push_other_bounds _ _ _ _ _ _ b c1 (hl.room u hu) hroom hF
          (hl.disjoint u hu t htm hut2) hb1 hb2)
    · intro q hq
      have hql : q ∉ l := fun h => hq (List.mem_append_left _ h)
      have hqt : q ≠ t := fun h => hq (List.mem_append_right _ (List.mem_singleton.mpr h))
      rw [OS_AddThread_sp_other t q _ hqt]
      exact hsp q hql
    · intro q
      rw [OS_AddThread_entry]
      exact hen q

theorem closeRing_sp (s : Machine) (L q : Nat) :
    ((closeRing s L).threads q).StackPointer = (s.threads q).StackPointer := by
  simp only [closeRing, setThread]
  by_cases h1 : q = s.CurrentThread <;> by_cases h2 : q = L <;> simp_all

theorem OS_PullFirstContext_mem (arg ra : Nat) (s : Machine) :
    (OS_PullFirstContext arg ra s).mem =
      writeByte (writeByte s.mem s.cpu.SP (loByte ra)) (toWord (s.cpu.SP + 65535))
        (hiByte ra) := by
  obtain ⟨⟨ticks, ms, ⟨cur⟩⟩, th, mem, ⟨a, x, h, c, sp, pc⟩, hw⟩ := s
  unfold OS_PullFirstContext
  rw [callHX_mk, run_pullFirst]

/-- The first dispatch establishes the scheduling invariant: on a closed ring whose threads
all hold a frame six bytes below the top of their stack, called on the boot stack, it leaves
the dispatched thread running on its own empty stack and the other frames untouched. -/
theorem pullFirst_settled (s0 : Machine) (ts : List Nat) (hl : StackLayout s0 ts)
    (hword : ∀ t ∈ ts, t < 65536) (k : Nat → SavedContext) (m : Machine) (i : Nat)
    (hi : i < ts.length) (hcur : m.CurrentThread = nth ts i) (hring : Ring m ts)
    (hcpu : m.cpu.SP = s0.cpu.SP)
    (hfr : ∀ t ∈ ts, (m.threads t).StackPointer + 6 = stackTop s0 t ∧
      HoldsContext m (m.threads t).StackPointer (k t)) (ra : Nat) :
    Settled s0 ts k (OS_PullFirstContext m.CurrentThread ra m) := by
  have hc := OS_PullFirstContext_current m.CurrentThread ra m
  have ht := OS_PullFirstContext_threads m.CurrentThread ra m
  have hm := OS_PullFirstContext_mem m.CurrentThread ra m
  have hsp := OS_PullFirstContext_sp m.CurrentThread ra m
  have hTmem : m.CurrentThread ∈ ts := by rw [hcur]; exact nth_mem ts i hi
  refine ⟨⟨i, hi, hc.trans hcur⟩, ?_, ?_, ?_⟩
  · intro j hj
    rw [ht]
    exact hring j hj
  · rw [hc, hsp, toWord_of_lt _ (hword _ hTmem)]
    obtain ⟨c1, -⟩ := hfr _ hTmem
    have h1 := hl.room _ hTmem
    have h2 := hl.top_word _ hTmem
    have h3 : toWord ((m.threads m.CurrentThread).StackPointer + 5) =
        (m.threads m.CurrentThread).StackPointer + 5 := toWord_of_lt _ (by omega)
    rw [h3]
    constructor <;> omega
  · intro t htm _
    rw [ht]
    obtain ⟨c1, c2⟩ := hfr t htm
    have h1 := hl.room _ htm
    have h2 := hl.top_word _ htm
    refine ⟨by omega, by omega, ?_⟩
    apply FrameAt_of_agree m _ _ _ _ _ _ _ (by omega) ?_ c2
    intro b hb1 hb2
    obtain ⟨n1, n2⟩ := hl.boot t htm b (by omega) (by omega)
    rw [hm, hcpu, writeByte_other _ _ _ _ n2, writeByte_other _ _ _ _ n1]

/-- The boot sequence on a freshly registered list of threads with well-placed stacks reaches
its first dispatch with the scheduling invariant established: every thread but the
dispatched one holds the synthetic frame of its entry point. -/
theorem OS_Init_settled (s0 : Machine) (ts : List Nat) (hr : Registrable s0 ts)
    (hl : StackLayout s0 ts) (hne : ts ≠ []) (fuel : Nat) (hf : ts.length ≤ fuel)
    (h9 : 9 ≤ fuel) (ra : Nat) :
    ∃ r, OS_Init fuel ra (addThreads ts s0) = some r ∧
      Settled s0 ts (fun t => syntheticContext (s0.threads t).Thread) r := by
  obtain ⟨hcur0, hchain, -⟩ := addThreads_invariant s0 ts hr
  obtain ⟨hcpu0, hfr0, -, -⟩ := addThreads_stacks s0 ts hr.nodup hl
  have hlen : 0 < ts.length := List.length_pos.mpr hne
  rw [getLastD_eq_nth] at hcur0
  obtain ⟨s1, h1, hctx, hth, hmem1, hcpu1, -⟩ :=
    OS_InitElapsedTime_some fuel h9 (addThreads ts s0)
  have hchain1 : OpenChain s1 ts := by
    intro i hi
    rw [hth]
    exact hchain i hi
  have hcur1 : s1.CurrentThread = nth ts (ts.length - 1) := by
    unfold Machine.CurrentThread
    rw [hctx]
    exact hcur0
  have h2 := OS_InitScheluder_closed_form s1 ts hr.nonnull hchain1 (ts.length - 1)
    (by omega) hcur1 fuel hf
  obtain ⟨s2, h2b, hc2, hn2, hp2⟩ := OS_InitScheluder_chain s1 ts hr.nonnull
    hchain1 (ts.length - 1) (by omega) hcur1 fuel hf
  have hs2 : s2 = closeRing (s1.setCurrentThread (nth ts 0)) (nth ts (ts.length - 1)) :=
    Option.some.inj (h2b.symm.trans h2)
  have hring : Ring s2 ts := ring_of_closed_chain s1 s2 ts hr.nodup hchain1 hn2 hp2
  have hsp2 : ∀ q, (s2.threads q).StackPointer =
      ((addThreads ts s0).threads q).StackPointer := by
    intro q
    rw [hs2, closeRing_sp]
    show (s1.threads q).StackPointer = _
    rw [hth]
  have hmem2 : s2.mem = (addThreads ts s0).mem := by
    rw [hs2]
    exact hmem1
  have hcpu2 : s2.cpu = s0.cpu := by
    rw [hs2]
    exact hcpu1.trans hcpu0
  unfold OS_Init
  simp only [h1, h2b]
  refine ⟨_, rfl, ?_⟩
  apply pullFirst_settled s0 ts hl hr.word _ (OS_InitSysTick s2) 0 hlen hc2
    (fun i hi => hring i hi) (by show s2.cpu.SP = _; rw [hcpu2])
  intro t ht
  obtain ⟨c1, c2⟩ := hfr0 t ht
  have h3 : ((OS_InitSysTick s2).threads t).StackPointer =
      ((addThreads ts s0).threads t).StackPointer := hsp2 t
  rw [h3]
  refine ⟨c1, ?_⟩
  apply FrameAt_of_agree (addThreads ts s0) _ _ _ _ _ _ _
    (by have := hl.top_word t ht; omega) ?_ c2
  intro b _ _
  show s2.mem b = _
  rw [hmem2]

/-- Tick Source and ElapsedClock firings alone always make an admissible run. -/
theorem admissibleRun_firings (s0 : Machine) (es : List Event)
    (h : ∀ e ∈ es, e = Event.pulse ∨ ∃ ra, e = Event.tick ra) :
    ∀ s, AdmissibleRun s0 s es := by
  induction es with
  | nil => intro s; exact trivial
  | cons e es ih =>
    intro s
    refine ⟨?_, ih (fun x hx => h x (List.mem_cons_of_mem _ hx)) _⟩
    rcases h e (List.mem_cons_self _ _) with h1 | ⟨ra, h1⟩
    · rw [h1]; exact trivial
    · rw [h1]; exact trivial

theorem demo_layout : StackLayout demoMachine demoThreads := by
  have hmem : ∀ t ∈ demoThreads, t = 0x60 ∨ t = 0x70 ∨ t = 0x80 := by
    intro t ht
    simpa [demoThreads] using ht
  have t1 : stackTop demoMachine 0x60 = 0x140 := rfl
  have t2 : stackTop demoMachine 0x70 = 0x180 := rfl
  have t3 : stackTop demoMachine 0x80 = 0x1C0 := rfl
  have b1 : stackBase demoMachine 0x60 = 0x100 := rfl
  have b2 : stackBase demoMachine 0x70 = 0x140 := rfl
  have b3 : stackBase demoMachine 0x80 = 0x180 := rfl
  have hsp : toWord (demoMachine.cpu.SP + 65535) = 0xFE := by decide
  have hsp0 : demoMachine.cpu.SP = 0xFF := rfl
  constructor
  · intro t ht
    rcases hmem t ht with h | h | h <;> subst h <;> rfl
  · intro t ht
    rcases hmem t ht with h | h | h <;> subst h <;> decide
  · intro t ht
    rcases hmem t ht with h | h | h <;> subst h <;> decide
  · intro t ht
    rcases hmem t ht with h | h | h <;> subst h <;> decide
  · intro t ht u hu hne
    rcases hmem t ht with h | h | h <;> rcases hmem u hu with g | g | g <;> subst h <;>
      subst g <;> first | exact absurd rfl hne | (simp only [t1, t2, t3, b1, b2, b3]; omega)
  · intro t ht a h1 h2
    rw [hsp, hsp0]
    rcases hmem t ht with h | h | h <;> subst h <;> simp only [t1, t2, t3, b1, b2, b3] at h1 h2 <;>
      omega

/-- C15: from a start with `N ≥ 1` distinct, freshly defined threads registered in order,
whose stacks are disjoint regions of at least 8 bytes clear of the boot stack, in every
state reached after the first dispatch by any interleaving of Tick Source and ElapsedClock
firings (and of stretches of thread execution that stay on the running thread's own stack),
`CurrentThread` is non-`NULL` and is one of the registered threads, the ring is closed, and
the `StackPointer` of every thread other than the running one references, inside that
thread's own stack, a complete saved frame `H, X, CCR, A`, return address: either the
synthetic frame that `OS_AddThread` wrote for the thread's entry point, or the frame that the
suspend half of `OS_SwitchContext` wrote at a Tick Source firing of the run that found the
thread running, holding the registers of that moment. -/
theorem C15_saved_frame_invariant (s0 : Machine) (ts : List Nat) (hr : Registrable s0 ts)
    (hl : StackLayout s0 ts) (hne : ts ≠ []) (fuel : Nat) (hf : ts.length ≤ fuel)
    (h9 : 9 ≤ fuel) (ra : Nat) :
    ∃ s, OS_Init fuel ra (addThreads ts s0) = some s ∧
      ∀ es : List Event, AdmissibleRun s0 s es →
        (runEvents s es).CurrentThread ≠ NULL ∧
        (runEvents s es).CurrentThread ∈ ts ∧
        Ring (runEvents s es) ts ∧
        ∀ t ∈ ts, t ≠ (runEvents s es).CurrentThread →
          stackBase s0 t ≤ ((runEvents s es).threads t).StackPointer ∧
          ((runEvents s es).threads t).StackPointer + 6 ≤ stackTop s0 t ∧
          ∃ k : SavedContext,
            HoldsContext (runEvents s es) ((runEvents s es).threads t).StackPointer k ∧
            (k = syntheticContext (s0.threads t).Thread ∨
              ∃ es1 ra1 es2, es = es1 ++ Event.tick ra1 :: es2 ∧
                (runEvents s es1).CurrentThread = t ∧
                k = suspendedContext (runEvents s es1) ra1) := by
  obtain ⟨s, h1, hset⟩ := OS_Init_settled s0 ts hr hl hne fuel hf h9 ra
  refine ⟨s, h1, ?_⟩
  intro es ha
  obtain ⟨⟨i, hi, hcur⟩, hring, -, hframes⟩ := settled_run s0 ts hr hl es _ s hset ha
  have hmem : (runEvents s es).CurrentThread ∈ ts := by rw [hcur]; exact nth_mem ts i hi
  refine ⟨hr.nonnull _ hmem, hmem, hring, ?_⟩
  intro t ht hne2
  obtain ⟨b1, b2, b3⟩ := hframes t ht hne2
  refine ⟨by omega, b2, _, b3, ?_⟩
  rcases savedAfter_cases es (fun t => syntheticContext (s0.threads t).Thread) s t with h | h
  · exact Or.inl h
  · exact Or.inr h

/-- C15 at the concrete boot image: after two Tick Source firings with an ElapsedClock firing
in between, the running thread is a registered one and the ring is closed. -/
theorem C15_saved_frame_invariant_witness :
    Registrable demoMachine demoThreads ∧ StackLayout demoMachine demoThreads ∧
    ∃ s, OS_Init 9 0xF000 (addThreads demoThreads demoMachine) = some s ∧
      AdmissibleRun demoMachine s [Event.tick 0xE010, Event.pulse, Event.tick 0xE110] ∧
      (runEvents s [Event.tick 0xE010, Event.pulse, Event.tick 0xE110]).CurrentThread
        ∈ demoThreads ∧
      Ring (runEvents s [Event.tick 0xE010, Event.pulse, Event.tick 0xE110]) demoThreads := by
  obtain ⟨s, h1, h2⟩ := C15_saved_frame_invariant demoMachine demoThreads demo_registrable
    demo_layout (by decide) 9 (by decide) (by decide) 0xF000
  have ha : AdmissibleRun demoMachine s [Event.tick 0xE010, Event.pulse, Event.tick 0xE110] :=
    ⟨trivial, trivial, trivial, trivial⟩
  exact ⟨demo_registrable, demo_layout, s, h1, ha, (h2 _ ha).2.1, (h2 _ ha).2.2.1⟩

end SchedulerQG8
